import Mathlib

/-!
# JMK containers: vector, list, queue, stack

A shallow embedding of `src/vector.hpp`, `src/list.hpp`, `src/array.hpp`,
`src/queue.hpp` and `src/stack.hpp`, and theorems about it.

Conventions of the embedding

* A heap block is a `List` of cells together with an identity (`m_blk`), so a
  pointer into a block that has been released is told apart from a pointer
  into the block that replaced it.
* Every operation returns `Except Fault _`.  `Fault.assertion` is a failed
  `assert`; `Fault.out_of_bounds`, `Fault.null_deref` and `Fault.uninitialised`
  (the read of a member or pointer nothing was stored in) are accesses that
  have no defined behaviour in C++; `Fault.ill_formed` is a call of a member
  function that is ill-formed for the element type, so that the program does
  not compile; `Fault.diverges` is a loop that never exits.
* `size_t` values are natural numbers.  The only arithmetic that can leave the
  range at small sizes is a decrement of zero, which `size_t_dec` wraps.
* An object is constructed in `storage`: the members of an object of static
  storage duration are zero before its constructor runs, those of an automatic
  or dynamic object are indeterminate.  The constructors of `vector` store
  `m_growth_factor` only and then read `m_capacity` and `m_size`.
* `m_growth_factor` is a `float` in the source, and `m_capacity *
  m_growth_factor` is a `float` product.  The embedding keeps the value of the
  factor as an exact ratio and rounds the converted capacity and the product
  to 24 significant bits, to nearest and ties to even, before it truncates
  (`fp_cast`); the `double` product of the unbounded queue is rounded to 53
  bits.  The exponent range is not bounded.
* `vector<_T>::iterator::operator+` and `operator-` end in `return *copy;`,
  which converts the element `*copy` to an iterator: they are ill-formed
  unless the element type has a conversion function to `iterator` (`element`).
  The elements are values, with nothing to run when one is destroyed.
* `vector::insert` and `emplace` compare an `iterator` with a
  `const_iterator` and compile for no element type; they are embedded with
  the evident meaning of their body (`it - 1` is the pointer before `it`,
  `it != pos` compares addresses).
-/

namespace JMK

/-! ## Faults, cells, loops -/

/-- Ways in which an operation leaves the defined behaviour of the program. -/
inductive Fault where
  | assertion
  | out_of_bounds
  | null_deref
  | division_by_zero
  | uninitialised
  | ill_formed
  | diverges
  deriving DecidableEq, Repr

/-- The storage an object is constructed in.  An object of static storage
duration is zero-initialised before its constructor runs; the members of an
automatic or dynamic object hold indeterminate values until they are written. -/
inductive storage where
  | zeroed
  | indeterminate
  deriving DecidableEq, Repr

deriving instance DecidableEq for Except

/-- Read of cell `i` of a block. -/
def load {α : Type} (cells : List α) (i : Nat) : Except Fault α :=
  match cells[i]? with
  | some x => .ok x
  | none => .error .out_of_bounds

/-- Write of cell `i` of a block. -/
def store {α : Type} (cells : List α) (i : Nat) (x : α) : Except Fault (List α) :=
  if i < cells.length then .ok (cells.set i x) else .error .out_of_bounds

/-- The `size_t` decrement `--n`, which wraps at zero. -/
def size_t_dec (n : Nat) : Nat :=
  if n = 0 then 2 ^ 64 - 1 else n - 1

/-- The largest `size_t`, `std::numeric_limits<size_t>::max()`. -/
def size_t_max : Nat := 2 ^ 64 - 1

/-- The `size_t` difference `a - b`, which wraps below zero. -/
def size_t_sub (a b : Nat) : Nat :=
  if b ≤ a then a - b else 2 ^ 64 + a - b

/-- The `size_t` remainder `a % b`. -/
def size_t_mod (a b : Nat) : Except Fault Nat :=
  if b = 0 then .error .division_by_zero else .ok (a % b)

/-- The counted loop `for (i = lo; i < lo + n; ++i) body(i)`. -/
def for_up {σ : Type} (body : Nat → σ → Except Fault σ) : Nat → Nat → σ → Except Fault σ
  | _, 0, s => .ok s
  | i, n + 1, s =>
    match body i s with
    | .ok s1 => for_up body (i + 1) n s1
    | .error e => .error e

/-! ## vector.hpp -/

/-- The binary digits of `n`, counted by halving it, for at most `fuel` rounds. -/
def bit_length_loop : Nat → Nat → Nat
  | 0, _ => 0
  | fuel + 1, n => if n = 0 then 0 else bit_length_loop fuel (n / 2) + 1

/-- The number of binary digits of `n`; `n` rounds are enough for the loop. -/
def bit_length (n : Nat) : Nat := bit_length_loop n n

/-- The quotient `n / d` rounded to the nearest integer, a tie to the even one. -/
def round_half_even (n d : Nat) : Nat :=
  if 2 * (n % d) < d then n / d
  else if 2 * (n % d) = d then (if (n / d) % 2 = 0 then n / d else n / d + 1)
  else n / d + 1

/-- The expression `static_cast<size_t>(x)` for the binary floating-point
number `x` of `p` significant bits that is nearest to `num / den`, ties to
even.  With `b` the number of binary digits of the integer part, the last
place of `x` is worth `2^(b - p)`: for `p ≤ b` the ratio is rounded to a
multiple of it, otherwise it is rounded to `p - b` binary places and the
places are cut off. -/
def fp_cast (p num den : Nat) : Nat :=
  if p ≤ bit_length (num / den) then
    round_half_even num (den * 2 ^ (bit_length (num / den) - p)) * 2 ^ (bit_length (num / den) - p)
  else
    round_half_even (num * 2 ^ (p - bit_length (num / den))) den / 2 ^ (p - bit_length (num / den))

/-- The value of a `float` growth factor, as an exact ratio. -/
structure factor where
  num : Nat
  den : Nat
  deriving DecidableEq, Repr

/-- The expression `static_cast<size_t>(c * f)` for a `size_t` `c` and a
`float` `f`: `c` is converted to `float`, the product is a `float`, and the
conversion to `size_t` truncates it. -/
def factor.scale (f : factor) (c : Nat) : Nat :=
  fp_cast 24 (fp_cast 24 c 1 * f.num) f.den

/-- The literal `1.5f`. -/
def factor.default_growth : factor := ⟨3, 2⟩

/-- The literal `1.1f`, whose `float` value is `9227469 / 2^23`. -/
def factor.min_growth : factor := ⟨9227469, 8388608⟩

/-- The expression `std::max(a, b)` on growth factors. -/
def factor.max (a b : factor) : factor :=
  if a.num * b.den < b.num * a.den then b else a

/-- A `vector<_T>::iterator` or `const_iterator`: a pointer to cell `idx` of block `blk`. -/
structure vector_iterator where
  blk : Nat
  idx : Nat
  deriving DecidableEq, Repr

/-- What `return *copy;` at the end of `vector<_T>::iterator::operator+` and
`operator-` needs of the element type `_T`: a conversion function from `_T`
to `iterator`, here a function of the address and the value of the element.
It is `none` for a type that has none, such as `int`, for which the two
operators are ill-formed. -/
class element (α : Type) where
  to_iterator : Option (vector_iterator → α → vector_iterator)

/-- The element type `int`, or `size_t`. -/
instance : element Nat where
  to_iterator := none

/-- The members of `vector<_T>`.  `m_blk` identifies the block `m_data`
points to and `m_data` lists its cells. -/
structure vector (α : Type) where
  m_blk : Nat
  m_data : List α
  m_size : Nat
  m_capacity : Nat
  m_growth_factor : factor
  deriving DecidableEq, Repr

namespace vector

variable {α : Type}

def size (v : vector α) : Nat := v.m_size

def max_size (_v : vector α) : Nat := size_t_max

def capacity (v : vector α) : Nat := v.m_capacity

def empty (v : vector α) : Bool := v.m_size == 0

/-- Checked access `at(index)`. -/
def «at» (v : vector α) (index : Nat) : Except Fault α :=
  if index < v.size then load v.m_data index else .error .assertion

/-- Unchecked access `operator[]`. -/
def get (v : vector α) (index : Nat) : Except Fault α :=
  load v.m_data index

/-- Assignment through `operator[]`. -/
def set (v : vector α) (index : Nat) (x : α) : Except Fault (vector α) :=
  match store v.m_data index x with
  | .ok d => .ok { v with m_data := d }
  | .error e => .error e

def begin (v : vector α) : vector_iterator := ⟨v.m_blk, 0⟩

def «end» (v : vector α) : vector_iterator := ⟨v.m_blk, v.size⟩

/-- Read through an iterator: the pointer has to point into the live block. -/
def deref (v : vector α) (it : vector_iterator) : Except Fault α :=
  if it.blk = v.m_blk then load v.m_data it.idx else .error .out_of_bounds

/-- Write through an iterator. -/
def assign (v : vector α) (it : vector_iterator) (x : α) : Except Fault (vector α) :=
  if it.blk = v.m_blk then v.set it.idx x else .error .out_of_bounds

/-- `_reserve_impl`: a block of `max(new_capacity, 4)` cells replaces the
current one when that is more than `m_capacity`; the first `m_size` cells are
copied over one by one. -/
def _reserve_impl [Inhabited α] (v : vector α) (new_capacity : Nat) : Except Fault (vector α) :=
  let new_capacity := max new_capacity 4
  if new_capacity ≤ v.m_capacity then .ok v
  else
    match for_up (fun i new_data =>
        match load v.m_data i with
        | .ok x => store new_data i x
        | .error e => .error e) 0 v.m_size (List.replicate new_capacity default) with
    | .ok new_data =>
      .ok { v with m_blk := v.m_blk + 1, m_data := new_data, m_capacity := new_capacity }
    | .error e => .error e

/-- The loop `while (new_capacity < new_size) new_capacity = new_capacity * f`
of `_resize_impl`.  The first argument bounds the number of rounds by
`new_size - new_capacity`; that is exact, because the rounded and truncated
product is monotone in the capacity, so a round that does not raise
`new_capacity` is followed only by rounds that do not raise it either and the
loop never exits. -/
def _resize_capacity (f : factor) (new_size : Nat) : Nat → Nat → Except Fault Nat
  | 0, new_capacity =>
    if new_capacity < new_size then .error .diverges else .ok new_capacity
  | k + 1, new_capacity =>
    if new_capacity < new_size then
      if new_capacity < f.scale new_capacity then
        _resize_capacity f new_size k (f.scale new_capacity)
      else .error .diverges
    else .ok new_capacity

/-- The loop `for (i = m_size; i < new_size; ++i) m_data[i] = _T()`. -/
def _default_fill [Inhabited α] (v : vector α) (new_size : Nat) : Except Fault (List α) :=
  for_up (fun i d => store d i default) v.m_size (new_size - v.m_size) v.m_data

def _resize_impl [Inhabited α] (v : vector α) (new_size : Nat) : Except Fault (vector α) :=
  let new_capacity := max v.m_capacity 4
  match _resize_capacity v.m_growth_factor new_size (new_size - new_capacity) new_capacity with
  | .error e => .error e
  | .ok new_capacity =>
    match v._reserve_impl new_capacity with
    | .error e => .error e
    | .ok v1 =>
      match v1._default_fill new_size with
      | .error e => .error e
      | .ok d => .ok { v1 with m_data := d, m_size := new_size }

def _strict_resize_impl [Inhabited α] (v : vector α) (new_size : Nat) : Except Fault (vector α) :=
  match v._reserve_impl new_size with
  | .error e => .error e
  | .ok v1 =>
    match v1._default_fill new_size with
    | .error e => .error e
    | .ok d => .ok { v1 with m_data := d, m_size := new_size }

def resize [Inhabited α] (v : vector α) (new_size : Nat) : Except Fault (vector α) :=
  v._resize_impl new_size

def reserve [Inhabited α] (v : vector α) (new_capacity : Nat) : Except Fault (vector α) :=
  v._reserve_impl new_capacity

def shrink_to_fit [Inhabited α] (v : vector α) : Except Fault (vector α) :=
  v._strict_resize_impl v.m_size

def set_growth_factor (v : vector α) (f : factor) : vector α :=
  { v with m_growth_factor := factor.max f factor.min_growth }

/-- The loop of `fill`: `for (i = 0; i < size(); ++i) m_data[i] = v`. -/
def fill (v : vector α) (x : α) : Except Fault (vector α) :=
  match for_up (fun i d => store d i x) 0 v.size v.m_data with
  | .ok d => .ok { v with m_data := d }
  | .error e => .error e

/-- The constructor `vector(_T _fill, size_t size)`, for an object in the
storage `st`.  It sets only `m_growth_factor` before it calls `resize`, whose
first statement reads `m_capacity`: in zeroed storage `m_data` is null and
`m_size` and `m_capacity` are 0, in other storage the read is that of an
indeterminate value. -/
def ctor_fill [Inhabited α] (st : storage) (_fill : α) (size : Nat) : Except Fault (vector α) :=
  match st with
  | .indeterminate => .error .uninitialised
  | .zeroed =>
    match (⟨0, [], 0, 0, factor.default_growth⟩ : vector α).resize size with
    | .ok v => v.fill _fill
    | .error e => .error e

/-- The default constructor, `vector() : vector(_T(), 0)`. -/
def ctor [Inhabited α] (st : storage) : Except Fault (vector α) :=
  ctor_fill st default 0

/-- The body shared by `push_back` and `emplace_back`. -/
def push_back [Inhabited α] (v : vector α) (value : α) : Except Fault (vector α) :=
  match (if v.m_size ≥ v.m_capacity then
      v._reserve_impl (v.m_growth_factor.scale v.m_capacity) else .ok v) with
  | .error e => .error e
  | .ok v1 =>
    match store v1.m_data v1.m_size value with
    | .error e => .error e
    | .ok d => .ok { v1 with m_data := d, m_size := v1.m_size + 1 }

def emplace_back [Inhabited α] (v : vector α) (value : α) : Except Fault (vector α) :=
  v.push_back value

def pop_back (v : vector α) : Except Fault (α × vector α) :=
  if v.m_size > 0 then
    match load v.m_data (v.m_size - 1) with
    | .ok x => .ok (x, { v with m_size := v.m_size - 1 })
    | .error e => .error e
  else .error .assertion

/-- The loop `for (auto it = end(); it != pos; --it) *it = *(it - 1)` of
`insert` and `emplace`, with `it` at cell `i` of the live block `blk`.  When
`it` is at cell 0 and differs from `pos`, `*(it - 1)` is a read before the
block. -/
def _shift_right (blk : Nat) (pos : vector_iterator) : Nat → List α → Except Fault (List α)
  | 0, d => if (⟨blk, 0⟩ : vector_iterator) = pos then .ok d else .error .out_of_bounds
  | i + 1, d =>
    if (⟨blk, i + 1⟩ : vector_iterator) = pos then .ok d
    else
      match load d i with
      | .error e => .error e
      | .ok x =>
        match store d (i + 1) x with
        | .error e => .error e
        | .ok d1 => _shift_right blk pos i d1

/-- The body shared by `insert` and `emplace`: grow when full, shift the
cells from `end()` down to `pos` one to the right, construct the value at
`pos`.  `pos` is the iterator the caller passed; it is not recomputed after
`_reserve_impl`. -/
def insert [Inhabited α] (v : vector α) (pos : vector_iterator) (value : α) :
    Except Fault (vector α × vector_iterator) :=
  match (if v.m_size = v.m_capacity then
      v._reserve_impl (v.m_growth_factor.scale v.m_capacity) else .ok v) with
  | .error e => .error e
  | .ok v1 =>
    match _shift_right v1.m_blk pos v1.size v1.m_data with
    | .error e => .error e
    | .ok d =>
      match ({ v1 with m_data := d } : vector α).assign pos value with
      | .error e => .error e
      | .ok v2 => .ok ({ v2 with m_size := v2.m_size + 1 }, pos)

def emplace [Inhabited α] (v : vector α) (pos : vector_iterator) (value : α) :
    Except Fault (vector α × vector_iterator) :=
  v.insert pos value

/-- `iterator::operator+`: `copy.m_value += i; return *copy;`.  The operand
of `return` is the element `*copy`, a cell of the live block, whose cells `d`
lists; the conversion function of the element type makes the iterator that
is returned. -/
def iterator_add [element α] (v : vector α) (d : List α) (it : vector_iterator) (i : Int) :
    Except Fault vector_iterator :=
  match (element.to_iterator : Option (vector_iterator → α → vector_iterator)) with
  | none => .error .ill_formed
  | some conv =>
    if it.blk = v.m_blk ∧ 0 ≤ (it.idx : Int) + i then
      match load d ((it.idx : Int) + i).toNat with
      | .error e => .error e
      | .ok x => .ok (conv ⟨it.blk, ((it.idx : Int) + i).toNat⟩ x)
    else .error .out_of_bounds

/-- `iterator::operator-(difference_type)`: `copy.m_value -= i; return *copy;`. -/
def iterator_sub [element α] (v : vector α) (d : List α) (it : vector_iterator) (i : Int) :
    Except Fault vector_iterator :=
  v.iterator_add d it (-i)

/-- The loop `for (it = from; it != stop; ++it) *(it - width) = *it`, with
`it` a pointer into block `blk`.  The first argument is the number of cells
from `it` to the end of the live block: once `it` is past them, `*it` is a
read outside the block. -/
def _shift_left [element α] (v : vector α) (stop : vector_iterator) (width : Int) :
    Nat → vector_iterator → List α → Except Fault (List α)
  | 0, it, d => if it = stop then .ok d else .error .out_of_bounds
  | k + 1, it, d =>
    if it = stop then .ok d
    else if it.blk = v.m_blk then
      match load d it.idx with
      | .error e => .error e
      | .ok x =>
        match v.iterator_sub d it width with
        | .error e => .error e
        | .ok target =>
          if target.blk = v.m_blk then
            match store d target.idx x with
            | .error e => .error e
            | .ok d1 => _shift_left v stop width k ⟨it.blk, it.idx + 1⟩ d1
          else .error .out_of_bounds
    else .error .out_of_bounds

/-- The loop `for (it = from; it != stop; ++it) destroy(*it)`.  The elements
are values: destroying one runs nothing and reads nothing.  The first
argument bounds the number of rounds by the distance from `it` up to `stop`;
that is exact, because `it` only moves up: when it has not met `stop` after
that many rounds it is past `stop`, or in another block, and never meets it. -/
def _destroy_range (stop : vector_iterator) : Nat → vector_iterator → Except Fault Unit
  | 0, it => if it = stop then .ok () else .error .diverges
  | k + 1, it =>
    if it = stop then .ok ()
    else _destroy_range stop k ⟨it.blk, it.idx + 1⟩

/-- `erase(iterator pos)`: destroy `*pos`, move the cells from `pos + 1` up to
`end()` one to the left, decrement `m_size`. -/
def erase [element α] (v : vector α) (pos : vector_iterator) :
    Except Fault (vector α × vector_iterator) :=
  match v.iterator_add v.m_data pos 1 with
  | .error e => .error e
  | .ok first =>
    match _shift_left v v.end 1 (v.m_data.length - first.idx) first v.m_data with
    | .error e => .error e
    | .ok d => .ok ({ v with m_data := d, m_size := size_t_dec v.m_size }, pos)

/-- `erase(iterator _beg, iterator _end)`: destroy the cells from `_beg + 1`
up to `_end`, move the cells from `_end` up to `end()` to the left by
`_end - _beg`, decrement `m_size`. -/
def erase_range [element α] (v : vector α) (_beg _end : vector_iterator) :
    Except Fault (vector α × vector_iterator) :=
  match v.iterator_add v.m_data _beg 1 with
  | .error e => .error e
  | .ok first =>
    match _destroy_range _end (_end.idx - first.idx) first with
    | .error e => .error e
    | .ok _ =>
      match _shift_left v v.end ((_end.idx : Int) - (_beg.idx : Int))
          (v.m_data.length - _end.idx) _end v.m_data with
      | .error e => .error e
      | .ok d => .ok ({ v with m_data := d, m_size := size_t_dec v.m_size }, _beg)

/-- `clear()` is `erase(begin(), end())`. -/
def clear [element α] (v : vector α) : Except Fault (vector α) :=
  match v.erase_range v.begin v.end with
  | .error e => .error e
  | .ok r => .ok r.1

end vector

/-! ## array.hpp -/

/-- The member of `array<_T, _N>`: the `_N` cells of `m_data`. -/
structure array (α : Type) (N : Nat) where
  m_data : List α
  deriving DecidableEq, Repr

namespace array

variable {α : Type} {N : Nat}

def size (_a : array α N) : Nat := N

def max_size (_a : array α N) : Nat := N

def empty (_a : array α N) : Bool := N == 0

/-- Modelled from the spec: `array::capacity()`, which `queue<_T, _N>::_cycle_storage`
calls and `array.hpp` does not declare.  The spec's bounded queue writes to slot
`(head + count) mod capacity` of a fixed block; the block of `array<_T, _N>` has
`_N` cells. -/
def capacity (_a : array α N) : Nat := N

/-- Checked access `at(index)`. -/
def «at» (a : array α N) (index : Nat) : Except Fault α :=
  if index < a.size then load a.m_data index else .error .assertion

/-- Unchecked access `operator[]`. -/
def get (a : array α N) (index : Nat) : Except Fault α :=
  load a.m_data index

/-- Assignment through `operator[]`. -/
def set (a : array α N) (index : Nat) (x : α) : Except Fault (array α N) :=
  match store a.m_data index x with
  | .ok d => .ok ⟨d⟩
  | .error e => .error e

/-- The loop of `fill`: `for (i = 0; i < _N; ++i) m_data[i] = v`. -/
def fill (a : array α N) (x : α) : Except Fault (array α N) :=
  match for_up (fun i d => store d i x) 0 N a.m_data with
  | .ok d => .ok ⟨d⟩
  | .error e => .error e

/-- The constructor `array(_T _fill)`, on the `_N` cells of the new object. -/
def ctor_fill [Inhabited α] (_fill : α) : Except Fault (array α N) :=
  (⟨List.replicate N default⟩ : array α N).fill _fill

/-- The default constructor, `array() : array(_T())`. -/
def ctor [Inhabited α] : Except Fault (array α N) :=
  ctor_fill default

end array

/-! ## queue.hpp: the bounded queue `queue<_T, _N>` -/

/-- The members of `queue<_T, _N>`. -/
structure queue (α : Type) (N : Nat) where
  m_data : array α N
  m_size : Nat
  m_index : Nat
  deriving DecidableEq, Repr

namespace queue

variable {α : Type} {N : Nat}

/-- The defaulted constructor: `m_data` default-constructed, `m_size = 0`, `m_index = 0`. -/
def ctor [Inhabited α] : Except Fault (queue α N) :=
  match (array.ctor : Except Fault (array α N)) with
  | .ok a => .ok ⟨a, 0, 0⟩
  | .error e => .error e

def size (q : queue α N) : Nat := q.m_size

def max_size (q : queue α N) : Nat := q.m_data.max_size

def empty (q : queue α N) : Bool := q.m_data.empty

def front (q : queue α N) : Except Fault α :=
  if q.m_size ≠ 0 then q.m_data.at q.m_index else .error .assertion

def _cycle_storage (q : queue α N) (data : α) : Except Fault (queue α N) :=
  let cyclic_capacity := q.m_data.capacity
  if q.m_size < q.m_data.size then
    match size_t_mod (q.m_index + q.m_size) cyclic_capacity with
    | .error e => .error e
    | .ok slot =>
      match q.m_data.set slot data with
      | .error e => .error e
      | .ok a => .ok { q with m_data := a, m_size := q.m_size + 1 }
  else .error .assertion

/-- The body shared by `enqueue(const _T&)` and `enqueue(_T&&)`. -/
def enqueue (q : queue α N) (item : α) : Except Fault (queue α N) :=
  if q.m_size < q.m_data.max_size then q._cycle_storage item else .error .assertion

def _shift_entry (q : queue α N) : Except Fault (queue α N) :=
  match size_t_mod (q.m_index + 1) q.m_data.size with
  | .error e => .error e
  | .ok i => .ok { q with m_index := i, m_size := size_t_dec q.m_size }

def dequeue (q : queue α N) : Except Fault (α × queue α N) :=
  if q.m_size ≠ 0 then
    match q.m_data.at q.m_index with
    | .error e => .error e
    | .ok res =>
      match q._shift_entry with
      | .error e => .error e
      | .ok q1 => .ok (res, q1)
  else .error .assertion

end queue

/-- A call made on a queue. -/
inductive queue_call (α : Type) where
  | enqueue (item : α)
  | dequeue
  deriving DecidableEq, Repr

/-- Makes the calls in order on a bounded queue; returns the final queue and
the values the `dequeue` calls returned, in call order. -/
def queue.run {α : Type} {N : Nat} : queue α N → List (queue_call α) → Except Fault (queue α N × List α)
  | q, [] => .ok (q, [])
  | q, .enqueue x :: cs =>
    match q.enqueue x with
    | .error e => .error e
    | .ok q1 => queue.run q1 cs
  | q, .dequeue :: cs =>
    match q.dequeue with
    | .error e => .error e
    | .ok (x, q1) =>
      match queue.run q1 cs with
      | .error e => .error e
      | .ok (q2, out) => .ok (q2, x :: out)

/-! ## queue.hpp: the unbounded queue `queue<_T, 0>` -/

/-- What `std::memcpy` needs to know of an element type: the number of bytes
of a value, and the value whose first `k` bytes are those of `src` and whose
other bytes are those of `dst`. -/
class object (α : Type) where
  sizeof : Nat
  splice : Nat → α → α → α

/-- The element type `unsigned char`. -/
abbrev uchar : Type := Fin 256

instance : object uchar where
  sizeof := 1
  splice k src dst := if k = 0 then dst else src

instance : element uchar where
  to_iterator := none

/-- An element type made to have `vector::erase` compile: a struct of one
`unsigned char` member and the conversion function
`operator iterator() { return iterator(this); }`, which gives the address of
the element. -/
structure boxed where
  val : uchar
  deriving DecidableEq, Repr

instance : Inhabited boxed where
  default := ⟨0⟩

instance : element boxed where
  to_iterator := some (fun address _ => address)

instance : object boxed where
  sizeof := 1
  splice k src dst := if k = 0 then dst else src

/-- The call `std::memcpy(&dst[doff], &src[soff], nbytes)`: the whole
elements that fit in `nbytes` bytes are copied, then the leading bytes of one
more element when `nbytes` is not a multiple of the element size. -/
def memcpy {α : Type} [object α] (dst : List α) (doff : Nat) (src : List α) (soff : Nat)
    (nbytes : Nat) : Except Fault (List α) :=
  match for_up (fun i d =>
      match load src (soff + i) with
      | .ok x => store d (doff + i) x
      | .error e => .error e) 0 (nbytes / object.sizeof α) dst with
  | .error e => .error e
  | .ok d =>
    if nbytes % object.sizeof α = 0 then .ok d
    else
      match load src (soff + nbytes / object.sizeof α) with
      | .error e => .error e
      | .ok x =>
        match load d (doff + nbytes / object.sizeof α) with
        | .error e => .error e
        | .ok y =>
          store d (doff + nbytes / object.sizeof α) (object.splice (nbytes % object.sizeof α) x y)

/-- The members of `queue<_T, 0>`. -/
structure queue0 (α : Type) where
  m_data : vector α
  m_index : Nat
  m_size : Nat
  deriving DecidableEq, Repr

namespace queue0

variable {α : Type}

/-- The defaulted constructor, for an object in the storage `st`: `m_data`
default-constructed in it, `m_index = 0`, `m_size = 0`. -/
def ctor [Inhabited α] (st : storage) : Except Fault (queue0 α) :=
  match (vector.ctor st : Except Fault (vector α)) with
  | .ok v => .ok ⟨v, 0, 0⟩
  | .error e => .error e

def size (q : queue0 α) : Nat := q.m_size

def max_size (q : queue0 α) : Nat := q.m_data.max_size

def empty (q : queue0 α) : Bool := q.m_size == 0

def front (q : queue0 α) : Except Fault α :=
  if q.size ≠ 0 then q.m_data.get q.m_index else .error .assertion

/-- The expression `static_cast<size_t>(m_data.capacity() * 1.5)`, a `double`
product. -/
def ring_growth (capacity : Nat) : Nat :=
  fp_cast 53 (fp_cast 53 capacity 1 * 3) 2

/-- The statements of `_realloc_storage` behind the declaration of
`new_storage`, on the path `m_index > 0`: `new_storage` is resized to
`m_data.capacity() * 1.5` elements, receives `m_data.size() - m_index` bytes
from cell `m_index` on and `m_index` bytes from cell 0 on, and replaces
`m_data`; `m_index` is left as it is. -/
def _realloc_from [Inhabited α] [object α] (q : queue0 α) (new_storage : vector α) :
    Except Fault (queue0 α) :=
  match new_storage.resize (ring_growth q.m_data.capacity) with
  | .error e => .error e
  | .ok new_storage =>
    match memcpy new_storage.m_data 0 q.m_data.m_data q.m_index
        (size_t_sub q.m_data.size q.m_index) with
    | .error e => .error e
    | .ok d1 =>
      match memcpy d1 (size_t_sub q.m_data.size q.m_index) q.m_data.m_data 0 q.m_index with
      | .error e => .error e
      | .ok d2 => .ok { q with m_data := { new_storage with m_data := d2 } }

/-- `_realloc_storage`.  With `m_index > 0` it declares the local
`JMK::vector<_T> new_storage;`, an automatic object, whose constructor runs
on indeterminate members, and goes on with it.  With `m_index == 0` the
vector is resized in place. -/
def _realloc_storage [Inhabited α] [object α] (q : queue0 α) : Except Fault (queue0 α) :=
  if q.m_index > 0 then
    match (vector.ctor .indeterminate : Except Fault (vector α)) with
    | .error e => .error e
    | .ok new_storage => q._realloc_from new_storage
  else
    match q.m_data.resize (ring_growth q.m_data.capacity) with
    | .error e => .error e
    | .ok v => .ok { q with m_data := v }

/-- The body shared by `_cycle_storage(const _T&)` and `_cycle_storage(_T&&)`. -/
def _cycle_storage [Inhabited α] [object α] (q : queue0 α) (data : α) : Except Fault (queue0 α) :=
  match (if q.m_size ≥ q.m_data.size then q._realloc_storage else .ok q) with
  | .error e => .error e
  | .ok q1 =>
    match size_t_mod (q1.m_index + q1.m_size) q1.m_data.size with
    | .error e => .error e
    | .ok slot =>
      match q1.m_data.set slot data with
      | .error e => .error e
      | .ok v => .ok { q1 with m_data := v, m_size := q1.m_size + 1 }

/-- The overload `enqueue(const _T&)`. -/
def enqueue [Inhabited α] [object α] (q : queue0 α) (item : α) : Except Fault (queue0 α) :=
  if q.m_size < q.max_size then q._cycle_storage item else .error .assertion

/-- The overload `enqueue(_T&&)`: `m_data.push_back(item)`, then `_cycle_storage`. -/
def enqueue_rvalue [Inhabited α] [object α] (q : queue0 α) (item : α) : Except Fault (queue0 α) :=
  match q.m_data.push_back item with
  | .error e => .error e
  | .ok v => ({ q with m_data := v } : queue0 α)._cycle_storage item

def _shift_entry (q : queue0 α) : Except Fault (queue0 α) :=
  match size_t_mod (q.m_index + 1) q.m_data.size with
  | .error e => .error e
  | .ok i => .ok { q with m_index := i, m_size := size_t_dec q.m_size }

def dequeue (q : queue0 α) : Except Fault (α × queue0 α) :=
  if q.m_size ≠ 0 then
    match q.m_data.at q.m_index with
    | .error e => .error e
    | .ok res =>
      match q._shift_entry with
      | .error e => .error e
      | .ok q1 => .ok (res, q1)
  else .error .assertion

/-- `clear()`: `m_data.clear()`, then `m_size = 0`. -/
def clear [element α] (q : queue0 α) : Except Fault (queue0 α) :=
  match q.m_data.clear with
  | .error e => .error e
  | .ok v => .ok { q with m_data := v, m_size := 0 }

/-- Makes the calls in order on an unbounded queue, each `enqueue` through the
`const _T&` overload; returns the final queue and the values the `dequeue`
calls returned, in call order. -/
def run [Inhabited α] [object α] : queue0 α → List (queue_call α) → Except Fault (queue0 α × List α)
  | q, [] => .ok (q, [])
  | q, .enqueue x :: cs =>
    match q.enqueue x with
    | .error e => .error e
    | .ok q1 => run q1 cs
  | q, .dequeue :: cs =>
    match q.dequeue with
    | .error e => .error e
    | .ok (x, q1) =>
      match run q1 cs with
      | .error e => .error e
      | .ok (q2, out) => .ok (q2, x :: out)

end queue0

/-! ## list.hpp -/

/-- A value of type `_node*`: null, the address `(_node*)&m_begin` of the list
object itself (the sentinel), the address of a node obtained from `new _node`,
or the indeterminate value of a pointer member nothing was stored in yet. -/
inductive node_ptr where
  | null
  | sentinel
  | node (addr : Nat)
  | indeterminate
  deriving DecidableEq, Repr

/-- The members of `list<_T>::_node`. -/
structure _node (α : Type) where
  m_next : node_ptr
  m_prev : node_ptr
  m_item : α
  deriving DecidableEq, Repr

/-- The members of `list<_T>`, and the nodes it obtained from `new _node`:
`heap[a]` is the node at address `a`, `none` once it was deleted.  The
sentinel is the list object read as a `_node`, so its `m_next` is the member
`m_begin` and its `m_prev` is the member `m_end`. -/
structure list (α : Type) where
  heap : List (Option (_node α))
  m_begin : node_ptr
  m_end : node_ptr
  m_size : Nat
  deriving DecidableEq, Repr

/-- A `list<_T>::iterator`: the node it points to. -/
abbrev list_iterator : Type := node_ptr

namespace list

variable {α : Type}

def _sentinel_node (_l : list α) : node_ptr := .sentinel

/-- The node a pointer points to, when it is a live heap node. -/
def node_at (l : list α) : node_ptr → Except Fault (_node α)
  | .null => .error .null_deref
  | .sentinel => .error .out_of_bounds
  | .indeterminate => .error .out_of_bounds
  | .node a =>
    match l.heap[a]? with
    | some (some n) => .ok n
    | _ => .error .out_of_bounds

/-- The read `p->m_next`. -/
def get_next (l : list α) (p : node_ptr) : Except Fault node_ptr :=
  match p with
  | .sentinel => .ok l.m_begin
  | _ =>
    match l.node_at p with
    | .ok n => .ok n.m_next
    | .error e => .error e

/-- The read `p->m_prev`. -/
def get_prev (l : list α) (p : node_ptr) : Except Fault node_ptr :=
  match p with
  | .sentinel => .ok l.m_end
  | _ =>
    match l.node_at p with
    | .ok n => .ok n.m_prev
    | .error e => .error e

/-- The read `p->m_item`.  The sentinel has no item. -/
def get_item (l : list α) (p : node_ptr) : Except Fault α :=
  match l.node_at p with
  | .ok n => .ok n.m_item
  | .error e => .error e

/-- Replaces the live heap node `p` points to. -/
def put_node (l : list α) (p : node_ptr) (f : _node α → _node α) : Except Fault (list α) :=
  match p with
  | .node a =>
    match l.heap[a]? with
    | some (some n) => .ok { l with heap := l.heap.set a (some (f n)) }
    | _ => .error .out_of_bounds
  | .null => .error .null_deref
  | _ => .error .out_of_bounds

/-- The write `p->m_next = q`. -/
def set_next (l : list α) (p q : node_ptr) : Except Fault (list α) :=
  match p with
  | .sentinel => .ok { l with m_begin := q }
  | _ => l.put_node p (fun n => { n with m_next := q })

/-- The write `p->m_prev = q`. -/
def set_prev (l : list α) (p q : node_ptr) : Except Fault (list α) :=
  match p with
  | .sentinel => .ok { l with m_end := q }
  | _ => l.put_node p (fun n => { n with m_prev := q })

/-- The write `p->m_item = x`. -/
def set_item (l : list α) (p : node_ptr) (x : α) : Except Fault (list α) :=
  l.put_node p (fun n => { n with m_item := x })

/-- The expression `new _node`: a node at a fresh address, its pointer members
not yet written. -/
def new_node [Inhabited α] (l : list α) : list α × node_ptr :=
  ({ l with heap := l.heap ++ [some ⟨.indeterminate, .indeterminate, default⟩] },
    .node l.heap.length)

/-- The statement `delete p`. -/
def delete (l : list α) (p : node_ptr) : Except Fault (list α) :=
  match p with
  | .null => .ok l
  | .node a =>
    match l.heap[a]? with
    | some (some _) => .ok { l with heap := l.heap.set a none }
    | _ => .error .out_of_bounds
  | _ => .error .out_of_bounds

/-- The state the constructors reach before they add elements:
`m_end(nullptr), m_size(0)` and `m_begin = _sentinel_node()`. -/
def ctor : list α := ⟨[], .sentinel, .null, 0⟩

def size (l : list α) : Nat := l.m_size

def empty (l : list α) : Bool := l.m_size == 0

def begin (l : list α) : list_iterator := l.m_begin

def «end» (l : list α) : list_iterator := l._sentinel_node

def _append_node (l : list α) (n : node_ptr) : Except Fault (list α) :=
  if l.m_begin = l._sentinel_node then
    let l1 : list α := { l with m_begin := n, m_end := n }
    match l1.set_next l1.m_begin l1._sentinel_node with
    | .error e => .error e
    | .ok l2 =>
      match l2.set_prev l2.m_begin .null with
      | .error e => .error e
      | .ok l3 => .ok { l3 with m_size := 1 }
  else
    match l.set_next l.m_end n with
    | .error e => .error e
    | .ok l1 =>
      match l1.set_prev n l1.m_end with
      | .error e => .error e
      | .ok l2 =>
        match l2.set_next n l2._sentinel_node with
        | .error e => .error e
        | .ok l3 => .ok { l3 with m_end := n, m_size := l3.m_size + 1 }

def _prepend_node (l : list α) (n : node_ptr) : Except Fault (list α) :=
  if l.m_begin = l._sentinel_node then
    let l1 : list α := { l with m_begin := n, m_end := n }
    match l1.set_next l1.m_begin l1._sentinel_node with
    | .error e => .error e
    | .ok l2 =>
      match l2.set_prev l2.m_begin .null with
      | .error e => .error e
      | .ok l3 => .ok { l3 with m_size := 1 }
  else
    match l.set_prev l.m_begin n with
    | .error e => .error e
    | .ok l1 =>
      match l1.set_next n l1.m_begin with
      | .error e => .error e
      | .ok l2 =>
        match l2.set_prev n .null with
        | .error e => .error e
        | .ok l3 => .ok { l3 with m_begin := n, m_size := l3.m_size + 1 }

def _insert_node (l : list α) (n «at» : node_ptr) : Except Fault (list α) :=
  if «at» = l._sentinel_node then l._append_node n
  else if «at» = l.m_begin then l._prepend_node n
  else
    let next := «at»
    match l.get_prev «at» with
    | .error e => .error e
    | .ok prev =>
      match l.set_prev n prev with
      | .error e => .error e
      | .ok l1 =>
        match l1.set_next n next with
        | .error e => .error e
        | .ok l2 =>
          match l2.set_next prev n with
          | .error e => .error e
          | .ok l3 =>
            match l3.set_prev next n with
            | .error e => .error e
            | .ok l4 => .ok { l4 with m_size := l4.m_size + 1 }

def _remove_node (l : list α) («at» : node_ptr) : Except Fault (list α) :=
  if «at» = l._sentinel_node then .ok l
  else
    match l.get_prev «at» with
    | .error e => .error e
    | .ok prev =>
      match l.get_next «at» with
      | .error e => .error e
      | .ok next =>
        match l.set_next prev next with
        | .error e => .error e
        | .ok l1 =>
          match l1.set_prev next prev with
          | .error e => .error e
          | .ok l2 => .ok { l2 with m_size := size_t_dec l2.m_size }

/-- `insert(pos, value)`: returns the list and the iterator to the new node. -/
def insert [Inhabited α] (l : list α) (pos : list_iterator) (value : α) :
    Except Fault (list α × list_iterator) :=
  let (l1, new_node) := l.new_node
  match l1.set_item new_node value with
  | .error e => .error e
  | .ok l2 =>
    match l2._insert_node new_node pos with
    | .error e => .error e
    | .ok l3 => .ok (l3, new_node)

/-- `erase(pos)`: returns the list and the iterator to the node after `pos`. -/
def erase (l : list α) (pos : list_iterator) : Except Fault (list α × list_iterator) :=
  match l.get_next pos with
  | .error e => .error e
  | .ok next =>
    match l._remove_node pos with
    | .error e => .error e
    | .ok l1 =>
      match l1.delete pos with
      | .error e => .error e
      | .ok l2 => .ok (l2, next)

/-- The nodes `for (it = p; it != end(); ++it)` visits.  The first argument
bounds the number of steps by the number of heap nodes: a walk that takes more
steps is at a node it has visited before and never reaches the sentinel. -/
def walk_forward (l : list α) : Nat → node_ptr → Except Fault (List node_ptr)
  | 0, p => if p = l._sentinel_node then .ok [] else .error .diverges
  | k + 1, p =>
    if p = l._sentinel_node then .ok []
    else
      match l.get_next p with
      | .error e => .error e
      | .ok next =>
        match walk_forward l k next with
        | .error e => .error e
        | .ok ps => .ok (p :: ps)

/-- The nodes `for (it = p; it != begin(); ) { --it; visit(it); }` visits. -/
def walk_backward (l : list α) : Nat → node_ptr → Except Fault (List node_ptr)
  | 0, p => if p = l.m_begin then .ok [] else .error .diverges
  | k + 1, p =>
    if p = l.m_begin then .ok []
    else
      match l.get_prev p with
      | .error e => .error e
      | .ok prev =>
        match walk_backward l k prev with
        | .error e => .error e
        | .ok ps => .ok (prev :: ps)

/-- The nodes visited from `begin()` up to `end()`. -/
def forward (l : list α) : Except Fault (List node_ptr) :=
  l.walk_forward l.heap.length l.begin

/-- The nodes visited from `end()` down to `begin()`. -/
def backward (l : list α) : Except Fault (List node_ptr) :=
  l.walk_backward l.heap.length l.end

/-- The items `*it` of a sequence of iterators. -/
def items (l : list α) : List node_ptr → Except Fault (List α)
  | [] => .ok []
  | p :: ps =>
    match l.get_item p with
    | .error e => .error e
    | .ok x =>
      match items l ps with
      | .error e => .error e
      | .ok xs => .ok (x :: xs)

/-- The element sequence: the items read on the walk from `begin()` to `end()`. -/
def to_list (l : list α) : Except Fault (List α) :=
  match l.forward with
  | .error e => .error e
  | .ok ps => l.items ps

end list

/-! ## Representation invariants and call sequences -/

/-- The state of a vector is well formed: the block has `m_capacity` cells and
the elements fit in it. -/
def vector.wf {α : Type} (v : vector α) : Prop :=
  v.m_data.length = v.m_capacity ∧ v.m_size ≤ v.m_capacity

/-- Successive `push_back` calls. -/
def vector.push_all {α : Type} [Inhabited α] : vector α → List α → Except Fault (vector α)
  | v, [] => .ok v
  | v, x :: xs =>
    match v.push_back x with
    | .error e => .error e
    | .ok v1 => vector.push_all v1 xs

/-- The values the `enqueue` calls of a call sequence pass, in call order. -/
def queue_call.enqueued {α : Type} : List (queue_call α) → List α
  | [] => []
  | .enqueue x :: cs => x :: queue_call.enqueued cs
  | .dequeue :: cs => queue_call.enqueued cs

/-- The number of `dequeue` calls of a call sequence. -/
def queue_call.dequeues {α : Type} : List (queue_call α) → Nat
  | [] => 0
  | .enqueue _ :: cs => queue_call.dequeues cs
  | .dequeue :: cs => queue_call.dequeues cs + 1

/-- The calls respect the preconditions of a queue bounded by `N` that holds
`count` elements: `count < N` at each `enqueue`, `count > 0` at each `dequeue`. -/
def queue_call.admissible {α : Type} (N : Nat) : Nat → List (queue_call α) → Prop
  | _, [] => True
  | count, .enqueue _ :: cs => count < N ∧ queue_call.admissible N (count + 1) cs
  | count, .dequeue :: cs => 0 < count ∧ queue_call.admissible N (count - 1) cs

/-- The bounded queue `q` holds the logical sequence `xs`: element `i` is in
cell `(m_index + i) % N` of the block. -/
def queue.holds {α : Type} {N : Nat} (q : queue α N) (xs : List α) : Prop :=
  q.m_data.m_data.length = N ∧ q.m_index < N ∧ q.m_size = xs.length ∧ xs.length ≤ N
    ∧ ∀ i, i < xs.length → q.m_data.m_data[(q.m_index + i) % N]? = xs[i]?

/-- The pointer to the last of the nodes at addresses `ps`, or `prev` when
there is none. -/
def list.last_ptr : node_ptr → List Nat → node_ptr
  | prev, [] => prev
  | _, a :: as => list.last_ptr (.node a) as

/-- From `cur`, following `m_next`, the live nodes at addresses `ps` come one
after the other and then `stop`; the `m_prev` of each is the node before it,
and that of the first is `prev`. -/
def list.chain {α : Type} (heap : List (Option (_node α))) :
    node_ptr → node_ptr → List Nat → node_ptr → Prop
  | _, cur, [], stop => cur = stop
  | prev, cur, a :: as, stop =>
    cur = .node a ∧ ∃ n, heap[a]? = some (some n) ∧ n.m_prev = prev
      ∧ list.chain heap (.node a) n.m_next as stop

/-- The list is the sequence of nodes at the distinct addresses `ps`: they
are chained from `m_begin` to the sentinel, the first has a null `m_prev`,
`m_end` is the last of them, and `m_size` is their number. -/
def list.wf {α : Type} (l : list α) (ps : List Nat) : Prop :=
  ps.Nodup ∧ list.chain l.heap .null l.m_begin ps .sentinel
    ∧ (ps ≠ [] → l.m_end = list.last_ptr .null ps) ∧ l.m_size = ps.length

/-- The iterators of a list with nodes `ps`, from `begin()` to `end()`. -/
def list.positions (ps : List Nat) : List node_ptr :=
  ps.map node_ptr.node ++ [node_ptr.sentinel]

/-- Successive `insert(end(), x)` calls. -/
def list.insert_all {α : Type} [Inhabited α] : list α → List α → Except Fault (list α)
  | l, [] => .ok l
  | l, x :: xs =>
    match l.insert l.end x with
    | .error e => .error e
    | .ok (l1, _) => list.insert_all l1 xs

/-! ## vector.hpp: `front` and `back` -/

/-- `front()`: `m_data[0]`, unchecked. -/
def vector.front {α : Type} (v : vector α) : Except Fault α :=
  load v.m_data 0

/-- `back()`: `m_data[m_size - 1]`, unchecked. -/
def vector.back {α : Type} (v : vector α) : Except Fault α :=
  load v.m_data (size_t_sub v.m_size 1)

/-! ## list.hpp: iterator arithmetic, element access, push and pop -/

namespace list

variable {α : Type}

/-- The loop `while (i > 0) { p = p->m_next; i -= 1; }` of `iterator::operator+`. -/
def advance (l : list α) : Nat → node_ptr → Except Fault node_ptr
  | 0, p => .ok p
  | i + 1, p =>
    match l.get_next p with
    | .error e => .error e
    | .ok q => advance l i q

/-- The loop `while (i > 0) { p = p->m_prev; i -= 1; }` of `iterator::operator-`. -/
def retreat (l : list α) : Nat → node_ptr → Except Fault node_ptr
  | 0, p => .ok p
  | i + 1, p =>
    match l.get_prev p with
    | .error e => .error e
    | .ok q => retreat l i q

/-- The expression `it + i`. -/
def iterator_add (l : list α) (it : list_iterator) (i : Int) : Except Fault list_iterator :=
  if i < 0 then l.retreat (-i).toNat it else l.advance i.toNat it

/-- The expression `it - i`. -/
def iterator_sub (l : list α) (it : list_iterator) (i : Int) : Except Fault list_iterator :=
  if i < 0 then l.advance (-i).toNat it else l.retreat i.toNat it

/-- Checked access `at(index)`: `*(begin() + index)`. -/
def «at» (l : list α) (index : Nat) : Except Fault α :=
  if index < l.size then
    match l.iterator_add l.begin index with
    | .error e => .error e
    | .ok it => l.get_item it
  else .error .assertion

/-- `front()`: `*begin()`. -/
def front (l : list α) : Except Fault α :=
  l.get_item l.begin

/-- `back()`: `*(end() - 1)`. -/
def back (l : list α) : Except Fault α :=
  match l.iterator_sub l.end 1 with
  | .error e => .error e
  | .ok it => l.get_item it

/-- `push_back(value)`: `insert(end(), _T(value))`, then `m_size += 1`. -/
def push_back [Inhabited α] (l : list α) (value : α) : Except Fault (list α) :=
  match l.insert l.end value with
  | .error e => .error e
  | .ok (l1, _) => .ok { l1 with m_size := l1.m_size + 1 }

/-- `emplace(pos, args)`: `insert(pos, _T(args))`, then `m_size += 1`; returns `pos`. -/
def emplace [Inhabited α] (l : list α) (pos : list_iterator) (value : α) :
    Except Fault (list α × list_iterator) :=
  match l.insert pos value with
  | .error e => .error e
  | .ok (l1, _) => .ok ({ l1 with m_size := l1.m_size + 1 }, pos)

/-- `emplace_back(args)`: `emplace(end(), args)`, then `m_size += 1`. -/
def emplace_back [Inhabited α] (l : list α) (value : α) : Except Fault (list α) :=
  match l.emplace l.end value with
  | .error e => .error e
  | .ok (l1, _) => .ok { l1 with m_size := l1.m_size + 1 }

/-- `pop_back()`: `assert(m_size > 0); return erase(end());`.  The source
returns the iterator that `erase` gives where a `_T` is due; the embedding
reads the item it points to. -/
def pop_back (l : list α) : Except Fault (α × list α) :=
  if l.m_size > 0 then
    match l.erase l.end with
    | .error e => .error e
    | .ok (l1, it) =>
      match l1.get_item it with
      | .error e => .error e
      | .ok x => .ok (x, l1)
  else .error .assertion

/-- The loop `while (_beg != _end) _beg = erase(_beg)` of `erase(_beg, _end)`.
The first argument bounds the number of rounds: each round that returns has
deleted a live heap node, so there are no more rounds than heap cells. -/
def _erase_loop (_end : node_ptr) : Nat → list α → node_ptr →
    Except Fault (list α × list_iterator)
  | 0, l1, _beg => if _beg = _end then .ok (l1, _beg) else
    match l1.erase _beg with
    | .error e => .error e
    | .ok _ => .error .diverges
  | k + 1, l1, _beg =>
    if _beg = _end then .ok (l1, _beg)
    else
      match l1.erase _beg with
      | .error e => .error e
      | .ok (l2, next) => _erase_loop _end k l2 next

/-- `erase(_beg, _end)`. -/
def erase_range (l : list α) (_beg _end : list_iterator) : Except Fault (list α × list_iterator) :=
  _erase_loop _end l.heap.length l _beg

/-- `clear()` is `erase(begin(), end())`. -/
def clear (l : list α) : Except Fault (list α) :=
  match l.erase_range l.begin l.end with
  | .error e => .error e
  | .ok r => .ok r.1

/-- The test `if (p)` of a pointer value. -/
def test_ptr : node_ptr → Except Fault Bool
  | .null => .ok false
  | .indeterminate => .error .uninitialised
  | _ => .ok true

/-- The loop `while (i < new_size)` of `_resize_impl`, with `k` rounds left
to spend.  A round either follows a non-null `node->m_next` and counts it, or
links a new node behind `node` without counting; the `m_next` of a new node is
never written, so the round after a link reads an indeterminate pointer, and
`new_size + 2` rounds are all the loop can take. -/
def _resize_loop [Inhabited α] (new_size : Nat) : Nat → list α → Nat → node_ptr →
    Except Fault (list α × node_ptr)
  | 0, l, i, node => if i < new_size then .error .diverges else .ok (l, node)
  | k + 1, l, i, node =>
    if i < new_size then
      match l.get_next node with
      | .error e => .error e
      | .ok next =>
        match test_ptr next with
        | .error e => .error e
        | .ok true => _resize_loop new_size k l (i + 1) next
        | .ok false =>
          let (l1, new_node) := l.new_node
          match l1.set_prev new_node node with
          | .error e => .error e
          | .ok l2 =>
            match l2.set_next node new_node with
            | .error e => .error e
            | .ok l3 =>
              match l3.set_item new_node default with
              | .error e => .error e
              | .ok l4 => _resize_loop new_size k { l4 with m_end := new_node } i new_node
    else .ok (l, node)

/-- The loop `while (rem != node) { prev = rem->m_prev; delete rem; rem = prev; }`
of `_resize_impl`.  Each round deletes a live heap node, so there are no more
rounds than heap cells. -/
def _resize_trim (node : node_ptr) : Nat → list α → node_ptr → Except Fault (list α)
  | 0, l, rem => if rem = node then .ok l else
    match l.get_prev rem with
    | .error e => .error e
    | .ok _ =>
      match l.delete rem with
      | .error e => .error e
      | .ok _ => .error .diverges
  | k + 1, l, rem =>
    if rem = node then .ok l
    else
      match l.get_prev rem with
      | .error e => .error e
      | .ok prev =>
        match l.delete rem with
        | .error e => .error e
        | .ok l1 => _resize_trim node k l1 prev

/-- The first block of `_resize_impl` for `m_begin == _sentinel_node()`: a
new first node with a null `m_prev`, the sentinel as `m_next` and a default
item; `m_end = m_begin`. -/
def _resize_first [Inhabited α] (l : list α) : Except Fault (list α) :=
  let (l1, p) := l.new_node
  let l2 : list α := { l1 with m_begin := p }
  match l2.set_prev l2.m_begin .null with
  | .error e => .error e
  | .ok l3 =>
    match l3.set_next l3.m_begin l3._sentinel_node with
    | .error e => .error e
    | .ok l4 =>
      match l4.set_item l4.m_begin default with
      | .error e => .error e
      | .ok l5 => .ok { l5 with m_end := l5.m_begin }

def _resize_impl [Inhabited α] (l : list α) (new_size : Nat) : Except Fault (list α) :=
  if new_size = 0 then .ok { l with m_begin := l._sentinel_node, m_end := .null, m_size := 0 }
  else
    match ((if l.m_begin = l._sentinel_node then
        match l._resize_first with
        | .error e => .error e
        | .ok l1 => .ok (l1, size_t_dec new_size)
      else .ok (l, new_size)) : Except Fault (list α × Nat)) with
    | .error e => .error e
    | .ok (l1, new_size) =>
      match _resize_loop new_size (new_size + 2) l1 0 l1.m_begin with
      | .error e => .error e
      | .ok (l2, node) =>
        match l2.get_next node with
        | .error e => .error e
        | .ok next =>
          match test_ptr next with
          | .error e => .error e
          | .ok true =>
            match _resize_trim node (l2.heap.length) l2 l2.m_end with
            | .error e => .error e
            | .ok l3 => .ok { l3 with m_size := new_size }
          | .ok false => .ok { l2 with m_size := new_size }

def resize [Inhabited α] (l : list α) (new_size : Nat) : Except Fault (list α) :=
  l._resize_impl new_size

end list

/-! ## stack.hpp -/

/-- The members of `stack<_T, _N>`. -/
structure stack (α : Type) (N : Nat) where
  m_data : array α N
  m_size : Nat
  deriving DecidableEq, Repr

namespace stack

variable {α : Type} {N : Nat}

/-- The defaulted constructor: `m_data` default-constructed, `m_size = 0`. -/
def ctor [Inhabited α] : Except Fault (stack α N) :=
  match (array.ctor : Except Fault (array α N)) with
  | .ok a => .ok ⟨a, 0⟩
  | .error e => .error e

def size (s : stack α N) : Nat := s.m_size

def max_size (s : stack α N) : Nat := s.m_data.max_size

def empty (s : stack α N) : Bool := s.m_data.empty

def top (s : stack α N) : Except Fault α :=
  if s.m_size ≠ 0 then s.m_data.at (size_t_sub s.m_size 1) else .error .assertion

/-- The body shared by `push(const _T&)` and `push(_T&&)`:
`assert(m_size < m_data.max_size()); m_data[m_size++] = item;`. -/
def push (s : stack α N) (item : α) : Except Fault (stack α N) :=
  if s.m_size < s.m_data.max_size then
    match s.m_data.set s.m_size item with
    | .error e => .error e
    | .ok a => .ok ⟨a, s.m_size + 1⟩
  else .error .assertion

/-- `pop()`: `assert(m_size != 0); return m_data.at(--m_size);`. -/
def pop (s : stack α N) : Except Fault (α × stack α N) :=
  if s.m_size ≠ 0 then
    match s.m_data.at (size_t_dec s.m_size) with
    | .error e => .error e
    | .ok x => .ok (x, { s with m_size := size_t_dec s.m_size })
  else .error .assertion

end stack

/-- The member of `stack<_T, 0>`. -/
structure stack0 (α : Type) where
  m_data : vector α
  deriving DecidableEq, Repr

namespace stack0

variable {α : Type}

/-- The defaulted constructor, for an object in the storage `st`: `m_data`
default-constructed in it. -/
def ctor [Inhabited α] (st : storage) : Except Fault (stack0 α) :=
  match (vector.ctor st : Except Fault (vector α)) with
  | .ok v => .ok ⟨v⟩
  | .error e => .error e

def size (s : stack0 α) : Nat := s.m_data.size

def max_size (s : stack0 α) : Nat := s.m_data.max_size

def empty (s : stack0 α) : Bool := s.m_data.empty

def top (s : stack0 α) : Except Fault α :=
  if s.size ≠ 0 then s.m_data.back else .error .assertion

/-- The overload `push(const _T&)`: `assert(size() < max_size()); m_data.push_back(item);`. -/
def push [Inhabited α] (s : stack0 α) (item : α) : Except Fault (stack0 α) :=
  if s.size < s.max_size then
    match s.m_data.push_back item with
    | .error e => .error e
    | .ok v => .ok ⟨v⟩
  else .error .assertion

/-- The overload `push(_T&&)`: `m_data.push_back(item);`. -/
def push_rvalue [Inhabited α] (s : stack0 α) (item : α) : Except Fault (stack0 α) :=
  match s.m_data.push_back item with
  | .error e => .error e
  | .ok v => .ok ⟨v⟩

/-- `pop()`: `assert(size() != 0); return m_data.pop_back();`. -/
def pop (s : stack0 α) : Except Fault (α × stack0 α) :=
  if s.size ≠ 0 then
    match s.m_data.pop_back with
    | .error e => .error e
    | .ok (x, v) => .ok (x, ⟨v⟩)
  else .error .assertion

def clear [element α] (s : stack0 α) : Except Fault (stack0 α) :=
  match s.m_data.clear with
  | .error e => .error e
  | .ok v => .ok ⟨v⟩

end stack0

/-! ## Call sequences and contents of stacks and lists -/

/-- Successive `push_back` calls on a list. -/
def list.push_back_all {α : Type} [Inhabited α] : list α → List α → Except Fault (list α)
  | l, [] => .ok l
  | l, x :: xs =>
    match l.push_back x with
    | .error e => .error e
    | .ok l1 => list.push_back_all l1 xs

/-- Successive `push` calls on a bounded stack. -/
def stack.push_all {α : Type} {N : Nat} : stack α N → List α → Except Fault (stack α N)
  | s, [] => .ok s
  | s, x :: xs =>
    match s.push x with
    | .error e => .error e
    | .ok s1 => stack.push_all s1 xs

/-- `k` successive `pop` calls on a bounded stack; returns the values in call order. -/
def stack.pop_n {α : Type} {N : Nat} : Nat → stack α N → Except Fault (List α × stack α N)
  | 0, s => .ok ([], s)
  | k + 1, s =>
    match s.pop with
    | .error e => .error e
    | .ok (x, s1) =>
      match stack.pop_n k s1 with
      | .error e => .error e
      | .ok (xs, s2) => .ok (x :: xs, s2)

/-- Successive `push` calls on an unbounded stack. -/
def stack0.push_all {α : Type} [Inhabited α] : stack0 α → List α → Except Fault (stack0 α)
  | s, [] => .ok s
  | s, x :: xs =>
    match s.push x with
    | .error e => .error e
    | .ok s1 => stack0.push_all s1 xs

/-- `k` successive `pop` calls on an unbounded stack; returns the values in call order. -/
def stack0.pop_n {α : Type} : Nat → stack0 α → Except Fault (List α × stack0 α)
  | 0, s => .ok ([], s)
  | k + 1, s =>
    match s.pop with
    | .error e => .error e
    | .ok (x, s1) =>
      match stack0.pop_n k s1 with
      | .error e => .error e
      | .ok (xs, s2) => .ok (x :: xs, s2)

/-- The vector holds the elements `xs`, bottom first: it is well formed and
cell `i` is `xs[i]` for every `i < size()`. -/
def vector.holds {α : Type} (v : vector α) (xs : List α) : Prop :=
  v.wf ∧ v.m_size = xs.length ∧ ∀ i, i < xs.length → v.m_data[i]? = xs[i]?

/-- The bounded stack holds the elements `xs`, bottom first. -/
def stack.holds {α : Type} {N : Nat} (s : stack α N) (xs : List α) : Prop :=
  s.m_data.m_data.length = N ∧ s.m_size = xs.length ∧ xs.length ≤ N
    ∧ ∀ i, i < xs.length → s.m_data.m_data[i]? = xs[i]?

/-- The unbounded stack holds the elements `xs`, bottom first; its vector
has the default growth factor, which the stack never changes. -/
def stack0.holds {α : Type} (s : stack0 α) (xs : List α) : Prop :=
  s.m_data.holds xs ∧ s.m_data.m_growth_factor = factor.default_growth


/-! ## Call sequences that count reallocations -/

/-- Successive `push_back` calls; with the final vector, the number of calls
after which `capacity()` differs from what it was before the call. -/
def vector.push_count {α : Type} [Inhabited α] : vector α → List α → Except Fault (vector α × Nat)
  | v, [] => .ok (v, 0)
  | v, x :: xs =>
    match v.push_back x with
    | .error e => .error e
    | .ok v1 =>
      match vector.push_count v1 xs with
      | .error e => .error e
      | .ok (w, r) => .ok (w, if v1.capacity = v.capacity then r else r + 1)

/-! ## Call sequences and invariants of the unbounded queue -/

/-- A call made on an unbounded queue, with the overload of `enqueue` it
resolves to. -/
inductive queue0_call (α : Type) where
  | enqueue (item : α)
  | enqueue_rvalue (item : α)
  | dequeue
  deriving DecidableEq, Repr

/-- Makes one call on an unbounded queue; the value a `dequeue` returns is
dropped. -/
def queue0.call {α : Type} [Inhabited α] [object α] (q : queue0 α) :
    queue0_call α → Except Fault (queue0 α)
  | .enqueue x => q.enqueue x
  | .enqueue_rvalue x => q.enqueue_rvalue x
  | .dequeue =>
    match q.dequeue with
    | .error e => .error e
    | .ok (_, q1) => .ok q1

/-- Makes the calls in order on an unbounded queue. -/
def queue0.calls {α : Type} [Inhabited α] [object α] :
    queue0 α → List (queue0_call α) → Except Fault (queue0 α)
  | q, [] => .ok q
  | q, c :: cs =>
    match q.call c with
    | .error e => .error e
    | .ok q1 => queue0.calls q1 cs

/-- The calls respect the preconditions of an unbounded queue that holds
`count` elements: `count < max_size()` at each `enqueue(const _T&)`,
`count > 0` at each `dequeue`. -/
def queue0_call.admissible {α : Type} : Nat → List (queue0_call α) → Prop
  | _, [] => True
  | count, .enqueue _ :: cs => count < size_t_max ∧ queue0_call.admissible (count + 1) cs
  | count, .enqueue_rvalue _ :: cs => queue0_call.admissible (count + 1) cs
  | count, .dequeue :: cs => 0 < count ∧ queue0_call.admissible (count - 1) cs

/-- The ring of an unbounded queue is in range: the store is a well-formed
vector of at least four cells with the default growth factor, the count is at
most `m_data.size()`, and the head is below `m_data.size()`, or zero when that
is zero. -/
def queue0.inv {α : Type} (q : queue0 α) : Prop :=
  q.m_data.wf ∧ q.m_data.m_growth_factor = factor.default_growth ∧ 4 ≤ q.m_data.m_capacity
    ∧ q.m_size ≤ q.m_data.m_size
    ∧ (0 < q.m_data.m_size → q.m_index < q.m_data.m_size)
    ∧ (q.m_data.m_size = 0 → q.m_index = 0)

/-- The unbounded queue `q` holds the logical sequence `xs` in one run:
element `i` is in cell `m_index + i` of the store, below `m_data.size()`. -/
def queue0.holds {α : Type} (q : queue0 α) (xs : List α) : Prop :=
  q.m_data.wf ∧ q.m_data.m_growth_factor = factor.default_growth ∧ 4 ≤ q.m_data.m_capacity
    ∧ q.m_size = xs.length ∧ q.m_index + xs.length ≤ q.m_data.m_size
    ∧ ∀ i, i < xs.length → q.m_data.m_data[q.m_index + i]? = xs[i]?

/-! ## Call sequences of list inserts and erases -/

/-- The call `insert(begin() + k, value)`. -/
def list.insert_at {α : Type} [Inhabited α] (l : list α) (k : Nat) (value : α) :
    Except Fault (list α × list_iterator) :=
  match l.iterator_add l.begin k with
  | .error e => .error e
  | .ok pos => l.insert pos value

/-- The call `erase(begin() + k)`. -/
def list.erase_at {α : Type} (l : list α) (k : Nat) : Except Fault (list α × list_iterator) :=
  match l.iterator_add l.begin k with
  | .error e => .error e
  | .ok pos => l.erase pos

/-- A call made on a list: `insert` or `erase` at the position `begin() + k`,
or `push_back`. -/
inductive list_call (α : Type) where
  | insert_at (k : Nat) (value : α)
  | erase_at (k : Nat)
  | push_back (value : α)
  deriving DecidableEq, Repr

/-- Makes one call on a list; the iterator it returns is dropped. -/
def list.call {α : Type} [Inhabited α] (l : list α) : list_call α → Except Fault (list α)
  | .insert_at k x =>
    match l.insert_at k x with
    | .error e => .error e
    | .ok (l1, _) => .ok l1
  | .erase_at k =>
    match l.erase_at k with
    | .error e => .error e
    | .ok (l1, _) => .ok l1
  | .push_back x => l.push_back x

/-- Makes the calls in order on a list. -/
def list.calls {α : Type} [Inhabited α] : list α → List (list_call α) → Except Fault (list α)
  | l, [] => .ok l
  | l, c :: cs =>
    match l.call c with
    | .error e => .error e
    | .ok l1 => list.calls l1 cs

/-- The calls are made at positions of a list that has `nodes` nodes at the
first call: an insert at any position from `begin()` to `end()`, an erase at
the position of any node but the first. -/
def list_call.admissible {α : Type} : Nat → List (list_call α) → Prop
  | _, [] => True
  | nodes, .insert_at k _ :: cs => k ≤ nodes ∧ list_call.admissible (nodes + 1) cs
  | nodes, .erase_at k :: cs => 0 < k ∧ k < nodes ∧ list_call.admissible (nodes - 1) cs
  | nodes, .push_back _ :: cs => list_call.admissible (nodes + 1) cs

/-- The list is the sequence of nodes at the distinct addresses `ps`, whatever
`m_size` says: they are chained from `m_begin` to the sentinel, the first has
a null `m_prev`, and `m_end` is the last of them. -/
def list.linked {α : Type} (l : list α) (ps : List Nat) : Prop :=
  ps.Nodup ∧ list.chain l.heap .null l.m_begin ps .sentinel
    ∧ (ps ≠ [] → l.m_end = list.last_ptr .null ps)

/-- Two results of a call on a list agree in everything but `m_size`. -/
def list.same_links {α : Type} : Except Fault (list α) → Except Fault (list α) → Prop
  | .ok a, .ok b => a.heap = b.heap ∧ a.m_begin = b.m_begin ∧ a.m_end = b.m_end
  | .error e, .error e1 => e = e1
  | _, _ => False

/-- Two results of a call that returns an iterator agree in the iterator and
in everything of the list but `m_size`. -/
def list.same_links_it {α : Type} :
    Except Fault (list α × list_iterator) → Except Fault (list α × list_iterator) → Prop
  | .ok (a, i), .ok (b, j) => a.heap = b.heap ∧ a.m_begin = b.m_begin ∧ a.m_end = b.m_end ∧ i = j
  | .error e, .error e1 => e = e1
  | _, _ => False

/-! ## queue.hpp: the copy constructors -/

/-- The copy constructor `queue(const queue<_T, _N>& other)`: the members
start from their default initialisers (`m_data` default-constructed,
`m_size = 0`, `m_index = 0`), the first `min(_N, other.size())` cells of
`other.m_data` are copied, and `m_size = other.size()`. -/
def queue.copy_ctor {α : Type} {N : Nat} [Inhabited α] (other : queue α N) :
    Except Fault (queue α N) :=
  match (array.ctor : Except Fault (array α N)) with
  | .error e => .error e
  | .ok m_data =>
    match for_up (fun i a =>
        match other.m_data.get i with
        | .ok x => a.set i x
        | .error e => .error e) 0 (min N other.size) m_data with
    | .error e => .error e
    | .ok m_data => .ok ⟨m_data, other.size, 0⟩

/-- The copy constructor `queue(const queue<_T, 0>& other)`, for an object in
the storage `st`: the members start from their default initialisers (`m_data`
default-constructed, `m_index = 0`, `m_size = 0`), `m_data` is resized to
`other.size()` and the first `other.size()` cells of `other.m_data` are
copied. -/
def queue0.copy_ctor {α : Type} [Inhabited α] (st : storage) (other : queue0 α) :
    Except Fault (queue0 α) :=
  match (vector.ctor st : Except Fault (vector α)) with
  | .error e => .error e
  | .ok m_data =>
    match m_data.resize other.size with
    | .error e => .error e
    | .ok m_data =>
      match for_up (fun i v =>
          match other.m_data.get i with
          | .ok x => v.set i x
          | .error e => .error e) 0 other.size m_data with
      | .error e => .error e
      | .ok m_data => .ok ⟨m_data, 0, 0⟩

/-- The loop `while (!copy.empty()) format(copy.dequeue())` of `operator<<`
on a bounded queue; returns the values formatted.  The first argument bounds
the number of rounds by `m_size + 1`: that is exact, because a `dequeue` that
returns has decremented a non-zero `m_size`, so after `m_size` rounds the next
`dequeue` fails its assertion. -/
def queue.ostream_loop {α : Type} {N : Nat} : Nat → queue α N → Except Fault (List α)
  | 0, copy => if copy.empty then .ok [] else .error .diverges
  | k + 1, copy =>
    if copy.empty then .ok []
    else
      match copy.dequeue with
      | .error e => .error e
      | .ok (x, copy1) =>
        match queue.ostream_loop k copy1 with
        | .error e => .error e
        | .ok xs => .ok (x :: xs)

/-- The values `operator<<(os, obj)` formats for a bounded queue: it
copy-constructs `copy(obj)` and dequeues from the copy until it is empty. -/
def queue.ostream_items {α : Type} {N : Nat} [Inhabited α] (obj : queue α N) :
    Except Fault (List α) :=
  match obj.copy_ctor with
  | .error e => .error e
  | .ok copy => queue.ostream_loop (copy.m_size + 1) copy

/-! ## array.hpp: iteration -/

/-- An `array<_T, _N>::iterator` or `const_iterator`: a pointer to cell `idx`
of `m_data`. -/
abbrev array_iterator : Type := Nat

/-- `begin()` and `cbegin()`: `&m_data[0]`. -/
def array.begin {α : Type} {N : Nat} (_a : array α N) : array_iterator := 0

/-- `end()` and `cend()`: `&m_data[_N - 1]`. -/
def array.end {α : Type} {N : Nat} (_a : array α N) : array_iterator := size_t_sub N 1

/-- The elements `for (it = from; it != end(); ++it) visit(*it)` visits.  The
first argument is the number of cells from `it` to the end of `m_data`: once
`it` is past them, `*it` is a read outside the array. -/
def array.visit {α : Type} {N : Nat} (a : array α N) : Nat → array_iterator → Except Fault (List α)
  | 0, it => if it = a.end then .ok [] else .error .out_of_bounds
  | k + 1, it =>
    if it = a.end then .ok []
    else
      match load a.m_data it with
      | .error e => .error e
      | .ok x =>
        match array.visit a k (it + 1) with
        | .error e => .error e
        | .ok xs => .ok (x :: xs)

/-- The elements an iteration from `begin()` up to `end()` visits. -/
def array.to_list {α : Type} {N : Nat} (a : array α N) : Except Fault (List α) :=
  a.visit N a.begin

/-! # Theorems

## Cells and loops -/

theorem load_of_lt {α : Type} (cells : List α) (i : Nat) (h : i < cells.length) :
    load cells i = .ok (cells.get ⟨i, h⟩) := by
  simp [load, List.getElem?_eq_getElem h]

theorem load_eq_ok_iff {α : Type} (cells : List α) (i : Nat) (x : α) :
    load cells i = .ok x ↔ cells[i]? = some x := by
  unfold load
  cases h : cells[i]? <;> simp

theorem store_of_lt {α : Type} (cells : List α) (i : Nat) (x : α) (h : i < cells.length) :
    store cells i x = .ok (cells.set i x) := by
  simp [store, h]

/-- The copy loop of `_reserve_impl` overwrites cells `i .. i + n - 1` of the
destination with the same cells of the source. -/
theorem for_up_copy {α : Type} (src : List α) (n : Nat) :
    ∀ (i : Nat) (dst : List α), i + n ≤ src.length → i + n ≤ dst.length →
      ∃ d, for_up (fun i new_data =>
          match load src i with
          | .ok x => store new_data i x
          | .error e => .error e) i n dst = .ok d
        ∧ d.length = dst.length
        ∧ ∀ j, d[j]? = if i ≤ j ∧ j < i + n then src[j]? else dst[j]? := by
  induction n with
  | zero =>
    intro i dst _ _
    refine ⟨dst, by simp [for_up], rfl, ?_⟩
    intro j
    simp only [show ¬ (i ≤ j ∧ j < i + 0) by omega, if_false]
  | succ n ih =>
    intro i dst hs hd
    have hi : i < src.length := by omega
    have hi2 : i < dst.length := by omega
    obtain ⟨d, hd1, hd2, hd3⟩ := ih (i + 1) (dst.set i (src.get ⟨i, hi⟩)) (by omega)
      (by simp; omega)
    refine ⟨d, ?_, by simpa using hd2, ?_⟩
    · simp only [for_up, load_of_lt src i hi, store_of_lt dst i _ hi2]
      exact hd1
    · intro j
      rw [hd3 j, List.getElem?_set]
      by_cases h1 : j = i
      · subst h1
        simp [hi2, List.getElem?_eq_getElem hi]
      · by_cases h2 : i + 1 ≤ j ∧ j < i + 1 + n
        · simp [h2, show i ≤ j ∧ j < i + (n + 1) by omega]
        · simp [h2, show ¬ (i ≤ j ∧ j < i + (n + 1)) by omega, show i ≠ j by omega]

/-- A fill loop overwrites cells `i .. i + n - 1` with the value. -/
theorem for_up_fill {α : Type} (x : α) (n : Nat) :
    ∀ (i : Nat) (dst : List α), i + n ≤ dst.length →
      ∃ d, for_up (fun i d => store d i x) i n dst = .ok d
        ∧ d.length = dst.length
        ∧ ∀ j, d[j]? = if i ≤ j ∧ j < i + n then some x else dst[j]? := by
  induction n with
  | zero =>
    intro i dst _
    refine ⟨dst, by simp [for_up], rfl, ?_⟩
    intro j
    simp only [show ¬ (i ≤ j ∧ j < i + 0) by omega, if_false]
  | succ n ih =>
    intro i dst hd
    have hi2 : i < dst.length := by omega
    obtain ⟨d, hd1, hd2, hd3⟩ := ih (i + 1) (dst.set i x) (by simp; omega)
    refine ⟨d, ?_, by simpa using hd2, ?_⟩
    · simp only [for_up, store_of_lt dst i _ hi2]
      exact hd1
    · intro j
      rw [hd3 j, List.getElem?_set]
      by_cases h1 : j = i
      · subst h1
        simp [hi2]
      · by_cases h2 : i + 1 ≤ j ∧ j < i + 1 + n
        · simp [h2, show i ≤ j ∧ j < i + (n + 1) by omega]
        · simp [h2, show ¬ (i ≤ j ∧ j < i + (n + 1)) by omega, show i ≠ j by omega]

/-! ## Floating-point products -/

theorem bit_length_loop_zero (fuel : Nat) : bit_length_loop fuel 0 = 0 := by
  cases fuel <;> simp [bit_length_loop]

/-- The digits of `n`: `2^(digits - 1) ≤ n < 2^digits`. -/
theorem bit_length_loop_spec :
    ∀ (fuel n : Nat), n ≤ fuel →
      (n ≠ 0 → 2 ^ (bit_length_loop fuel n - 1) ≤ n) ∧ n < 2 ^ bit_length_loop fuel n := by
  intro fuel
  induction fuel with
  | zero =>
    intro n hn
    have h0 : n = 0 := by omega
    subst h0
    exact ⟨fun h => absurd rfl h, by simp [bit_length_loop]⟩
  | succ fuel ih =>
    intro n hn
    by_cases h0 : n = 0
    · subst h0
      exact ⟨fun h => absurd rfl h, by simp [bit_length_loop]⟩
    · obtain ⟨h1, h2⟩ := ih (n / 2) (by omega)
      have hl : bit_length_loop (fuel + 1) n = bit_length_loop fuel (n / 2) + 1 := by
        simp [bit_length_loop, h0]
      rw [hl]
      constructor
      · intro _
        rw [Nat.add_sub_cancel]
        by_cases hh : n / 2 = 0
        · rw [hh, bit_length_loop_zero]
          simp; omega
        · have h3 := h1 hh
          have hpos : 1 ≤ bit_length_loop fuel (n / 2) := by
            by_contra hlt
            have hz : bit_length_loop fuel (n / 2) = 0 := by omega
            rw [hz] at h2
            simp at h2
            exact hh h2
          obtain ⟨k, hk⟩ : ∃ k, bit_length_loop fuel (n / 2) = k + 1 := ⟨_, (Nat.sub_add_cancel hpos).symm⟩
          rw [hk] at h3 ⊢
          rw [Nat.add_sub_cancel] at h3
          rw [pow_succ]
          omega
      · rw [pow_succ]
        omega

theorem bit_length_lower (n : Nat) (h : n ≠ 0) : 2 ^ (bit_length n - 1) ≤ n :=
  (bit_length_loop_spec n n (Nat.le_refl _)).1 h

theorem bit_length_upper (n : Nat) : n < 2 ^ bit_length n :=
  (bit_length_loop_spec n n (Nat.le_refl _)).2

theorem bit_length_le (n k : Nat) (h : n < 2 ^ k) : bit_length n ≤ k := by
  by_cases h0 : n = 0
  · subst h0
    simp [bit_length, bit_length_loop_zero]
  · have h1 := bit_length_lower n h0
    have h2 : 2 ^ (bit_length n - 1) < 2 ^ k := Nat.lt_of_le_of_lt h1 h
    have h3 := (Nat.pow_lt_pow_iff_right (by decide : 1 < 2)).1 h2
    omega

theorem round_half_even_ge (n d : Nat) : n / d ≤ round_half_even n d := by
  unfold round_half_even
  split
  · exact Nat.le_refl _
  · split
    · split
      · exact Nat.le_refl _
      · exact Nat.le_succ _
    · exact Nat.le_succ _

/-- Rounding to `p` significant bits and truncating loses less than one part
in `2^(p-1)` of the integer part. -/
theorem fp_cast_ge (p num den : Nat) (hp : 1 ≤ p) :
    num / den - (num / den) / 2 ^ (p - 1) ≤ fp_cast p num den := by
  unfold fp_cast
  split
  · rename_i hb
    have hne : num / den ≠ 0 := by
      intro h0
      rw [h0] at hb
      simp [bit_length, bit_length_loop_zero] at hb
      omega
    have hlow := bit_length_lower _ hne
    obtain ⟨s, hs⟩ : ∃ s, bit_length (num / den) = p + s := ⟨_, (Nat.add_sub_cancel' hb).symm⟩
    have hsub : bit_length (num / den) - p = s := by omega
    rw [hsub]
    have hsplit : 2 ^ (bit_length (num / den) - 1) = 2 ^ s * 2 ^ (p - 1) := by
      rw [← pow_add]
      congr 1
      omega
    rw [hsplit] at hlow
    have hu : 2 ^ s ≤ (num / den) / 2 ^ (p - 1) :=
      (Nat.le_div_iff_mul_le (Nat.pos_pow_of_pos _ (by decide))).2 hlow
    have hr := round_half_even_ge num (den * 2 ^ s)
    rw [← Nat.div_div_eq_div_mul] at hr
    have hpos : 0 < 2 ^ s := Nat.pos_pow_of_pos _ (by decide)
    have hdm := Nat.div_add_mod (num / den) (2 ^ s)
    have hm := Nat.mod_lt (num / den) hpos
    have hmul : (num / den) / 2 ^ s * 2 ^ s ≤ round_half_even num (den * 2 ^ s) * 2 ^ s :=
      Nat.mul_le_mul_right _ hr
    have hcomm : 2 ^ s * ((num / den) / 2 ^ s) = (num / den) / 2 ^ s * 2 ^ s := Nat.mul_comm _ _
    omega
  · rename_i hb
    have hr := round_half_even_ge (num * 2 ^ (p - bit_length (num / den))) den
    have hpos : 0 < 2 ^ (p - bit_length (num / den)) := Nat.pos_pow_of_pos _ (by decide)
    have h1 : num * 2 ^ (p - bit_length (num / den)) / den / 2 ^ (p - bit_length (num / den))
        = num / den := by
      rw [Nat.div_div_eq_div_mul, Nat.mul_div_mul_right _ _ hpos]
    have h2 := Nat.div_le_div_right (c := 2 ^ (p - bit_length (num / den))) hr
    rw [h1] at h2
    exact Nat.le_trans (Nat.sub_le _ _) h2

/-- A `size_t` below `2^p` converts to a floating-point number of `p` bits exactly. -/
theorem fp_cast_nat (p c : Nat) (h : c < 2 ^ p) : fp_cast p c 1 = c := by
  have hb := bit_length_le c p (by simpa using h)
  unfold fp_cast
  simp only [Nat.div_one]
  split
  · rename_i hp
    have e : bit_length c - p = 0 := by omega
    rw [e]
    simp [round_half_even, Nat.mod_one]
  · have hpos : 0 < 2 ^ (p - bit_length c) := Nat.pos_pow_of_pos _ (by decide)
    simp [round_half_even, Nat.mod_one, Nat.mul_div_cancel _ hpos]

/-- The product of a `size_t` `c` by 1.5 is exact, and truncates to
`c * 3 / 2`, while `c * 3 < 2^p`. -/
theorem fp_cast_three_halves (p c : Nat) (h : c * 3 < 2 ^ p) (hp : 1 ≤ p) :
    fp_cast p (fp_cast p c 1 * 3) 2 = c * 3 / 2 := by
  rw [fp_cast_nat p c (by omega)]
  have hfl : c * 3 / 2 < 2 ^ (p - 1) := by
    obtain ⟨k, rfl⟩ : ∃ k, p = k + 1 := ⟨p - 1, by omega⟩
    rw [Nat.add_sub_cancel]
    rw [pow_succ] at h
    omega
  have hb := bit_length_le _ _ hfl
  unfold fp_cast
  rw [if_neg (by omega)]
  obtain ⟨t, ht⟩ : ∃ t, p - bit_length (c * 3 / 2) = t + 1 := ⟨p - bit_length (c * 3 / 2) - 1, by omega⟩
  rw [ht]
  have hmod : (c * 3 * 2 ^ (t + 1)) % 2 = 0 := by
    rw [pow_succ, ← Nat.mul_assoc]
    exact Nat.mul_mod_left _ _
  have hdiv : c * 3 * 2 ^ (t + 1) / 2 = c * 3 * 2 ^ t := by
    rw [pow_succ, ← Nat.mul_assoc]
    exact Nat.mul_div_cancel _ (by decide)
  have hr : round_half_even (c * 3 * 2 ^ (t + 1)) 2 = c * 3 * 2 ^ t := by
    unfold round_half_even
    rw [hmod, if_pos (by decide), hdiv]
  rw [hr, pow_succ, ← Nat.div_div_eq_div_mul,
    Nat.mul_div_cancel _ (Nat.pos_pow_of_pos _ (by decide))]

theorem scale_default_growth_bounds (c : Nat) :
    ∃ a, c - c / 8388608 ≤ a
      ∧ a * 3 / 2 - a * 3 / 2 / 8388608 ≤ factor.default_growth.scale c := by
  refine ⟨fp_cast 24 c 1, ?_, ?_⟩
  · have := fp_cast_ge 24 c 1 (by decide)
    simpa using this
  · have := fp_cast_ge 24 (fp_cast 24 c 1 * 3) 2 (by decide)
    simpa [factor.scale, factor.default_growth] using this

theorem scale_default_growth_gt (c : Nat) :
    c < max (factor.default_growth.scale c) 4 := by
  obtain ⟨a, h1, h2⟩ := scale_default_growth_bounds c
  omega

/-- With the default factor a capacity of 2 or more grows, by a quarter at least. -/
theorem scale_default_growth_step (c : Nat) (hc : 2 ≤ c) :
    c < factor.default_growth.scale c ∧ 5 * c ≤ 4 * factor.default_growth.scale c := by
  obtain ⟨a, h1, h2⟩ := scale_default_growth_bounds c
  constructor <;> omega

theorem scale_default_growth_exact (c : Nat) (h : c * 3 < 2 ^ 24) :
    factor.default_growth.scale c = c * 3 / 2 :=
  fp_cast_three_halves 24 c h (by decide)

theorem queue0.ring_growth_gt (c : Nat) (hc : 2 ≤ c) : c < queue0.ring_growth c := by
  have h1 := fp_cast_ge 53 c 1 (by decide)
  have h2 := fp_cast_ge 53 (fp_cast 53 c 1 * 3) 2 (by decide)
  simp only [Nat.div_one] at h1
  have e : (2 : Nat) ^ (53 - 1) = 4503599627370496 := by norm_num
  rw [e] at h1 h2
  unfold queue0.ring_growth
  omega

theorem queue0.ring_growth_exact (c : Nat) (h : c * 3 < 2 ^ 53) : queue0.ring_growth c = c * 3 / 2 :=
  fp_cast_three_halves 53 c h (by decide)

/-! ## vector: reserve and push_back -/

theorem vector.at_eq {α : Type} (v : vector α) (i : Nat) (e : α) :
    v.at i = .ok e ↔ i < v.size ∧ v.m_data[i]? = some e := by
  unfold vector.at
  by_cases h : i < v.size
  · simp [h, load_eq_ok_iff]
  · simp [h]

/-- A reserve that has to grow moves the elements to a new block of
`max(new_capacity, 4)` cells. -/
theorem vector.reserve_grow {α : Type} [Inhabited α] (v : vector α) (n : Nat) (hwf : v.wf)
    (hn : v.m_capacity < max n 4) :
    ∃ w, v._reserve_impl n = .ok w ∧ w.m_blk = v.m_blk + 1 ∧ w.m_size = v.m_size
      ∧ w.m_capacity = max n 4 ∧ w.m_growth_factor = v.m_growth_factor
      ∧ w.m_data.length = max n 4
      ∧ ∀ j, j < v.m_size → w.m_data[j]? = v.m_data[j]? := by
  obtain ⟨h1, h2⟩ := hwf
  obtain ⟨d, hd1, hd2, hd3⟩ := for_up_copy v.m_data v.m_size 0
    (List.replicate (max n 4) default) (by omega) (by simp; omega)
  refine ⟨{ v with m_blk := v.m_blk + 1, m_data := d, m_capacity := max n 4 }, ?_, rfl, rfl,
    rfl, rfl, by simpa using hd2, ?_⟩
  · unfold vector._reserve_impl
    simp only [show ¬ (max n 4 ≤ v.m_capacity) by omega, if_false, hd1]
  · intro j hj
    simp [hd3 j, hj]

/-- A reserve that does not have to grow changes nothing. -/
theorem vector.reserve_keep {α : Type} [Inhabited α] (v : vector α) (n : Nat)
    (hn : max n 4 ≤ v.m_capacity) : v._reserve_impl n = .ok v := by
  unfold vector._reserve_impl
  simp only [hn, if_true]

/-- A vector default-constructed in zeroed storage is empty, has four cells and
the default growth factor. -/
theorem vector.ctor_spec {α : Type} [Inhabited α] :
    ∃ v : vector α, vector.ctor .zeroed = .ok v ∧ v.wf ∧ v.size = 0 ∧ v.capacity = 4
      ∧ v.m_growth_factor = factor.default_growth :=
  ⟨_, rfl, ⟨rfl, Nat.zero_le _⟩, rfl, rfl, rfl⟩

/-- With the default growth factor `push_back` on a well-formed vector returns
and appends the value, whether or not it has to reallocate. -/
theorem vector.push_back_ok {α : Type} [Inhabited α] (v : vector α) (x : α) (hwf : v.wf)
    (hf : v.m_growth_factor = factor.default_growth) :
    ∃ w, v.push_back x = .ok w ∧ w.size = v.size + 1 ∧ w.at v.size = .ok x
      ∧ (∀ i, i < v.size → ∃ e, v.at i = .ok e ∧ w.at i = .ok e)
      ∧ w.wf ∧ w.m_growth_factor = factor.default_growth := by
  have hwf0 := hwf
  obtain ⟨h1, h2⟩ := hwf
  by_cases hfull : v.m_size ≥ v.m_capacity
  · obtain ⟨w, hw1, hw2, hw3, hw4, hw5, hw6, hw7⟩ :=
      vector.reserve_grow v (v.m_growth_factor.scale v.m_capacity) hwf0
        (by rw [hf]; exact scale_default_growth_gt _)
    have hlt : w.m_size < w.m_data.length := by
      rw [hw6, hw3]
      have := scale_default_growth_gt v.m_capacity
      rw [hf]; omega
    refine ⟨{ w with m_data := w.m_data.set w.m_size x, m_size := w.m_size + 1 }, ?_, ?_, ?_, ?_,
      ?_, ?_⟩
    · unfold vector.push_back
      simp only [hfull, if_true, hw1, store_of_lt _ _ x hlt]
    · simp [vector.size, hw3]
    · rw [vector.at_eq]
      refine ⟨by simp [vector.size, hw3], ?_⟩
      show (w.m_data.set w.m_size x)[v.size]? = some x
      have hvs : v.size = w.m_size := hw3.symm
      rw [hvs, List.getElem?_set]
      simp [hlt]
    · intro i hi
      have hi1 : i < v.m_data.length := by simp only [vector.size] at hi; omega
      refine ⟨v.m_data.get ⟨i, hi1⟩, ?_, ?_⟩
      · rw [vector.at_eq]; exact ⟨hi, by simp [List.getElem?_eq_getElem hi1]⟩
      · rw [vector.at_eq]
        simp only [vector.size] at hi ⊢
        refine ⟨by omega, ?_⟩
        rw [List.getElem?_set]
        simp [show w.m_size ≠ i by omega, hw7 i hi, List.getElem?_eq_getElem hi1]
    · constructor
      · simp [hw6, hw4]
      · show w.m_size + 1 ≤ w.m_capacity
        rw [hw4, ← hw6]; omega
    · show w.m_growth_factor = _
      rw [hw5, hf]
  · have hlt : v.m_size < v.m_data.length := by omega
    refine ⟨{ v with m_data := v.m_data.set v.m_size x, m_size := v.m_size + 1 }, ?_, ?_, ?_, ?_,
      ?_, ?_⟩
    · unfold vector.push_back
      simp only [hfull, if_false, store_of_lt _ _ x hlt]
    · simp [vector.size]
    · rw [vector.at_eq]
      refine ⟨by simp [vector.size], ?_⟩
      show (v.m_data.set v.m_size x)[v.size]? = some x
      rw [List.getElem?_set]
      simp [vector.size, hlt]
    · intro i hi
      have hi1 : i < v.m_data.length := by simp only [vector.size] at hi; omega
      refine ⟨v.m_data.get ⟨i, hi1⟩, ?_, ?_⟩
      · rw [vector.at_eq]; exact ⟨hi, by simp [List.getElem?_eq_getElem hi1]⟩
      · rw [vector.at_eq]
        simp only [vector.size] at hi ⊢
        refine ⟨by omega, ?_⟩
        rw [List.getElem?_set]
        simp [show v.m_size ≠ i by omega, List.getElem?_eq_getElem hi1]
    · constructor
      · simp [h1]
      · show v.m_size + 1 ≤ v.m_capacity
        omega
    · exact hf

/-- C3. With the default growth factor, `push_back(v)` on a well-formed vector
returns, the size is one more, `at(size)` reads `v`, every earlier index reads
the element it read before, and the state is well formed again; this covers
the call that reallocates (`m_size == m_capacity`). -/
theorem vector_push_back_spec {α : Type} [Inhabited α] (v : vector α) (x : α) (hwf : v.wf)
    (hf : v.m_growth_factor = factor.default_growth) :
    ∃ w, v.push_back x = .ok w ∧ w.size = v.size + 1 ∧ w.at v.size = .ok x
      ∧ (∀ i, i < v.size → ∃ e, v.at i = .ok e ∧ w.at i = .ok e)
      ∧ w.wf ∧ w.m_growth_factor = factor.default_growth :=
  vector.push_back_ok v x hwf hf

/-! ## vector: erase -/

/-- C9. The failing input is `JMK::vector<int> v; v.push_back(1);
v.push_back(2); v.push_back(3); v.erase(v.begin());`. The body of `erase`
computes `pos + 1`, and `iterator::operator+` ends in `return *copy;`, which
has to turn an element into an iterator: for an element type without such a
conversion, `int` here, `erase` is ill-formed whatever the vector and the
position. With an element type that converts to the iterator at its own
address the same call returns the iterator it was given, the size is one less
and the later elements have moved down by one cell, as documented. -/
theorem vector_erase_failing_input :
    (∀ (v : vector Nat) (pos : vector_iterator), v.erase pos = .error .ill_formed)
    ∧ ∃ v : vector boxed,
        (match (vector.ctor .zeroed : Except Fault (vector boxed)) with
          | .ok v0 => v0.push_all [⟨1⟩, ⟨2⟩, ⟨3⟩]
          | .error e => .error e) = .ok v
        ∧ ∃ w, v.erase v.begin = .ok (w, v.begin)
          ∧ w.size = 2 ∧ w.at 0 = .ok ⟨2⟩ ∧ w.at 1 = .ok ⟨3⟩ ∧ w.capacity = v.capacity :=
  ⟨fun _ _ => rfl, _, rfl, _, rfl, rfl, rfl, rfl, rfl⟩

/-! ## The bounded queue is a FIFO -/

theorem queue.ctor_holds {α : Type} [Inhabited α] {N : Nat} (hN : 0 < N) :
    ∃ q : queue α N, queue.ctor = .ok q ∧ q.holds [] := by
  obtain ⟨d, hd1, hd2, _⟩ := for_up_fill (default : α) N 0 (List.replicate N default) (by simp)
  refine ⟨⟨⟨d⟩, 0, 0⟩, ?_, ?_⟩
  · simp only [queue.ctor, array.ctor, array.ctor_fill, array.fill, hd1]
  · exact ⟨by simpa using hd2, hN, rfl, Nat.zero_le _, fun i hi => absurd hi (Nat.not_lt_zero _)⟩

theorem queue.enqueue_holds {α : Type} {N : Nat} (q : queue α N) (xs : List α) (x : α)
    (h : q.holds xs) (hlen : xs.length < N) :
    ∃ q1, q.enqueue x = .ok q1 ∧ q1.holds (xs ++ [x]) := by
  obtain ⟨h1, h2, h3, h4, h5⟩ := h
  have hN : N ≠ 0 := by omega
  have hslot : (q.m_index + q.m_size) % N < q.m_data.m_data.length := by
    rw [h1]; exact Nat.mod_lt _ (by omega)
  refine ⟨{ q with m_data := ⟨q.m_data.m_data.set ((q.m_index + q.m_size) % N) x⟩,
                   m_size := q.m_size + 1 }, ?_, ?_⟩
  · simp only [queue.enqueue, queue._cycle_storage, array.max_size, array.size, array.capacity,
      size_t_mod, array.set, h3, hlen, if_true, hN, if_false, store_of_lt _ _ x (h3 ▸ hslot)]
  · refine ⟨by simpa using h1, h2, by simp [h3], by simp; omega, ?_⟩
    intro i hi
    simp only [List.length_append, List.length_singleton] at hi
    show (q.m_data.m_data.set ((q.m_index + q.m_size) % N) x)[(q.m_index + i) % N]? = _
    rw [List.getElem?_set]
    by_cases hil : i = xs.length
    · subst hil
      rw [if_pos (by rw [h3]), if_pos hslot]
      simp
    · have hil2 : i < xs.length := by omega
      have hne : (q.m_index + q.m_size) % N ≠ (q.m_index + i) % N := by
        intro he
        have h6 : q.m_size ≡ i [MOD N] := Nat.ModEq.add_left_cancel' q.m_index he
        have := Nat.ModEq.eq_of_lt_of_lt h6 (by omega) (by omega)
        omega
      rw [if_neg hne, h5 i hil2, List.getElem?_append_left hil2]

theorem queue.dequeue_holds {α : Type} {N : Nat} (q : queue α N) (x : α) (xs : List α)
    (h : q.holds (x :: xs)) :
    ∃ q1, q.dequeue = .ok (x, q1) ∧ q1.holds xs := by
  obtain ⟨h1, h2, h3, h4, h5⟩ := h
  have hN : N ≠ 0 := by omega
  have h0 := h5 0 (by simp)
  simp only [Nat.add_zero, Nat.mod_eq_of_lt h2, List.getElem?_cons_zero] at h0
  refine ⟨{ q with m_index := (q.m_index + 1) % N, m_size := xs.length }, ?_, ?_⟩
  · simp only [queue.dequeue, queue._shift_entry, array.at, array.size, size_t_mod, size_t_dec,
      h3, List.length_cons, Nat.succ_ne_zero, ne_eq, not_false_eq_true, if_true, h2, hN, if_false,
      (load_eq_ok_iff _ _ _).2 h0, Nat.add_sub_cancel]
  · refine ⟨h1, Nat.mod_lt _ (by omega), rfl, by simp at h4; omega, ?_⟩
    intro i hi
    show q.m_data.m_data[((q.m_index + 1) % N + i) % N]? = _
    rw [Nat.mod_add_mod, Nat.add_assoc, Nat.add_comm 1 i, h5 (i + 1) (by simp; omega)]
    simp

/-- Calls that respect the preconditions succeed on a bounded queue and return
the front of the logical sequence, in order. -/
theorem queue.run_holds {α : Type} {N : Nat} (cs : List (queue_call α)) :
    ∀ (q : queue α N) (xs : List α), q.holds xs → queue_call.admissible N xs.length cs →
      ∃ q1, q.run cs = .ok (q1, (xs ++ queue_call.enqueued cs).take (queue_call.dequeues cs))
        ∧ q1.holds ((xs ++ queue_call.enqueued cs).drop (queue_call.dequeues cs)) := by
  induction cs with
  | nil =>
    intro q xs h _
    exact ⟨q, by simp [queue.run, queue_call.enqueued, queue_call.dequeues],
      by simpa [queue_call.enqueued, queue_call.dequeues] using h⟩
  | cons c cs ih =>
    intro q xs h hadm
    cases c with
    | enqueue x =>
      obtain ⟨hlt, hadm1⟩ := hadm
      obtain ⟨q1, hq1, hh1⟩ := queue.enqueue_holds q xs x h hlt
      obtain ⟨q2, hq2, hh2⟩ := ih q1 (xs ++ [x]) hh1 (by simpa using hadm1)
      refine ⟨q2, ?_, ?_⟩
      · simp only [queue.run, hq1, hq2, queue_call.enqueued, queue_call.dequeues]
        simp
      · simpa [queue_call.enqueued, queue_call.dequeues] using hh2
    | dequeue =>
      obtain ⟨hpos, hadm1⟩ := hadm
      cases xs with
      | nil => simp at hpos
      | cons y ys =>
        obtain ⟨q1, hq1, hh1⟩ := queue.dequeue_holds q y ys h
        obtain ⟨q2, hq2, hh2⟩ := ih q1 ys hh1 (by simpa using hadm1)
        refine ⟨q2, ?_, ?_⟩
        · simp only [queue.run, hq1, hq2, queue_call.enqueued, queue_call.dequeues]
          simp
        · simpa [queue_call.enqueued, queue_call.dequeues] using hh2

/-- C2. For `N > 0`, every sequence of `enqueue` and `dequeue` calls that
respects the preconditions (`count < N` at each enqueue, `count > 0` at each
dequeue) succeeds on a newly constructed `queue<T, N>`, and the values the
dequeues return are, in order, the first values enqueued: the k-th dequeue
returns the k-th value enqueued, whether or not the write slot wrapped. -/
theorem queue_bounded_fifo {α : Type} [Inhabited α] {N : Nat} (hN : 0 < N)
    (cs : List (queue_call α)) (hadm : queue_call.admissible N 0 cs) :
    ∃ q0 q1 : queue α N, queue.ctor = .ok q0
      ∧ q0.run cs = .ok (q1, (queue_call.enqueued cs).take (queue_call.dequeues cs))
      ∧ q1.size = (queue_call.enqueued cs).length - queue_call.dequeues cs := by
  obtain ⟨q0, hq0, hh0⟩ := queue.ctor_holds (α := α) hN
  obtain ⟨q1, hq1, hh1⟩ := queue.run_holds cs q0 [] hh0 hadm
  refine ⟨q0, q1, hq0, by simpa using hq1, ?_⟩
  obtain ⟨_, _, h3, _, _⟩ := hh1
  simpa [queue.size] using h3

/-- C2, the wraparound case: `N = 4`, four enqueues, two dequeues, two more
enqueues that wrap the write slot, four dequeues. -/
theorem queue_bounded_fifo_witness :
    queue_call.admissible (α := Nat) 4 0
        [.enqueue 1, .enqueue 2, .enqueue 3, .enqueue 4, .dequeue, .dequeue, .enqueue 5,
          .enqueue 6, .dequeue, .dequeue, .dequeue, .dequeue]
      ∧ ∃ q0 q1 : queue Nat 4, queue.ctor = .ok q0
        ∧ q0.run [.enqueue 1, .enqueue 2, .enqueue 3, .enqueue 4, .dequeue, .dequeue, .enqueue 5,
            .enqueue 6, .dequeue, .dequeue, .dequeue, .dequeue] = .ok (q1, [1, 2, 3, 4, 5, 6])
        ∧ q1.size = 0 :=
  ⟨by simp [queue_call.admissible],
    queue_bounded_fifo (by decide) _ (by simp [queue_call.admissible])⟩


/-! ## list: chains of nodes -/

theorem list.last_ptr_append (prev : node_ptr) (xs ys : List Nat) :
    list.last_ptr prev (xs ++ ys) = list.last_ptr (list.last_ptr prev xs) ys := by
  induction xs generalizing prev with
  | nil => rfl
  | cons a as ih => exact ih _

/-- A chain only depends on the heap cells of its nodes. -/
theorem list.chain_congr {α : Type} (h1 h2 : List (Option (_node α))) (ps : List Nat) :
    ∀ (prev cur stop : node_ptr), (∀ a, a ∈ ps → h2[a]? = h1[a]?) →
      list.chain h1 prev cur ps stop → list.chain h2 prev cur ps stop := by
  induction ps with
  | nil => intro prev cur stop _ h; exact h
  | cons a as ih =>
    intro prev cur stop hag h
    obtain ⟨hc, n, hn, hp, hrest⟩ := h
    refine ⟨hc, n, ?_, hp, ih _ _ _ (fun b hb => hag b (List.mem_cons_of_mem _ hb)) hrest⟩
    rw [hag a (List.mem_cons_self _ _)]
    exact hn

theorem list.chain_append {α : Type} (h : List (Option (_node α))) (xs ys : List Nat) :
    ∀ (prev cur stop : node_ptr),
      list.chain h prev cur (xs ++ ys) stop ↔
        ∃ mid, list.chain h prev cur xs mid ∧ list.chain h (list.last_ptr prev xs) mid ys stop := by
  induction xs with
  | nil =>
    intro prev cur stop
    constructor
    · intro hc; exact ⟨cur, rfl, hc⟩
    · rintro ⟨mid, hm, hc⟩
      have hm1 : cur = mid := hm
      rw [hm1]; exact hc
  | cons a as ih =>
    intro prev cur stop
    constructor
    · rintro ⟨hc, n, hn, hp, hrest⟩
      obtain ⟨mid, h1, h2⟩ := (ih _ _ _).1 hrest
      exact ⟨mid, ⟨hc, n, hn, hp, h1⟩, h2⟩
    · rintro ⟨mid, ⟨hc, n, hn, hp, h1⟩, h2⟩
      exact ⟨hc, n, hn, hp, (ih _ _ _).2 ⟨mid, h1, h2⟩⟩

/-- The nodes of a chain are live, so their addresses are inside the heap. -/
theorem list.chain_lt {α : Type} (h : List (Option (_node α))) (ps : List Nat) :
    ∀ (prev cur stop : node_ptr), list.chain h prev cur ps stop → ∀ a, a ∈ ps → a < h.length := by
  induction ps with
  | nil => intro _ _ _ _ a ha; simp at ha
  | cons b bs ih =>
    intro prev cur stop hc a ha
    obtain ⟨_, n, hn, _, hrest⟩ := hc
    rcases List.mem_cons.1 ha with rfl | hm
    · by_contra hge
      rw [List.getElem?_eq_none (by omega)] at hn
      exact absurd hn (by simp)
    · exact ih _ _ _ hrest a hm

theorem list.wf_length_le {α : Type} (l : list α) (ps : List Nat) (hwf : l.wf ps) :
    ps.length ≤ l.heap.length := by
  obtain ⟨hnd, hc, _, _⟩ := hwf
  have hsub : ps ⊆ List.range l.heap.length := fun a ha =>
    List.mem_range.2 (list.chain_lt _ _ _ _ _ hc a ha)
  have := (List.subperm_of_subset hnd hsub).length_le
  simpa using this

/-- The walk from the head of a chain that ends at the sentinel visits its
nodes in order. -/
theorem list.walk_forward_chain {α : Type} (l : list α) (ps : List Nat) :
    ∀ (k : Nat) (prev cur : node_ptr), ps.length ≤ k →
      list.chain l.heap prev cur ps .sentinel →
      l.walk_forward k cur = .ok (ps.map node_ptr.node) := by
  induction ps with
  | nil =>
    intro k prev cur _ hc
    have hc1 : cur = .sentinel := hc
    cases k <;> simp [list.walk_forward, list._sentinel_node, hc1]
  | cons a as ih =>
    intro k prev cur hk hc
    obtain ⟨hcur, n, hn, _, hrest⟩ := hc
    cases k with
    | zero => simp at hk
    | succ k =>
      have hk1 : as.length ≤ k := by simpa using hk
      simp only [list.walk_forward, list._sentinel_node, hcur, list.get_next, list.node_at, hn,
        ih k _ _ hk1 hrest, List.map_cons]
      simp

theorem list.forward_of_wf {α : Type} (l : list α) (ps : List Nat) (hwf : l.wf ps) :
    l.forward = .ok (ps.map node_ptr.node) :=
  list.walk_forward_chain l ps _ _ _ (list.wf_length_le l ps hwf) hwf.2.1


/-! ## list: pointer writes -/

theorem list.set_next_node {α : Type} (l : list α) (a : Nat) (n : _node α) (q : node_ptr)
    (h : l.heap[a]? = some (some n)) :
    l.set_next (.node a) q = .ok { l with heap := l.heap.set a (some { n with m_next := q }) } := by
  simp only [list.set_next, list.put_node, h]

theorem list.set_prev_node {α : Type} (l : list α) (a : Nat) (n : _node α) (q : node_ptr)
    (h : l.heap[a]? = some (some n)) :
    l.set_prev (.node a) q = .ok { l with heap := l.heap.set a (some { n with m_prev := q }) } := by
  simp only [list.set_prev, list.put_node, h]

theorem list.get_prev_node {α : Type} (l : list α) (a : Nat) (n : _node α)
    (h : l.heap[a]? = some (some n)) : l.get_prev (.node a) = .ok n.m_prev := by
  simp only [list.get_prev, list.node_at, h]

theorem list.get_next_node {α : Type} (l : list α) (a : Nat) (n : _node α)
    (h : l.heap[a]? = some (some n)) : l.get_next (.node a) = .ok n.m_next := by
  simp only [list.get_next, list.node_at, h]

theorem list.get_item_node {α : Type} (l : list α) (a : Nat) (n : _node α)
    (h : l.heap[a]? = some (some n)) : l.get_item (.node a) = .ok n.m_item := by
  simp only [list.get_item, list.node_at, h]

/-- The item a pointer reads only depends on the heap cell it points to. -/
theorem list.get_item_congr {α : Type} (l1 l2 : list α) (p : node_ptr)
    (h : ∀ a, p = .node a →
      (l2.heap[a]?.bind id).map _node.m_item = (l1.heap[a]?.bind id).map _node.m_item) :
    l2.get_item p = l1.get_item p := by
  cases p with
  | null => rfl
  | sentinel => rfl
  | indeterminate => rfl
  | node a =>
    have ha := h a rfl
    simp only [list.get_item, list.node_at]
    rcases h1 : l1.heap[a]? with _ | (_ | n1) <;> rcases h2 : l2.heap[a]? with _ | (_ | n2) <;>
      simp_all

/-- Appending a node to an empty list. -/
theorem list.append_node_empty {α : Type} (l : list α) (n : Nat) (nn : _node α)
    (hwf : l.wf []) (hn : l.heap[n]? = some (some nn)) :
    ∃ l1, l._append_node (.node n) = .ok l1 ∧ l1.wf [n]
      ∧ ∀ p, l1.get_item p = l.get_item p := by
  obtain ⟨_, hc, _, hs⟩ := hwf
  have hb : l.m_begin = .sentinel := hc
  have hlt : n < l.heap.length := by
    by_contra hge
    rw [List.getElem?_eq_none (by omega)] at hn
    exact absurd hn (by simp)
  refine ⟨⟨(l.heap.set n (some { nn with m_next := .sentinel })).set n
      (some ⟨.sentinel, .null, nn.m_item⟩), .node n, .node n, 1⟩, ?_, ?_, ?_⟩
  · simp [list._append_node, list._sentinel_node, hb, list.set_next, list.set_prev,
      list.put_node, hn, List.getElem?_set, hlt]
  · refine ⟨by simp, ?_, fun _ => rfl, rfl⟩
    exact ⟨rfl, ⟨.sentinel, .null, nn.m_item⟩, by simp [List.getElem?_set, hlt], rfl, rfl⟩
  · intro p
    apply list.get_item_congr
    intro a _
    simp only [List.getElem?_set, List.length_set]
    by_cases ha : n = a
    · subst ha; simp [hlt, hn]
    · simp [ha]


theorem list.lt_of_live {α : Type} (h : List (Option (_node α))) (a : Nat) (n : _node α)
    (hn : h[a]? = some (some n)) : a < h.length := by
  by_contra hge
  rw [List.getElem?_eq_none (by omega)] at hn
  exact absurd hn (by simp)

theorem list.heap_set_same {β : Type} (h : List β) (a : Nat) (x : β) (ha : a < h.length) :
    (h.set a x)[a]? = some x := by
  simp [List.getElem?_set, ha]

theorem list.heap_set_other {β : Type} (h : List β) (a b : Nat) (x : β) (hab : a ≠ b) :
    (h.set a x)[b]? = h[b]? := by
  simp [List.getElem?_set, hab]

/-- Appending a node to a list that has a last node `e`. -/
theorem list.append_node_nonempty {α : Type} (l : list α) (pre : List Nat) (e n : Nat)
    (nn : _node α) (hwf : l.wf (pre ++ [e])) (hn : l.heap[n]? = some (some nn))
    (hfresh : n ∉ pre ++ [e]) :
    ∃ l1, l._append_node (.node n) = .ok l1 ∧ l1.wf (pre ++ [e, n])
      ∧ ∀ p, l1.get_item p = l.get_item p := by
  obtain ⟨hnd, hc, hend, hs⟩ := hwf
  have hend1 : l.m_end = .node e := by
    rw [hend (by simp), list.last_ptr_append]; rfl
  obtain ⟨mid, hc1, hc2⟩ := (list.chain_append _ _ _ _ _ _).1 hc
  obtain ⟨hmid, ne, hne, hprev, hnext⟩ := hc2
  have hnext1 : ne.m_next = .sentinel := hnext
  have hbne : l.m_begin ≠ .sentinel := by
    cases pre with
    | nil =>
      have : l.m_begin = mid := hc1
      rw [this, hmid]; simp
    | cons a as => rw [hc1.1]; simp
  have hne_n : e ≠ n := by
    intro h; apply hfresh; simp [h]
  have hn_pre : n ∉ pre := fun h => hfresh (List.mem_append_left _ h)
  have he_pre : e ∉ pre := by
    intro h
    have := List.nodup_append.1 hnd
    exact this.2.2 h (by simp)
  have hlt_n := list.lt_of_live _ _ _ hn
  have hlt_e := list.lt_of_live _ _ _ hne
  refine ⟨⟨((l.heap.set e (some { ne with m_next := .node n })).set n
      (some { nn with m_prev := .node e })).set n (some ⟨.sentinel, .node e, nn.m_item⟩),
      l.m_begin, .node n, l.m_size + 1⟩, ?_, ?_, ?_⟩
  · simp only [list._append_node, list._sentinel_node, hbne, hend1, list.set_next, list.set_prev,
      list.put_node, hn, hne, list.heap_set_other _ _ _ _ hne_n, list.heap_set_same, hlt_n,
      List.length_set, if_false]
  · refine ⟨?_, ?_, ?_, ?_⟩
    · have : (pre ++ [e, n]) = (pre ++ [e]) ++ [n] := by simp
      rw [this, List.nodup_append]
      refine ⟨hnd, by simp, ?_⟩
      intro a ha hb
      have : a = n := by simpa using hb
      exact hfresh (this ▸ ha)
    · refine (list.chain_append _ _ _ _ _ _).2 ⟨mid, ?_, ?_⟩
      · refine list.chain_congr _ _ _ _ _ _ ?_ hc1
        intro a ha
        have h1 : e ≠ a := fun h => he_pre (h ▸ ha)
        have h2 : n ≠ a := fun h => hn_pre (h ▸ ha)
        simp [List.getElem?_set, h1, h2]
      · refine ⟨hmid, { ne with m_next := .node n }, ?_, hprev, ?_⟩
        · simp [List.getElem?_set, hlt_e, hne_n, Ne.symm hne_n]
        · exact ⟨rfl, ⟨.sentinel, .node e, nn.m_item⟩, by simp [List.getElem?_set, hlt_n],
            rfl, rfl⟩
    · intro _
      show node_ptr.node n = _
      rw [list.last_ptr_append]; rfl
    · show l.m_size + 1 = _
      simp [hs]
  · intro p
    apply list.get_item_congr
    intro a _
    simp only [List.getElem?_set, List.length_set]
    by_cases ha : n = a
    · subst ha; simp [hlt_n, hn]
    · by_cases hb : e = a
      · subst hb; simp [ha, hlt_e, hne]
      · simp [ha, hb]

/-- Prepending a node to a list that has a first node `b`. -/
theorem list.prepend_node_nonempty {α : Type} (l : list α) (b : Nat) (rest : List Nat) (n : Nat)
    (nn : _node α) (hwf : l.wf (b :: rest)) (hn : l.heap[n]? = some (some nn))
    (hfresh : n ∉ b :: rest) :
    ∃ l1, l._prepend_node (.node n) = .ok l1 ∧ l1.wf (n :: b :: rest)
      ∧ ∀ p, l1.get_item p = l.get_item p := by
  obtain ⟨hnd, hc, hend, hs⟩ := hwf
  obtain ⟨hbeg, nb, hnb, hprev, hrest⟩ := hc
  have hbne : l.m_begin ≠ .sentinel := by rw [hbeg]; simp
  have hne_n : b ≠ n := by
    intro h; apply hfresh; simp [h]
  have hn_rest : n ∉ rest := fun h => hfresh (List.mem_cons_of_mem _ h)
  have hb_rest : b ∉ rest := (List.nodup_cons.1 hnd).1
  have hlt_n := list.lt_of_live _ _ _ hn
  have hlt_b := list.lt_of_live _ _ _ hnb
  refine ⟨⟨((l.heap.set b (some { nb with m_prev := .node n })).set n
      (some { nn with m_next := .node b })).set n (some ⟨.node b, .null, nn.m_item⟩),
      .node n, l.m_end, l.m_size + 1⟩, ?_, ?_, ?_⟩
  · simp only [list._prepend_node, list._sentinel_node, hbeg, list.set_next, list.set_prev,
      list.put_node, hn, hnb, list.heap_set_other _ _ _ _ hne_n, list.heap_set_same, hlt_n,
      List.length_set, if_false, reduceCtorEq]
  · refine ⟨List.nodup_cons.2 ⟨hfresh, hnd⟩, ?_, ?_, ?_⟩
    · refine ⟨rfl, ⟨.node b, .null, nn.m_item⟩, by simp [List.getElem?_set, hlt_n], rfl, rfl,
        { nb with m_prev := .node n }, ?_, rfl, ?_⟩
      · simp [List.getElem?_set, hlt_b, hne_n, Ne.symm hne_n]
      · refine list.chain_congr _ _ _ _ _ _ ?_ hrest
        intro a ha
        have h1 : b ≠ a := fun h => hb_rest (h ▸ ha)
        have h2 : n ≠ a := fun h => hn_rest (h ▸ ha)
        simp [List.getElem?_set, h1, h2]
    · intro _
      show l.m_end = _
      rw [hend (by simp)]; rfl
    · show l.m_size + 1 = _
      simp [hs]
  · intro p
    apply list.get_item_congr
    intro a _
    simp only [List.getElem?_set, List.length_set]
    by_cases ha : n = a
    · subst ha; simp [hlt_n, hn]
    · by_cases hb : b = a
      · subst hb; simp [ha, hlt_b, hnb]
      · simp [ha, hb]


/-- Splicing a node in front of the node `a` that follows the node `p`. -/
theorem list.insert_node_middle {α : Type} (l : list α) (pre : List Nat) (p a : Nat)
    (post : List Nat) (n : Nat) (nn : _node α) (hwf : l.wf (pre ++ p :: a :: post))
    (hn : l.heap[n]? = some (some nn)) (hfresh : n ∉ pre ++ p :: a :: post) :
    ∃ l1, l._insert_node (.node n) (.node a) = .ok l1 ∧ l1.wf (pre ++ p :: n :: a :: post)
      ∧ ∀ q, l1.get_item q = l.get_item q := by
  obtain ⟨hnd, hc, hend, hs⟩ := hwf
  obtain ⟨mid, hc1, hc2⟩ := (list.chain_append _ _ _ _ _ _).1 hc
  obtain ⟨hmid, np, hnp, hpprev, hc3⟩ := hc2
  obtain ⟨hpnext, na, hna, haprev, hc4⟩ := hc3
  have hnd1 := List.nodup_append.1 hnd
  have hnd2 := List.nodup_cons.1 hnd1.2.1
  have hnd3 := List.nodup_cons.1 hnd2.2
  have hpa : p ≠ a := fun h => hnd2.1 (by simp [h])
  have hnp_ne : n ≠ p := fun h => hfresh (by simp [h])
  have hna_ne : n ≠ a := fun h => hfresh (by simp [h])
  have hp_pre : p ∉ pre := fun h => hnd1.2.2 h (by simp)
  have ha_pre : a ∉ pre := fun h => hnd1.2.2 h (by simp)
  have hn_pre : n ∉ pre := fun h => hfresh (by simp [h])
  have hp_post : p ∉ post := fun h => hnd2.1 (by simp [h])
  have ha_post : a ∉ post := hnd3.1
  have hn_post : n ∉ post := fun h => hfresh (by simp [h])
  have hbeg : l.m_begin ≠ .node a := by
    cases pre with
    | nil =>
      have : l.m_begin = mid := hc1
      rw [this, hmid]
      simpa using hpa
    | cons b bs =>
      rw [hc1.1]
      intro h
      apply ha_pre
      simp only [node_ptr.node.injEq] at h
      simp [h]
  have hlt_n := list.lt_of_live _ _ _ hn
  have hlt_p := list.lt_of_live _ _ _ hnp
  have hlt_a := list.lt_of_live _ _ _ hna
  refine ⟨⟨(((l.heap.set n (some { nn with m_prev := .node p })).set n
      (some ⟨.node a, .node p, nn.m_item⟩)).set p (some { np with m_next := .node n })).set a
      (some { na with m_prev := .node n }), l.m_begin, l.m_end, l.m_size + 1⟩, ?_, ?_, ?_⟩
  · simp only [list._insert_node, list._sentinel_node, Ne.symm hbeg, list.get_prev, list.node_at,
      list.set_next, list.set_prev, list.put_node, hn, hnp, hna, haprev,
      list.heap_set_other _ _ _ _ hnp_ne, list.heap_set_other _ _ _ _ hna_ne,
      list.heap_set_other _ _ _ _ hpa, list.heap_set_same, hlt_n, List.length_set, if_false,
      reduceCtorEq]
  · refine ⟨?_, ?_, ?_, ?_⟩
    · have hperm : (pre ++ p :: n :: a :: post).Perm (n :: (pre ++ p :: a :: post)) := by
        have h1 : pre ++ p :: n :: a :: post = (pre ++ [p]) ++ n :: (a :: post) := by simp
        have h2 : pre ++ p :: a :: post = (pre ++ [p]) ++ (a :: post) := by simp
        rw [h1, h2]
        exact List.perm_middle
      exact (List.Perm.nodup_iff hperm).2 (List.nodup_cons.2 ⟨hfresh, hnd⟩)
    · refine (list.chain_append _ _ _ _ _ _).2 ⟨mid, ?_, ?_⟩
      · refine list.chain_congr _ _ _ _ _ _ ?_ hc1
        intro b hb
        have h1 : n ≠ b := fun h => hn_pre (h ▸ hb)
        have h2 : p ≠ b := fun h => hp_pre (h ▸ hb)
        have h3 : a ≠ b := fun h => ha_pre (h ▸ hb)
        simp [List.getElem?_set, h1, h2, h3]
      · refine ⟨hmid, { np with m_next := .node n }, ?_, hpprev, rfl,
          ⟨.node a, .node p, nn.m_item⟩, ?_, rfl, rfl, { na with m_prev := .node n }, ?_, rfl, ?_⟩
        · simp [List.getElem?_set, hlt_p, hpa, Ne.symm hpa]
        · simp [List.getElem?_set, hlt_n, hnp_ne, hna_ne, Ne.symm hnp_ne, Ne.symm hna_ne]
        · simp [List.getElem?_set, hlt_a]
        · refine list.chain_congr _ _ _ _ _ _ ?_ hc4
          intro b hb
          have h1 : n ≠ b := fun h => hn_post (h ▸ hb)
          have h2 : p ≠ b := fun h => hp_post (h ▸ hb)
          have h3 : a ≠ b := fun h => ha_post (h ▸ hb)
          simp [List.getElem?_set, h1, h2, h3]
    · intro _
      show l.m_end = _
      rw [hend (by simp), list.last_ptr_append, list.last_ptr_append]
      rfl
    · show l.m_size + 1 = _
      simp only [hs, List.length_append, List.length_cons]
      omega
  · intro q
    apply list.get_item_congr
    intro b _
    simp only [List.getElem?_set, List.length_set]
    by_cases h1 : a = b
    · subst h1; simp [hlt_a, hna]
    · by_cases h2 : p = b
      · subst h2; simp [h1, hlt_p, hnp]
      · by_cases h3 : n = b
        · subst h3; simp [h1, h2, hlt_n, hn]
        · simp [h1, h2, h3]

theorem list.positions_lt (ps : List Nat) (k : Nat) (hk : k < ps.length) :
    (list.positions ps)[k]? = some (.node (ps.get ⟨k, hk⟩)) := by
  simp [list.positions, List.getElem?_append_left, hk, List.getElem?_eq_getElem]

theorem list.positions_length (ps : List Nat) :
    (list.positions ps)[ps.length]? = some .sentinel := by
  simp [list.positions]

/-- `_insert_node(n, pos)` with `pos` the `k`-th iterator of a well-formed
list and `n` a live node outside it puts `n` at index `k` and changes no item. -/
theorem list.insert_node_spec {α : Type} (l : list α) (ps : List Nat) (k : Nat) (pos : node_ptr)
    (n : Nat) (nn : _node α) (hwf : l.wf ps) (hn : l.heap[n]? = some (some nn)) (hfresh : n ∉ ps)
    (hpos : (list.positions ps)[k]? = some pos) :
    ∃ l1, l._insert_node (.node n) pos = .ok l1 ∧ l1.wf (ps.take k ++ n :: ps.drop k)
      ∧ ∀ q, l1.get_item q = l.get_item q := by
  rcases Nat.lt_trichotomy k ps.length with hlt | heq | hgt
  · rw [list.positions_lt ps k hlt] at hpos
    have hpos1 : pos = .node (ps.get ⟨k, hlt⟩) := (Option.some.inj hpos).symm
    cases k with
    | zero =>
      cases ps with
      | nil => simp at hlt
      | cons b rest =>
        have hb : l.m_begin = .node b := hwf.2.1.1
        obtain ⟨l1, h1, h2, h3⟩ := list.prepend_node_nonempty l b rest n nn hwf hn hfresh
        refine ⟨l1, ?_, by simpa using h2, h3⟩
        simp only [hpos1, list._insert_node, list._sentinel_node, List.get_eq_getElem,
          List.getElem_cons_zero, hb, if_true, reduceCtorEq, if_false]
        exact h1
    | succ j =>
      have hsplit : ps = ps.take j ++ ps.get ⟨j, by omega⟩ :: ps.get ⟨j + 1, hlt⟩
          :: ps.drop (j + 2) := by
        conv_lhs => rw [← List.take_append_drop j ps]
        congr 1
        rw [List.drop_eq_getElem_cons (by omega : j < ps.length)]
        congr 1
        rw [List.drop_eq_getElem_cons hlt]
        rfl
      have hwf1 := hwf
      rw [hsplit] at hwf1
      have hfresh1 := hfresh
      rw [hsplit] at hfresh1
      obtain ⟨l1, h1, h2, h3⟩ := list.insert_node_middle l _ _ _ _ n nn hwf1 hn hfresh1
      refine ⟨l1, by rw [hpos1]; exact h1, ?_, h3⟩
      have e1 : ps.take (j + 1) ++ n :: ps.drop (j + 1)
          = ps.take j ++ ps.get ⟨j, by omega⟩ :: n :: ps.get ⟨j + 1, hlt⟩ :: ps.drop (j + 2) := by
        rw [List.take_succ, List.getElem?_eq_getElem (by omega : j < ps.length),
          List.drop_eq_getElem_cons hlt]
        simp only [Option.toList, List.append_assoc, List.singleton_append, List.get_eq_getElem]
      rw [e1]
      exact h2
  · subst heq
    rw [list.positions_length] at hpos
    have hpos1 : pos = .sentinel := (Option.some.inj hpos).symm
    subst hpos1
    have e2 : ps.take ps.length ++ n :: ps.drop ps.length = ps ++ [n] := by simp
    rw [e2]
    rcases List.eq_nil_or_concat ps with hnil | ⟨pre, e, hpe⟩
    · subst hnil
      obtain ⟨l1, h1, h2, h3⟩ := list.append_node_empty l n nn hwf hn
      exact ⟨l1, by simpa [list._insert_node, list._sentinel_node] using h1, by simpa using h2, h3⟩
    · rw [List.concat_eq_append] at hpe
      subst hpe
      obtain ⟨l1, h1, h2, h3⟩ := list.append_node_nonempty l pre e n nn hwf hn hfresh
      exact ⟨l1, by simpa [list._insert_node, list._sentinel_node] using h1, by simpa using h2, h3⟩
  · have : (list.positions ps)[k]? = none := by
      apply List.getElem?_eq_none
      simp [list.positions]; omega
    rw [this] at hpos
    exact absurd hpos (by simp)


/-! ## list: items and insert -/

theorem list.items_congr {α : Type} (l1 l2 : list α) (qs : List node_ptr)
    (h : ∀ p, p ∈ qs → l1.get_item p = l2.get_item p) : l1.items qs = l2.items qs := by
  induction qs with
  | nil => rfl
  | cons q qs ih =>
    simp only [list.items, h q (List.mem_cons_self _ _),
      ih (fun p hp => h p (List.mem_cons_of_mem _ hp))]

theorem list.items_append_ok {α : Type} (l : list α) (xs ys : List node_ptr) (a b : List α)
    (ha : l.items xs = .ok a) (hb : l.items ys = .ok b) : l.items (xs ++ ys) = .ok (a ++ b) := by
  induction xs generalizing a with
  | nil =>
    have : a = [] := by simpa [list.items] using ha.symm
    simpa [this] using hb
  | cons x xs ih =>
    simp only [list.items] at ha
    rcases hx : l.get_item x with e | y
    · simp [hx] at ha
    · rcases hxs : l.items xs with e | a1
      · simp [hx, hxs] at ha
      · simp only [hx, hxs, Except.ok.injEq] at ha
        subst ha
        show l.items (x :: (xs ++ ys)) = _
        simp only [list.items, hx, ih a1 hxs, List.cons_append]

theorem list.items_take_drop {α : Type} (l : list α) (qs : List node_ptr) :
    ∀ (s : List α) (k : Nat), l.items qs = .ok s →
      l.items (qs.take k) = .ok (s.take k) ∧ l.items (qs.drop k) = .ok (s.drop k) := by
  induction qs with
  | nil =>
    intro s k hs
    have : s = [] := by simpa [list.items] using hs.symm
    subst this
    simp [list.items]
  | cons q qs ih =>
    intro s k hs
    simp only [list.items] at hs
    rcases hx : l.get_item q with e | y
    · simp [hx] at hs
    · rcases hxs : l.items qs with e | a1
      · simp [hx, hxs] at hs
      · simp only [hx, hxs, Except.ok.injEq] at hs
        subst hs
        cases k with
        | zero => simp [list.items, hx, hxs]
        | succ k =>
          obtain ⟨h1, h2⟩ := ih a1 k hxs
          simp [list.items, hx, h1, h2]

theorem list.items_length {α : Type} (l : list α) (qs : List node_ptr) :
    ∀ (s : List α), l.items qs = .ok s → s.length = qs.length := by
  induction qs with
  | nil =>
    intro s hs
    have : s = [] := by simpa [list.items] using hs.symm
    simp [this]
  | cons q qs ih =>
    intro s hs
    simp only [list.items] at hs
    rcases hx : l.get_item q with e | y
    · simp [hx] at hs
    · rcases hxs : l.items qs with e | a1
      · simp [hx, hxs] at hs
      · simp only [hx, hxs, Except.ok.injEq] at hs
        subst hs
        simp [ih a1 hxs]

/-- The element sequence of a well-formed list is the items of its nodes. -/
theorem list.to_list_of_wf {α : Type} (l : list α) (ps : List Nat) (hwf : l.wf ps) :
    l.to_list = l.items (ps.map node_ptr.node) := by
  simp only [list.to_list, list.forward_of_wf l ps hwf]

/-- C6. On a well-formed list with element sequence `s`, `insert(pos, v)` with
`pos` the `k`-th iterator (a node for `k < L`, the sentinel for `k = L`)
returns an iterator to a new node that holds `v` and sits at index `k`; the
size is one more and the element sequence is `s` with `v` put in front of
index `k`, all other elements in their order.  With `pos == end()` the
sequence is `s` followed by `v`, with `pos == begin()` it is `v` followed by
`s`. -/
theorem list_insert_spec {α : Type} [Inhabited α] (l : list α) (ps : List Nat) (s : List α)
    (k : Nat) (pos : list_iterator) (v : α) (hwf : l.wf ps) (hs : l.to_list = .ok s)
    (hpos : (list.positions ps)[k]? = some pos) :
    ∃ l1 it, l.insert pos v = .ok (l1, it) ∧ l1.size = l.size + 1
      ∧ l1.to_list = .ok (s.take k ++ v :: s.drop k)
      ∧ l1.get_item it = .ok v
      ∧ l1.wf (ps.take k ++ l.heap.length :: ps.drop k)
      ∧ (list.positions (ps.take k ++ l.heap.length :: ps.drop k))[k]? = some it
      ∧ (pos = l.end → l1.to_list = .ok (s ++ [v]))
      ∧ (pos = l.begin → l1.to_list = .ok (v :: s)) := by
  have hlen := list.chain_lt _ _ _ _ _ hwf.2.1
  have hkle : k ≤ ps.length := by
    by_contra hgt
    have : (list.positions ps)[k]? = none := by
      apply List.getElem?_eq_none
      simp [list.positions]; omega
    rw [this] at hpos
    exact absurd hpos (by simp)
  have hfresh : l.heap.length ∉ ps := fun h => Nat.lt_irrefl _ (hlen _ h)
  -- the state after `new _node` and the store of the item
  have hcell : (l.heap ++ [some (⟨.indeterminate, .indeterminate, default⟩ : _node α)])[l.heap.length]?
      = some (some ⟨.indeterminate, .indeterminate, default⟩) := by simp
  have hold : ∀ a, a ∈ ps →
      ((l.heap ++ [some (⟨.indeterminate, .indeterminate, default⟩ : _node α)]).set l.heap.length
        (some ⟨.indeterminate, .indeterminate, v⟩))[a]? = l.heap[a]? := by
    intro a ha
    have := hlen a ha
    rw [list.heap_set_other _ _ _ _ (by omega), List.getElem?_append_left this]
  have hnew : ((l.heap ++ [some (⟨.indeterminate, .indeterminate, default⟩ : _node α)]).set
      l.heap.length (some ⟨.indeterminate, .indeterminate, v⟩))[l.heap.length]?
      = some (some ⟨.indeterminate, .indeterminate, v⟩) :=
    list.heap_set_same _ _ _ (by simp)
  have hwf2 : (⟨(l.heap ++ [some (⟨.indeterminate, .indeterminate, default⟩ : _node α)]).set
      l.heap.length (some ⟨.indeterminate, .indeterminate, v⟩), l.m_begin, l.m_end, l.m_size⟩
      : list α).wf ps :=
    ⟨hwf.1, list.chain_congr _ _ _ _ _ _ hold hwf.2.1, hwf.2.2.1, hwf.2.2.2⟩
  obtain ⟨l1, h1, h2, h3⟩ := list.insert_node_spec _ ps k pos l.heap.length _ hwf2 hnew hfresh hpos
  have hitems : l.items (ps.map node_ptr.node) = .ok s := by
    rw [← list.to_list_of_wf l ps hwf]; exact hs
  obtain ⟨ht, hd⟩ := list.items_take_drop l _ s k hitems
  have hkeep : ∀ a, a ∈ ps → l1.get_item (.node a) = l.get_item (.node a) := by
    intro a ha
    rw [h3]
    apply list.get_item_congr
    intro b hb
    have : a = b := by simpa using hb
    subst this
    simp only [hold a ha]
  have hsz : l1.size = l.size + 1 := by
    have e1 := h2.2.2.2
    have e2 := hwf.2.2.2
    simp only [list.size, e1, e2, List.length_append, List.length_take, List.length_cons,
      List.length_drop]
    omega
  have htl : l1.to_list = .ok (s.take k ++ v :: s.drop k) := by
    rw [list.to_list_of_wf l1 _ h2, List.map_append, List.map_cons]
    apply list.items_append_ok
    · rw [← ht, ← List.map_take]
      apply list.items_congr
      intro p hp
      obtain ⟨a, ha, rfl⟩ := List.mem_map.1 hp
      exact hkeep a (List.mem_of_mem_take ha)
    · have hv : l1.get_item (.node l.heap.length) = .ok v := by
        rw [h3, list.get_item_node _ _ _ hnew]
      have hrest : l1.items ((ps.drop k).map node_ptr.node) = .ok (s.drop k) := by
        rw [← hd, ← List.map_drop]
        apply list.items_congr
        intro p hp
        obtain ⟨a, ha, rfl⟩ := List.mem_map.1 hp
        exact hkeep a (List.mem_of_mem_drop ha)
      simp only [list.items, hv, hrest]
  have hslen : s.length = ps.length := by
    simpa using list.items_length l _ s hitems
  refine ⟨l1, .node l.heap.length, ?_, hsz, htl, ?_, h2, ?_, ?_, ?_⟩
  · simp only [list.insert, list.new_node, list.set_item, list.put_node, hcell, h1]
  · rw [h3, list.get_item_node _ _ _ hnew]
  · rw [list.positions, List.map_append, List.append_assoc,
      List.getElem?_append_right (by simp)]
    simp only [List.length_map, List.length_take, Nat.min_eq_left hkle, Nat.sub_self,
      List.map_cons, List.cons_append, List.getElem?_cons_zero]
  · intro hp
    have hk : k = ps.length := by
      rcases Nat.lt_or_ge k ps.length with hlt | hge
      · rw [list.positions_lt ps k hlt, hp] at hpos
        simp [list.end, list._sentinel_node] at hpos
      · omega
    rw [htl, hk, ← hslen]
    simp
  · intro hp
    have hk : k = 0 := by
      cases ps with
      | nil => simpa using hkle
      | cons b rest =>
        have hb : l.m_begin = .node b := hwf.2.1.1
        rcases Nat.lt_or_ge k (b :: rest).length with hlt | hge
        · rw [list.positions_lt _ k hlt, hp] at hpos
          simp only [list.begin, hb, List.get_eq_getElem, Option.some.injEq,
            node_ptr.node.injEq] at hpos
          have h0 : (b :: rest)[k] = (b :: rest)[0] := by simpa using hpos
          exact (List.Nodup.getElem_inj_iff hwf.1).1 h0
        · have hk : k = (b :: rest).length := by omega
          rw [hk, list.positions_length, hp] at hpos
          simp [list.begin, hb] at hpos
    rw [htl, hk]
    simp


/-! ## Witnesses and evaluations -/

/-- C3 at a full vector: `push_back(5)` on `[1, 2, 3, 4]` with capacity 4
reallocates and keeps every element. -/
theorem vector_push_back_spec_witness :
    (⟨1, [1, 2, 3, 4], 4, 4, factor.default_growth⟩ : vector Nat).wf
      ∧ ∃ w, (⟨1, [1, 2, 3, 4], 4, 4, factor.default_growth⟩ : vector Nat).push_back 5 = .ok w
        ∧ w.size = 4 + 1 ∧ w.at 4 = .ok 5
        ∧ (∀ i, i < 4 → ∃ e, (⟨1, [1, 2, 3, 4], 4, 4, factor.default_growth⟩ : vector Nat).at i
            = .ok e ∧ w.at i = .ok e)
        ∧ w.wf ∧ w.m_growth_factor = factor.default_growth :=
  ⟨⟨rfl, Nat.le_refl 4⟩,
    vector_push_back_spec ⟨1, [1, 2, 3, 4], 4, 4, factor.default_growth⟩ 5
      ⟨rfl, Nat.le_refl 4⟩ rfl⟩

/-- C6 at the list `[10, 20]`, inserting 15 before the second node. -/
theorem list_insert_spec_witness :
    (⟨[some ⟨.node 1, .null, 10⟩, some ⟨.sentinel, .node 0, 20⟩], .node 0, .node 1, 2⟩
        : list Nat).wf [0, 1]
      ∧ ∃ l1 it, (⟨[some ⟨.node 1, .null, 10⟩, some ⟨.sentinel, .node 0, 20⟩], .node 0, .node 1, 2⟩
          : list Nat).insert (.node 1) 15 = .ok (l1, it)
        ∧ l1.size = 2 + 1 ∧ l1.to_list = .ok [10, 15, 20] ∧ l1.get_item it = .ok 15 := by
  have hwf : (⟨[some ⟨.node 1, .null, 10⟩, some ⟨.sentinel, .node 0, 20⟩], .node 0, .node 1, 2⟩
      : list Nat).wf [0, 1] :=
    ⟨by decide, ⟨rfl, _, rfl, rfl, rfl, _, rfl, rfl, rfl⟩, fun _ => rfl, rfl⟩
  obtain ⟨l1, it, h1, h2, h3, h4, _⟩ := list_insert_spec
    (⟨[some ⟨.node 1, .null, 10⟩, some ⟨.sentinel, .node 0, 20⟩], .node 0, .node 1, 2⟩ : list Nat)
    [0, 1] [10, 20] 1 (.node 1) 15 hwf rfl rfl
  exact ⟨hwf, l1, it, h1, h2, h3, h4⟩

/-- A constructed list is well formed, with no nodes. -/
theorem list.ctor_wf {α : Type} : (list.ctor : list α).wf [] :=
  ⟨List.nodup_nil, rfl, fun h => absurd rfl h, rfl⟩

/-- C1, failing input.  On a `queue<unsigned char, 0>` constructed in zeroed
storage: enqueue 1, 2, 3 and dequeue three times returns 1, 2, 3; but after
enqueue 1..6, dequeue, enqueue 7 the ring is full with `m_index == 1`, and
`enqueue(8)` enters the branch of `_realloc_storage` that declares the local
`new_storage`, whose constructor runs on indeterminate members.  Where that
local comes out as in zeroed storage, the two `memcpy` calls put the oldest
element in cell 0 and `m_index` stays 1: `front()` is 3, not 2. -/
theorem queue0_fifo_failing_input :
    ∃ q0 q1 q7 : queue0 uchar, queue0.ctor .zeroed = .ok q0
      ∧ q0.run [.enqueue 1, .enqueue 2, .enqueue 3, .dequeue, .dequeue, .dequeue]
          = .ok (q1, [1, 2, 3])
      ∧ q0.run [.enqueue 1, .enqueue 2, .enqueue 3, .enqueue 4, .enqueue 5, .enqueue 6, .dequeue,
          .enqueue 7] = .ok (q7, [1])
      ∧ q7.m_index = 1 ∧ q7.m_size = 6 ∧ q7.m_data.m_data = [7, 2, 3, 4, 5, 6]
      ∧ q7.front = .ok 2
      ∧ q7.enqueue 8 = .error .uninitialised
      ∧ ∃ (new_storage : vector uchar) (q8 : queue0 uchar),
          vector.ctor .zeroed = .ok new_storage
          ∧ q7._realloc_from new_storage = .ok q8
          ∧ q8.m_index = 1 ∧ q8.m_data.m_data = [2, 3, 4, 5, 6, 7, 0, 0, 0]
          ∧ q8.front = .ok 3 :=
  ⟨_, _, _, rfl, rfl, rfl, rfl, rfl, rfl, rfl, rfl, _, _, rfl, rfl, rfl, rfl, rfl⟩

/-- C4, failing input.  With the growth factor set to `1.1f`, four
`push_back` calls on a vector constructed in zeroed storage fill its four
cells; the
fifth asks `_reserve_impl` for `static_cast<size_t>(4 * 1.1f) = 4` cells, which
allocates nothing, and then writes cell 4 of the 4-cell block. -/
theorem vector_capacity_failing_input :
    ∃ v0 v4 : vector Nat, vector.ctor .zeroed = .ok v0
      ∧ (v0.set_growth_factor factor.min_growth).push_all [1, 2, 3, 4] = .ok v4
      ∧ v4.size = 4 ∧ v4.capacity = 4 ∧ v4.m_growth_factor.scale v4.m_capacity = 4
      ∧ v4._reserve_impl 4 = .ok v4
      ∧ v4.push_back 5 = .error .out_of_bounds :=
  ⟨_, _, rfl, rfl, rfl, rfl, rfl, rfl, rfl⟩

/-- C5, failing input.  After three `insert(end(), x)` calls on an empty list
the forward walk visits the three nodes, the backward walk visits them in
reverse and `size()` is 3; but after `insert(end(), 1)` alone,
`erase(begin())` dereferences the null `m_prev` of the only node. -/
theorem list_walk_failing_input :
    ∃ l1 l3 : list Nat, (list.ctor : list Nat).insert_all [1, 2, 3] = .ok l3
      ∧ l3.forward = .ok [.node 0, .node 1, .node 2]
      ∧ l3.backward = .ok [.node 2, .node 1, .node 0] ∧ l3.size = 3
      ∧ (list.ctor : list Nat).insert_all [1] = .ok l1
      ∧ l1.forward = .ok [.node 0] ∧ l1.get_prev l1.begin = .ok .null
      ∧ l1.erase l1.begin = .error .null_deref :=
  ⟨_, _, rfl, rfl, rfl, rfl, rfl, rfl, rfl, rfl⟩

/-- C7, failing input.  On the list `[1, 2, 3]`, `erase` of the middle node
and of the last node give `[1, 3]` and `[1, 2]` and return the following
iterator, but `erase(begin())` dereferences the null `m_prev` of the first
node. -/
theorem list_erase_failing_input :
    ∃ l3 lm ll : list Nat, (list.ctor : list Nat).insert_all [1, 2, 3] = .ok l3
      ∧ l3.forward = .ok [.node 0, .node 1, .node 2]
      ∧ l3.erase (.node 1) = .ok (lm, .node 2) ∧ lm.to_list = .ok [1, 3] ∧ lm.size = 2
      ∧ l3.erase (.node 2) = .ok (ll, .sentinel) ∧ ll.to_list = .ok [1, 2] ∧ ll.size = 2
      ∧ l3.begin = .node 0 ∧ l3.erase l3.begin = .error .null_deref :=
  ⟨_, _, _, rfl, rfl, rfl, rfl, rfl, rfl, rfl, rfl, rfl, rfl⟩

/-- C8, failing input.  On the full vector `[1, 2, 3, 4]` (capacity 4),
`insert(begin() + 1, 9)` reallocates and then compares the iterators of the
new block with `pos`, which points into the released block; the shifting
loop runs past the front of the new block.  With a free cell (`[1, 2, 3]`)
the same call gives `[1, 9, 2, 3]`. -/
theorem vector_insert_failing_input :
    ∃ v0 v3 v4 w : vector Nat, vector.ctor .zeroed = .ok v0
      ∧ v0.push_all [1, 2, 3] = .ok v3
      ∧ v3.insert ⟨v3.m_blk, 1⟩ 9 = .ok (w, ⟨v3.m_blk, 1⟩) ∧ w.size = 4
      ∧ w.m_data = [1, 9, 2, 3]
      ∧ v0.push_all [1, 2, 3, 4] = .ok v4 ∧ v4.size = 4 ∧ v4.capacity = 4
      ∧ v4.insert ⟨v4.m_blk, 1⟩ 9 = .error .out_of_bounds :=
  ⟨_, _, _, _, rfl, rfl, rfl, rfl, rfl, rfl, rfl, rfl, rfl⟩

/-- C10, failing input.  On `[1, 2, 3]`, `erase(begin(), begin() + 2)` moves
the third element to the front and decrements `m_size` once: the size is 2,
not 1, and the vector reads `[3, 2]`.  This is the run with an element type
that converts to the iterator at its own address; with `int` elements the
call is ill-formed, as `erase(pos)` is. -/
theorem vector_erase_range_failing_input :
    (∃ v0 v3 w : vector boxed, vector.ctor .zeroed = .ok v0
      ∧ v0.push_all [⟨1⟩, ⟨2⟩, ⟨3⟩] = .ok v3
      ∧ v3.erase_range ⟨v3.m_blk, 0⟩ ⟨v3.m_blk, 2⟩ = .ok (w, ⟨v3.m_blk, 0⟩)
      ∧ w.size = 2 ∧ w.at 0 = .ok ⟨3⟩ ∧ w.at 1 = .ok ⟨2⟩)
    ∧ ∀ (v : vector Nat) (_beg _end : vector_iterator),
        v.erase_range _beg _end = .error .ill_formed :=
  ⟨⟨_, _, _, rfl, rfl, rfl, rfl, rfl, rfl⟩, fun _ _ _ => rfl⟩

/-! ## vector: reserve, resize, shrink_to_fit, pop_back -/

/-- `_reserve_impl` on a well-formed vector: the size and the elements stay,
the capacity becomes `max(n, 4)` unless it is that much already. -/
theorem vector.reserve_ok {α : Type} [Inhabited α] (v : vector α) (n : Nat) (hwf : v.wf) :
    ∃ w, v._reserve_impl n = .ok w ∧ w.m_size = v.m_size
      ∧ (∀ j, j < v.m_size → w.m_data[j]? = v.m_data[j]?)
      ∧ (max n 4 ≤ v.m_capacity → w = v)
      ∧ (v.m_capacity < max n 4 → w.m_capacity = max n 4 ∧ w.m_blk = v.m_blk + 1)
      ∧ w.wf ∧ w.m_growth_factor = v.m_growth_factor := by
  by_cases hn : max n 4 ≤ v.m_capacity
  · exact ⟨v, vector.reserve_keep v n hn, rfl, fun _ _ => rfl, fun _ => rfl,
      fun h => absurd hn (by omega), hwf, rfl⟩
  · obtain ⟨w, h1, h2, h3, h4, h5, h6, h7⟩ := vector.reserve_grow v n hwf (by omega)
    refine ⟨w, h1, h3, h7, fun h => absurd h hn, fun _ => ⟨h4, h2⟩, ⟨by rw [h6, h4], ?_⟩, h5⟩
    rw [h3, h4]
    have := hwf.2
    omega

/-- C16. On a well-formed vector `reserve(n)` returns; the size and every
element below it are unchanged and the capacity is at least `n`: the state is
unchanged when the capacity was `max(n, 4)` or more, and otherwise the new
capacity is exactly `max(n, 4)`. -/
theorem vector_reserve_spec {α : Type} [Inhabited α] (v : vector α) (n : Nat) (hwf : v.wf) :
    ∃ w, v.reserve n = .ok w ∧ w.size = v.size
      ∧ (∀ i, i < v.size → ∃ e, v.at i = .ok e ∧ w.at i = .ok e)
      ∧ n ≤ w.capacity
      ∧ (max n 4 ≤ v.capacity → w = v)
      ∧ (v.capacity < max n 4 → w.capacity = max n 4)
      ∧ w.wf := by
  obtain ⟨w, h1, h2, h3, h4, h5, h6, _⟩ := vector.reserve_ok v n hwf
  refine ⟨w, h1, h2, ?_, ?_, h4, fun h => (h5 h).1, h6⟩
  · intro i hi
    have hi0 : i < v.m_size := hi
    have hi1 : i < v.m_data.length := by have := hwf.1; have := hwf.2; omega
    refine ⟨v.m_data.get ⟨i, hi1⟩, ?_, ?_⟩
    · rw [vector.at_eq]
      exact ⟨hi, by simp [List.getElem?_eq_getElem hi1]⟩
    · rw [vector.at_eq]
      refine ⟨by simp only [vector.size, h2]; exact hi0, ?_⟩
      rw [h3 i hi0]
      simp [List.getElem?_eq_getElem hi1]
  · by_cases hn : max n 4 ≤ v.m_capacity
    · rw [h4 hn]
      simp only [vector.capacity]
      omega
    · simp only [vector.capacity, (h5 (by omega)).1]
      omega

/-- C16 at `[1, 2, 3]` with capacity 4, reserving 10 cells. -/
theorem vector_reserve_spec_witness :
    (⟨1, [1, 2, 3, 0], 3, 4, factor.default_growth⟩ : vector Nat).wf
      ∧ ∃ w, (⟨1, [1, 2, 3, 0], 3, 4, factor.default_growth⟩ : vector Nat).reserve 10 = .ok w
        ∧ w.size = 3
        ∧ (∀ i, i < 3 → ∃ e, (⟨1, [1, 2, 3, 0], 3, 4, factor.default_growth⟩ : vector Nat).at i
            = .ok e ∧ w.at i = .ok e)
        ∧ 10 ≤ w.capacity
        ∧ (max 10 4 ≤ 4 → w = ⟨1, [1, 2, 3, 0], 3, 4, factor.default_growth⟩)
        ∧ (4 < max 10 4 → w.capacity = max 10 4)
        ∧ w.wf :=
  ⟨⟨rfl, by decide⟩,
    vector_reserve_spec ⟨1, [1, 2, 3, 0], 3, 4, factor.default_growth⟩ 10 ⟨rfl, by decide⟩⟩

/-- With the default growth factor the capacity loop of `_resize_impl` exits
with a capacity that is enough, and leaves a capacity that is enough alone. -/
theorem vector.resize_capacity_ok (n : Nat) :
    ∀ (k c : Nat), 2 ≤ c → n - c ≤ k →
      ∃ c1, vector._resize_capacity factor.default_growth n k c = .ok c1 ∧ n ≤ c1 ∧ c ≤ c1
        ∧ (n ≤ c → c1 = c) := by
  intro k
  induction k with
  | zero =>
    intro c _ hk
    refine ⟨c, ?_, by omega, Nat.le_refl _, fun _ => rfl⟩
    simp only [vector._resize_capacity, show ¬ c < n by omega, if_false]
  | succ k ih =>
    intro c hc hk
    by_cases hlt : c < n
    · have hs : c < factor.default_growth.scale c := (scale_default_growth_step c hc).1
      obtain ⟨c1, h1, h2, h3, _⟩ := ih (factor.default_growth.scale c) (by omega) (by omega)
      refine ⟨c1, ?_, h2, by omega, fun h => absurd hlt (by omega)⟩
      simp only [vector._resize_capacity, hlt, hs, if_true]
      exact h1
    · refine ⟨c, ?_, by omega, Nat.le_refl _, fun _ => rfl⟩
      simp only [vector._resize_capacity, hlt, if_false]

/-- `_resize_impl` with the default growth factor on a well-formed vector. -/
theorem vector.resize_ok {α : Type} [Inhabited α] (v : vector α) (n : Nat) (hwf : v.wf)
    (hf : v.m_growth_factor = factor.default_growth) :
    ∃ w, v._resize_impl n = .ok w ∧ w.m_size = n
      ∧ (∀ j, j < v.m_size → j < n → w.m_data[j]? = v.m_data[j]?)
      ∧ (∀ j, v.m_size ≤ j → j < n → w.m_data[j]? = some default)
      ∧ (n ≤ v.m_capacity → 4 ≤ v.m_capacity → w.m_capacity = v.m_capacity ∧ w.m_blk = v.m_blk)
      ∧ w.wf ∧ 4 ≤ w.m_capacity ∧ w.m_growth_factor = factor.default_growth := by
  obtain ⟨c1, hc1, hc2, hc3, hc4⟩ := vector.resize_capacity_ok n (n - max v.m_capacity 4)
    (max v.m_capacity 4) (by omega) (Nat.le_refl _)
  obtain ⟨v1, hv1, hv2, hv3, hv4, hv5, hv6, hv7⟩ := vector.reserve_ok v c1 hwf
  have hcap1 : n ≤ v1.m_capacity ∧ 4 ≤ v1.m_capacity := by
    by_cases hn : max c1 4 ≤ v.m_capacity
    · rw [hv4 hn]; omega
    · rw [(hv5 (by omega)).1]; omega
  have hlen1 : v1.m_data.length = v1.m_capacity := hv6.1
  have hsz1 : v1.m_size ≤ v1.m_capacity := hv6.2
  obtain ⟨d, hd1, hd2, hd3⟩ := for_up_fill (default : α) (n - v1.m_size) v1.m_size v1.m_data
    (by omega)
  refine ⟨{ v1 with m_data := d, m_size := n }, ?_, rfl, ?_, ?_, ?_, ?_, hcap1.2, ?_⟩
  · simp only [vector._resize_impl, hf, hc1, hv1, vector._default_fill, hd1]
  · intro j hj hjn
    show d[j]? = _
    rw [hd3 j, if_neg (by omega), hv3 j hj]
  · intro j hj hjn
    show d[j]? = _
    rw [hd3 j, if_pos (by omega)]
  · intro hn h4
    have e1 : c1 = max v.m_capacity 4 := hc4 (by omega)
    have e2 : v1 = v := hv4 (by omega)
    exact ⟨by show v1.m_capacity = _; rw [e2], by show v1.m_blk = _; rw [e2]⟩
  · exact ⟨by show d.length = v1.m_capacity; omega, by show n ≤ v1.m_capacity; exact hcap1.1⟩
  · show v1.m_growth_factor = _
    rw [hv7, hf]

/-- C17. With the default growth factor, `resize(n)` on a well-formed vector
returns; the size is `n`, every index below `min(L, n)` reads the element it
read before, every index from `L` up to `n` reads the default value, and when
`n <= L` the capacity is unchanged (for a capacity of at least 4, which every
constructed vector has). -/
theorem vector_resize_spec {α : Type} [Inhabited α] (v : vector α) (n : Nat) (hwf : v.wf)
    (hf : v.m_growth_factor = factor.default_growth) :
    ∃ w, v.resize n = .ok w ∧ w.size = n
      ∧ (∀ i, i < min v.size n → ∃ e, v.at i = .ok e ∧ w.at i = .ok e)
      ∧ (∀ i, v.size ≤ i → i < n → w.at i = .ok default)
      ∧ (n ≤ v.size → 4 ≤ v.capacity → w.capacity = v.capacity)
      ∧ w.wf ∧ w.m_growth_factor = factor.default_growth := by
  obtain ⟨w, h1, h2, h3, h4, h5, h6, _, h8⟩ := vector.resize_ok v n hwf hf
  refine ⟨w, h1, h2, ?_, ?_, ?_, h6, h8⟩
  · intro i hi
    simp only [vector.size] at hi
    have hi1 : i < v.m_data.length := by have := hwf.1; have := hwf.2; omega
    refine ⟨v.m_data.get ⟨i, hi1⟩, ?_, ?_⟩
    · rw [vector.at_eq]
      exact ⟨by simp only [vector.size]; omega, by simp [List.getElem?_eq_getElem hi1]⟩
    · rw [vector.at_eq]
      refine ⟨by simp only [vector.size, h2]; omega, ?_⟩
      rw [h3 i (by omega) (by omega)]
      simp [List.getElem?_eq_getElem hi1]
  · intro i hi hin
    rw [vector.at_eq]
    exact ⟨by simp only [vector.size, h2]; exact hin, h4 i hi hin⟩
  · intro hn hc
    simp only [vector.size, vector.capacity] at hn hc ⊢
    exact (h5 (by have := hwf.2; omega) hc).1

/-- C17 at `[1, 2, 3]` with capacity 4, resized to 6: the call reallocates
and exposes three default values. -/
theorem vector_resize_spec_witness :
    (⟨1, [1, 2, 3, 0], 3, 4, factor.default_growth⟩ : vector Nat).wf
      ∧ ∃ w, (⟨1, [1, 2, 3, 0], 3, 4, factor.default_growth⟩ : vector Nat).resize 6 = .ok w
        ∧ w.size = 6
        ∧ (∀ i, i < min 3 6 → ∃ e, (⟨1, [1, 2, 3, 0], 3, 4, factor.default_growth⟩
            : vector Nat).at i = .ok e ∧ w.at i = .ok e)
        ∧ (∀ i, 3 ≤ i → i < 6 → w.at i = .ok default)
        ∧ (6 ≤ 3 → 4 ≤ 4 → w.capacity = 4)
        ∧ w.wf ∧ w.m_growth_factor = factor.default_growth :=
  ⟨⟨rfl, by decide⟩,
    vector_resize_spec ⟨1, [1, 2, 3, 0], 3, 4, factor.default_growth⟩ 6 ⟨rfl, by decide⟩ rfl⟩


/-- `pop_back` on a non-empty well-formed vector returns the last element and
only decrements the size. -/
theorem vector.pop_back_ok {α : Type} (v : vector α) (hwf : v.wf) (hpos : 0 < v.m_size) :
    ∃ e, v.m_data[v.m_size - 1]? = some e
      ∧ v.pop_back = .ok (e, { v with m_size := v.m_size - 1 }) := by
  have hlt : v.m_size - 1 < v.m_data.length := by have := hwf.1; have := hwf.2; omega
  refine ⟨v.m_data.get ⟨v.m_size - 1, hlt⟩, by simp [List.getElem?_eq_getElem hlt], ?_⟩
  simp only [vector.pop_back, gt_iff_lt, hpos, if_true, load_of_lt _ _ hlt]

/-- C19. On a well-formed vector of length `L >= 1`, `pop_back()` returns the
element `at(L - 1)`; afterwards the size is `L - 1`, every index below it
reads the element it read before and the capacity is the same.  On a vector
of length 0 the call fails its assertion and returns no value. -/
theorem vector_pop_back_spec {α : Type} (v : vector α) (hwf : v.wf) :
    (0 < v.size → ∃ e w, v.at (v.size - 1) = .ok e ∧ v.pop_back = .ok (e, w)
        ∧ w.size = v.size - 1
        ∧ (∀ i, i < v.size - 1 → ∃ x, v.at i = .ok x ∧ w.at i = .ok x)
        ∧ w.capacity = v.capacity ∧ w.wf)
      ∧ (v.size = 0 → v.pop_back = .error .assertion) := by
  constructor
  · intro hpos
    obtain ⟨e, he, hpop⟩ := vector.pop_back_ok v hwf hpos
    refine ⟨e, { v with m_size := v.m_size - 1 }, ?_, hpop, rfl, ?_, rfl, ?_⟩
    · rw [vector.at_eq]
      exact ⟨by simp only [vector.size] at hpos ⊢; omega, he⟩
    · intro i hi
      simp only [vector.size] at hi
      have hi1 : i < v.m_data.length := by have := hwf.1; have := hwf.2; omega
      refine ⟨v.m_data.get ⟨i, hi1⟩, ?_, ?_⟩
      · rw [vector.at_eq]
        exact ⟨by simp only [vector.size]; omega, by simp [List.getElem?_eq_getElem hi1]⟩
      · rw [vector.at_eq]
        exact ⟨hi, by simp [List.getElem?_eq_getElem hi1]⟩
    · exact ⟨hwf.1, by show v.m_size - 1 ≤ v.m_capacity; have := hwf.2; omega⟩
  · intro h0
    simp only [vector.size] at h0
    simp [vector.pop_back, h0]

/-- C19 at `[1, 2, 3]` (capacity 4), and at the empty vector of capacity 4. -/
theorem vector_pop_back_spec_witness :
    (⟨1, [1, 2, 3, 0], 3, 4, factor.default_growth⟩ : vector Nat).wf
      ∧ (∃ e w, (⟨1, [1, 2, 3, 0], 3, 4, factor.default_growth⟩ : vector Nat).at (3 - 1) = .ok e
          ∧ (⟨1, [1, 2, 3, 0], 3, 4, factor.default_growth⟩ : vector Nat).pop_back = .ok (e, w)
          ∧ w.size = 3 - 1
          ∧ (∀ i, i < 3 - 1 → ∃ x, (⟨1, [1, 2, 3, 0], 3, 4, factor.default_growth⟩
              : vector Nat).at i = .ok x ∧ w.at i = .ok x)
          ∧ w.capacity = 4 ∧ w.wf)
      ∧ (⟨1, [0, 0, 0, 0], 0, 4, factor.default_growth⟩ : vector Nat).pop_back
          = .error .assertion :=
  ⟨⟨rfl, by decide⟩,
    (vector_pop_back_spec (⟨1, [1, 2, 3, 0], 3, 4, factor.default_growth⟩ : vector Nat)
      ⟨rfl, by decide⟩).1 (by decide),
    (vector_pop_back_spec (⟨1, [0, 0, 0, 0], 0, 4, factor.default_growth⟩ : vector Nat)
      ⟨rfl, by decide⟩).2 rfl⟩

/-- On a well-formed vector with at least four cells `shrink_to_fit` changes
nothing: `_reserve_impl` only ever grows the block. -/
theorem vector.shrink_to_fit_keeps {α : Type} [Inhabited α] (v : vector α) (hwf : v.wf)
    (hcap : 4 ≤ v.m_capacity) : v.shrink_to_fit = .ok v := by
  have h2 := hwf.2
  simp only [vector.shrink_to_fit, vector._strict_resize_impl,
    vector.reserve_keep v v.m_size (by omega), vector._default_fill, Nat.sub_self, for_up]

/-- C18, failing input.  After five `push_back` calls the vector has size 5
and capacity 6; `shrink_to_fit()` returns with the state unchanged, so the
capacity is still 6, not 5.  On a vector constructed in zeroed storage
(size 0, capacity 4) it leaves the capacity at 4. -/
theorem vector_shrink_to_fit_failing_input :
    (vector.ctor .zeroed : Except Fault (vector Nat))
        = .ok ⟨1, [0, 0, 0, 0], 0, 4, factor.default_growth⟩
      ∧ (⟨1, [0, 0, 0, 0], 0, 4, factor.default_growth⟩ : vector Nat).push_all [1, 2, 3, 4, 5]
        = .ok ⟨2, [1, 2, 3, 4, 5, 0], 5, 6, factor.default_growth⟩
      ∧ (¬ ∃ w, (⟨1, [0, 0, 0, 0], 0, 4, factor.default_growth⟩ : vector Nat).shrink_to_fit
          = .ok w ∧ w.capacity = 0)
      ∧ (¬ ∃ w, (⟨2, [1, 2, 3, 4, 5, 0], 5, 6, factor.default_growth⟩ : vector Nat).shrink_to_fit
          = .ok w ∧ w.capacity = 5) := by
  refine ⟨rfl, rfl, ?_, ?_⟩
  · rintro ⟨w, h1, h2⟩
    have hk : (⟨1, [0, 0, 0, 0], 0, 4, factor.default_growth⟩ : vector Nat).shrink_to_fit
        = .ok ⟨1, [0, 0, 0, 0], 0, 4, factor.default_growth⟩ := rfl
    rw [hk] at h1
    rw [← Except.ok.inj h1] at h2
    exact absurd h2 (by decide)
  · rintro ⟨w, h1, h2⟩
    have hk : (⟨2, [1, 2, 3, 4, 5, 0], 5, 6, factor.default_growth⟩ : vector Nat).shrink_to_fit
        = .ok ⟨2, [1, 2, 3, 4, 5, 0], 5, 6, factor.default_growth⟩ := rfl
    rw [hk] at h1
    rw [← Except.ok.inj h1] at h2
    exact absurd h2 (by decide)

/-- On a well-formed vector `shrink_to_fit` returns; the size and every
element are unchanged, and the capacity afterwards is at least `max(L, 4)`. -/
theorem vector.shrink_to_fit_ok {α : Type} [Inhabited α] (v : vector α) (hwf : v.wf) :
    ∃ w, v.shrink_to_fit = .ok w ∧ w.size = v.size
      ∧ (∀ i, i < v.size → ∃ e, v.at i = .ok e ∧ w.at i = .ok e)
      ∧ max v.size 4 ≤ w.capacity ∧ w.wf := by
  obtain ⟨w, h1, h2, h3, h4, h5, h6, _⟩ := vector.reserve_ok v v.m_size hwf
  have hcap : max v.m_size 4 ≤ w.m_capacity := by
    by_cases hn : max v.m_size 4 ≤ v.m_capacity
    · rw [h4 hn]; exact hn
    · rw [(h5 (by omega)).1]
  have hw : v.shrink_to_fit = .ok w := by
    simp only [vector.shrink_to_fit, vector._strict_resize_impl, h1, vector._default_fill, h2,
      Nat.sub_self, for_up]
    rw [← h2]
  refine ⟨w, hw, h2, ?_, hcap, h6⟩
  intro i hi
  have hi0 : i < v.m_size := hi
  have hi1 : i < v.m_data.length := by have := hwf.1; have := hwf.2; omega
  refine ⟨v.m_data.get ⟨i, hi1⟩, ?_, ?_⟩
  · rw [vector.at_eq]
    exact ⟨hi, by simp [List.getElem?_eq_getElem hi1]⟩
  · rw [vector.at_eq]
    refine ⟨by simp only [vector.size, h2]; exact hi0, ?_⟩
    rw [h3 i hi0]
    simp [List.getElem?_eq_getElem hi1]

/-! ## The stacks are LIFO -/

theorem vector.push_back_holds {α : Type} [Inhabited α] (v : vector α) (xs : List α) (x : α)
    (h : v.holds xs) (hf : v.m_growth_factor = factor.default_growth) :
    ∃ w, v.push_back x = .ok w ∧ w.holds (xs ++ [x])
      ∧ w.m_growth_factor = factor.default_growth := by
  obtain ⟨hwf, hsz, hel⟩ := h
  obtain ⟨w, h1, h2, h3, h4, h5, h6⟩ := vector.push_back_ok v x hwf hf
  simp only [vector.size] at h2 h3 h4
  refine ⟨w, h1, ⟨h5, by simp [h2, hsz], ?_⟩, h6⟩
  intro i hi
  simp only [List.length_append, List.length_singleton] at hi
  by_cases hil : i = xs.length
  · subst hil
    rw [hsz] at h3
    rw [((vector.at_eq _ _ _).1 h3).2]
    simp
  · have hil2 : i < xs.length := by omega
    obtain ⟨e, he1, he2⟩ := h4 i (by omega)
    rw [((vector.at_eq _ _ _).1 he2).2, List.getElem?_append_left hil2, ← hel i hil2,
      ((vector.at_eq _ _ _).1 he1).2]

theorem vector.pop_back_holds {α : Type} (v : vector α) (xs : List α) (x : α)
    (h : v.holds (xs ++ [x])) :
    ∃ w, v.pop_back = .ok (x, w) ∧ w.holds xs ∧ w.m_growth_factor = v.m_growth_factor := by
  obtain ⟨hwf, hsz, hel⟩ := h
  simp only [List.length_append, List.length_singleton] at hsz hel
  obtain ⟨e, he, hpop⟩ := vector.pop_back_ok v hwf (by omega)
  have hex : e = x := by
    have := hel xs.length (by omega)
    rw [hsz, Nat.add_sub_cancel, this] at he
    simpa using he.symm
  subst hex
  refine ⟨_, hpop, ⟨⟨hwf.1, ?_⟩, ?_, ?_⟩, rfl⟩
  · show v.m_size - 1 ≤ v.m_capacity
    have := hwf.2
    omega
  · show v.m_size - 1 = xs.length
    omega
  · intro i hi
    show v.m_data[i]? = _
    rw [hel i (by omega), List.getElem?_append_left hi]

theorem stack0.push_holds {α : Type} [Inhabited α] (s : stack0 α) (xs : List α) (x : α)
    (h : s.holds xs) (hlen : xs.length < size_t_max) :
    ∃ s1, s.push x = .ok s1 ∧ s1.holds (xs ++ [x]) := by
  obtain ⟨w, h1, h2, h3⟩ := vector.push_back_holds s.m_data xs x h.1 h.2
  refine ⟨⟨w⟩, ?_, h2, h3⟩
  have hsz : s.m_data.m_size = xs.length := h.1.2.1
  simp only [stack0.push, stack0.size, stack0.max_size, vector.size, vector.max_size, hsz, hlen,
    if_true, h1]

theorem stack0.pop_holds {α : Type} (s : stack0 α) (xs : List α) (x : α)
    (h : s.holds (xs ++ [x])) :
    ∃ s1, s.pop = .ok (x, s1) ∧ s1.holds xs := by
  obtain ⟨w, h1, h2, h3⟩ := vector.pop_back_holds s.m_data xs x h.1
  refine ⟨⟨w⟩, ?_, h2, by rw [h3]; exact h.2⟩
  have hsz : s.m_data.m_size = (xs ++ [x]).length := h.1.2.1
  simp only [stack0.pop, stack0.size, vector.size, hsz, List.length_append,
    List.length_singleton, ne_eq, Nat.add_one_ne_zero, not_false_eq_true, if_true, h1]

theorem stack0.push_all_holds {α : Type} [Inhabited α] (vs : List α) :
    ∀ (s : stack0 α) (xs : List α), s.holds xs → xs.length + vs.length ≤ size_t_max →
      ∃ s1, s.push_all vs = .ok s1 ∧ s1.holds (xs ++ vs) := by
  induction vs with
  | nil => intro s xs h _; exact ⟨s, rfl, by simpa using h⟩
  | cons v vs ih =>
    intro s xs h hlen
    simp only [List.length_cons] at hlen
    obtain ⟨s1, h1, h2⟩ := stack0.push_holds s xs v h (by omega)
    obtain ⟨s2, h3, h4⟩ := ih s1 (xs ++ [v]) h2 (by simp; omega)
    exact ⟨s2, by simp only [stack0.push_all, h1, h3], by simpa using h4⟩

theorem stack0.pop_n_holds {α : Type} (ys : List α) :
    ∀ (s : stack0 α) (xs : List α), s.holds (xs ++ ys.reverse) →
      ∃ s1, s.pop_n ys.length = .ok (ys, s1) ∧ s1.holds xs := by
  induction ys with
  | nil => intro s xs h; exact ⟨s, rfl, by simpa using h⟩
  | cons y ys ih =>
    intro s xs h
    rw [List.reverse_cons, ← List.append_assoc] at h
    obtain ⟨s1, h1, h2⟩ := stack0.pop_holds s _ y h
    obtain ⟨s2, h3, h4⟩ := ih s1 xs h2
    exact ⟨s2, by simp only [List.length_cons, stack0.pop_n, h1, h3], h4⟩

theorem stack.bounded_push_holds {α : Type} {N : Nat} (s : stack α N) (xs : List α) (x : α)
    (h : s.holds xs) (hlen : xs.length < N) :
    ∃ s1, s.push x = .ok s1 ∧ s1.holds (xs ++ [x]) := by
  obtain ⟨h1, h2, h3, h4⟩ := h
  have hlt : s.m_size < s.m_data.m_data.length := by omega
  refine ⟨⟨⟨s.m_data.m_data.set s.m_size x⟩, s.m_size + 1⟩, ?_, ?_⟩
  · simp only [stack.push, array.max_size, h2, hlen, if_true, array.set,
      store_of_lt _ _ x (h2 ▸ hlt)]
  · refine ⟨by simpa using h1, by simp [h2], by simp; omega, ?_⟩
    intro i hi
    simp only [List.length_append, List.length_singleton] at hi
    show (s.m_data.m_data.set s.m_size x)[i]? = _
    rw [List.getElem?_set]
    by_cases hil : i = xs.length
    · subst hil
      rw [if_pos h2, if_pos hlt]
      simp
    · rw [if_neg (by omega), h4 i (by omega), List.getElem?_append_left (by omega)]

theorem stack.bounded_pop_holds {α : Type} {N : Nat} (s : stack α N) (xs : List α) (x : α)
    (h : s.holds (xs ++ [x])) :
    ∃ s1, s.pop = .ok (x, s1) ∧ s1.holds xs := by
  obtain ⟨h1, h2, h3, h4⟩ := h
  simp only [List.length_append, List.length_singleton] at h2 h3 h4
  have h0 := h4 xs.length (by omega)
  simp only [List.getElem?_concat_length] at h0
  refine ⟨{ s with m_size := xs.length }, ?_, ?_⟩
  · simp only [stack.pop, array.at, array.size, size_t_dec, h2, ne_eq, Nat.add_one_ne_zero,
      not_false_eq_true, if_true, if_false, Nat.add_sub_cancel, show xs.length < N by omega,
      (load_eq_ok_iff _ _ _).2 h0]
  · refine ⟨h1, rfl, by omega, ?_⟩
    intro i hi
    show s.m_data.m_data[i]? = _
    rw [h4 i (by omega), List.getElem?_append_left hi]

theorem stack.bounded_push_all_holds {α : Type} {N : Nat} (vs : List α) :
    ∀ (s : stack α N) (xs : List α), s.holds xs → xs.length + vs.length ≤ N →
      ∃ s1, s.push_all vs = .ok s1 ∧ s1.holds (xs ++ vs) := by
  induction vs with
  | nil => intro s xs h _; exact ⟨s, rfl, by simpa using h⟩
  | cons v vs ih =>
    intro s xs h hlen
    simp only [List.length_cons] at hlen
    obtain ⟨s1, h1, h2⟩ := stack.bounded_push_holds s xs v h (by omega)
    obtain ⟨s2, h3, h4⟩ := ih s1 (xs ++ [v]) h2 (by simp; omega)
    exact ⟨s2, by simp only [stack.push_all, h1, h3], by simpa using h4⟩

theorem stack.bounded_pop_n_holds {α : Type} {N : Nat} (ys : List α) :
    ∀ (s : stack α N) (xs : List α), s.holds (xs ++ ys.reverse) →
      ∃ s1, s.pop_n ys.length = .ok (ys, s1) ∧ s1.holds xs := by
  induction ys with
  | nil => intro s xs h; exact ⟨s, rfl, by simpa using h⟩
  | cons y ys ih =>
    intro s xs h
    rw [List.reverse_cons, ← List.append_assoc] at h
    obtain ⟨s1, h1, h2⟩ := stack.bounded_pop_holds s _ y h
    obtain ⟨s2, h3, h4⟩ := ih s1 xs h2
    exact ⟨s2, by simp only [List.length_cons, stack.pop_n, h1, h3], h4⟩

/-- A newly constructed bounded stack holds nothing. -/
theorem stack.bounded_ctor_holds {α : Type} [Inhabited α] {N : Nat} :
    ∃ s : stack α N, stack.ctor = .ok s ∧ s.holds [] := by
  obtain ⟨d, hd1, hd2, _⟩ := for_up_fill (default : α) N 0 (List.replicate N default) (by simp)
  refine ⟨⟨⟨d⟩, 0⟩, ?_, ?_⟩
  · simp only [stack.ctor, array.ctor, array.ctor_fill, array.fill, hd1]
  · exact ⟨by simpa using hd2, rfl, Nat.zero_le _, fun i hi => absurd hi (Nat.not_lt_zero _)⟩

/-- An unbounded stack constructed in zeroed storage holds nothing. -/
theorem stack0.unbounded_ctor_holds {α : Type} [Inhabited α] :
    ∃ s : stack0 α, stack0.ctor .zeroed = .ok s ∧ s.holds [] :=
  ⟨_, rfl, ⟨⟨⟨rfl, Nat.zero_le _⟩, rfl, fun _ hi => absurd hi (Nat.not_lt_zero _)⟩, rfl⟩⟩

/-- C20. For the bounded stack (while the size stays within `N`) and for the
unbounded stack (while the size stays below the largest `size_t`, which
`push` asserts): `pop()` right after `push(v)` returns `v` and leaves a stack
that holds the elements it held before; and after pushing `v_1 .. v_k`, `k`
pops return `v_k, .., v_1` and leave a stack that holds what it held before. -/
theorem stack_lifo {α : Type} [Inhabited α] :
    (∀ (N : Nat) (s : stack α N) (xs : List α) (v : α), s.holds xs → xs.length < N →
        ∃ s1 s2, s.push v = .ok s1 ∧ s1.pop = .ok (v, s2) ∧ s2.holds xs)
      ∧ (∀ (N : Nat) (s : stack α N) (xs vs : List α), s.holds xs → xs.length + vs.length ≤ N →
        ∃ s1 s2, s.push_all vs = .ok s1 ∧ s1.pop_n vs.length = .ok (vs.reverse, s2)
          ∧ s2.holds xs)
      ∧ (∀ (s : stack0 α) (xs : List α) (v : α), s.holds xs → xs.length < size_t_max →
        ∃ s1 s2, s.push v = .ok s1 ∧ s1.pop = .ok (v, s2) ∧ s2.holds xs)
      ∧ (∀ (s : stack0 α) (xs vs : List α), s.holds xs → xs.length + vs.length ≤ size_t_max →
        ∃ s1 s2, s.push_all vs = .ok s1 ∧ s1.pop_n vs.length = .ok (vs.reverse, s2)
          ∧ s2.holds xs) := by
  refine ⟨?_, ?_, ?_, ?_⟩
  · intro N s xs v h hlen
    obtain ⟨s1, h1, h2⟩ := stack.bounded_push_holds s xs v h hlen
    obtain ⟨s2, h3, h4⟩ := stack.bounded_pop_holds s1 xs v h2
    exact ⟨s1, s2, h1, h3, h4⟩
  · intro N s xs vs h hlen
    obtain ⟨s1, h1, h2⟩ := stack.bounded_push_all_holds vs s xs h hlen
    have h2b : s1.holds (xs ++ vs.reverse.reverse) := by simpa using h2
    obtain ⟨s2, h3, h4⟩ := stack.bounded_pop_n_holds vs.reverse s1 xs h2b
    exact ⟨s1, s2, h1, by simpa using h3, h4⟩
  · intro s xs v h hlen
    obtain ⟨s1, h1, h2⟩ := stack0.push_holds s xs v h hlen
    obtain ⟨s2, h3, h4⟩ := stack0.pop_holds s1 xs v h2
    exact ⟨s1, s2, h1, h3, h4⟩
  · intro s xs vs h hlen
    obtain ⟨s1, h1, h2⟩ := stack0.push_all_holds vs s xs h hlen
    have h2b : s1.holds (xs ++ vs.reverse.reverse) := by simpa using h2
    obtain ⟨s2, h3, h4⟩ := stack0.pop_n_holds vs.reverse s1 xs h2b
    exact ⟨s1, s2, h1, by simpa using h3, h4⟩

/-- C20 at the empty stacks: push `'a'`, `'b'`, `'c'`, pop three times gives
`'c'`, `'b'`, `'a'`, on `stack<char, 3>` and on `stack<char, 0>`. -/
theorem stack_lifo_witness :
    (⟨⟨['A', 'A', 'A']⟩, 0⟩ : stack Char 3).holds []
      ∧ (∃ s1 s2, (⟨⟨['A', 'A', 'A']⟩, 0⟩ : stack Char 3).push_all ['a', 'b', 'c'] = .ok s1
          ∧ s1.pop_n 3 = .ok (['c', 'b', 'a'], s2) ∧ s2.holds [])
      ∧ (⟨⟨1, ['A', 'A', 'A', 'A'], 0, 4, factor.default_growth⟩⟩ : stack0 Char).holds []
      ∧ (∃ s1 s2, (⟨⟨1, ['A', 'A', 'A', 'A'], 0, 4, factor.default_growth⟩⟩
            : stack0 Char).push_all ['a', 'b', 'c'] = .ok s1
          ∧ s1.pop_n 3 = .ok (['c', 'b', 'a'], s2) ∧ s2.holds []) :=
  ⟨⟨rfl, rfl, by decide, fun i hi => absurd hi (Nat.not_lt_zero _)⟩,
    stack_lifo.2.1 3 _ [] ['a', 'b', 'c']
      ⟨rfl, rfl, by decide, fun i hi => absurd hi (Nat.not_lt_zero _)⟩ (by decide),
    ⟨⟨⟨rfl, by decide⟩, rfl, fun i hi => absurd hi (Nat.not_lt_zero _)⟩, rfl⟩,
    stack_lifo.2.2.2 _ [] ['a', 'b', 'c']
      ⟨⟨⟨rfl, by decide⟩, rfl, fun i hi => absurd hi (Nat.not_lt_zero _)⟩, rfl⟩
      (by decide)⟩


/-! ## list: push_back, pop_back, resize, clear -/

/-- C11, failing input.  `push_back(1)` on an empty list appends the node
(`back()` reads 1, the walk reads `[1]`) but `size()` is 2: `_append_node` sets
`m_size` to 1 and `push_back` adds 1 again.  On the list `[1, 2]`,
`push_back(3)` gives the walk `[1, 2, 3]` with `size()` 4. -/
theorem list_push_back_failing_input :
    ∃ l1 l2 l3 : list Nat, (list.ctor : list Nat).push_back 1 = .ok l1
      ∧ l1.to_list = .ok [1] ∧ l1.back = .ok 1 ∧ l1.size = 2
      ∧ (list.ctor : list Nat).insert_all [1, 2] = .ok l2 ∧ l2.size = 2
      ∧ l2.push_back 3 = .ok l3
      ∧ l3.to_list = .ok [1, 2, 3] ∧ l3.back = .ok 3 ∧ l3.size = 4 :=
  ⟨_, _, _, rfl, rfl, rfl, rfl, rfl, rfl, rfl, rfl, rfl, rfl⟩

/-- `erase(end())` unlinks nothing and then deletes the sentinel, which is
the list object itself and no heap node. -/
theorem list.erase_end {α : Type} (l : list α) : l.erase l.end = .error .out_of_bounds := by
  simp [list.erase, list.end, list._sentinel_node, list.get_next, list._remove_node, list.delete]

/-- C12, failing input.  On the list `[1, 2, 3]`, `pop_back()` passes its
assertion and calls `erase(end())`, which deletes the sentinel instead of the
last node; and so it is on every list with `m_size > 0`: no call of
`pop_back` returns a value. -/
theorem list_pop_back_failing_input :
    (∃ l3 : list Nat, (list.ctor : list Nat).insert_all [1, 2, 3] = .ok l3 ∧ l3.size = 3
        ∧ l3.to_list = .ok [1, 2, 3] ∧ l3.pop_back = .error .out_of_bounds)
      ∧ ∀ (l : list Nat) (x : Nat) (l1 : list Nat), l.pop_back ≠ .ok (x, l1) := by
  refine ⟨⟨_, rfl, rfl, rfl, rfl⟩, ?_⟩
  intro l x l1 h
  unfold list.pop_back at h
  rw [list.erase_end] at h
  split at h <;> exact absurd h (by simp)

/-- C13, failing input.  On an empty list `resize(1)` makes one node and
stores `m_size = 0`; `resize(2)` walks from that node into the sentinel and
then deletes backwards from `m_end` through the null `m_prev` of the first
node.  On the list `[1]`, `resize(2)` adds no node and stores `m_size = 2`.
On the list `[1, 2, 3]`, `resize(1)` deletes the third node only and leaves
the second node pointing to it. -/
theorem list_resize_failing_input :
    ∃ l0 l1 l2 l3 l4 : list Nat,
      (list.ctor : list Nat).resize 1 = .ok l0 ∧ l0.size = 0 ∧ l0.forward = .ok [.node 0]
      ∧ (list.ctor : list Nat).resize 2 = .error .null_deref
      ∧ (list.ctor : list Nat).insert_all [1] = .ok l1
      ∧ l1.resize 2 = .ok l2 ∧ l2.size = 2 ∧ l2.forward = .ok [.node 0]
      ∧ (list.ctor : list Nat).insert_all [1, 2, 3] = .ok l3
      ∧ l3.resize 1 = .ok l4 ∧ l4.size = 1 ∧ l4.get_next (.node 1) = .ok (.node 2)
      ∧ l4.heap[2]? = some none ∧ l4.forward = .error .out_of_bounds :=
  ⟨_, _, _, _, _, rfl, rfl, rfl, rfl, rfl, rfl, rfl, rfl, rfl, rfl, rfl, rfl, rfl, rfl⟩

/-- C14, failing input.  On the lists `[1]` and `[1, 2, 3]`, `clear()` runs
`erase(begin())`, and `_remove_node` dereferences the null `m_prev` of the
first node: `clear()` does not return.  On the constructed empty list it
returns and changes nothing. -/
theorem list_clear_failing_input :
    ∃ l1 l3 : list Nat, (list.ctor : list Nat).insert_all [1] = .ok l1
      ∧ l1.size = 1 ∧ l1.to_list = .ok [1] ∧ l1.get_prev l1.begin = .ok .null
      ∧ l1.clear = .error .null_deref
      ∧ (list.ctor : list Nat).insert_all [1, 2, 3] = .ok l3
      ∧ l3.size = 3 ∧ l3.to_list = .ok [1, 2, 3] ∧ l3.get_prev l3.begin = .ok .null
      ∧ l3.clear = .error .null_deref
      ∧ (list.ctor : list Nat).clear = .ok list.ctor :=
  ⟨_, _, rfl, rfl, rfl, rfl, rfl, rfl, rfl, rfl, rfl, rfl, rfl⟩

/-! ## The unbounded queue: clear -/

/-- C15, failing input.  After six enqueues and five dequeues the queue has
`m_index == 5`, one element and a ring of six cells.  `clear()` leaves
`m_size == 0` but `m_index == 5`, and `vector::clear` has taken one element
off the store, so the ring has five cells; `enqueue(9)` then writes cell
`5 % 5 = 0` and `dequeue()` fails the assertion of `at(5)`.  This is the run
with an element type that converts to the iterator at its own address; with
`unsigned char` elements `clear()` is ill-formed, as `vector::erase` is. -/
theorem queue0_clear_failing_input :
    (∃ q0 q1 q2 : queue0 boxed, queue0.ctor .zeroed = .ok q0
      ∧ q0.run [.enqueue ⟨1⟩, .enqueue ⟨2⟩, .enqueue ⟨3⟩, .enqueue ⟨4⟩, .enqueue ⟨5⟩,
          .enqueue ⟨6⟩, .dequeue, .dequeue, .dequeue, .dequeue, .dequeue]
        = .ok (q1, [⟨1⟩, ⟨2⟩, ⟨3⟩, ⟨4⟩, ⟨5⟩])
      ∧ q1.m_index = 5 ∧ q1.size = 1 ∧ q1.m_data.size = 6
      ∧ q1.clear = .ok q2
      ∧ q2.size = 0 ∧ q2.m_index = 5 ∧ q2.m_data.size = 5
      ∧ q2.run [.enqueue ⟨9⟩, .dequeue] = .error .assertion)
    ∧ ∀ q : queue0 uchar, q.clear = .error .ill_formed :=
  ⟨⟨_, _, _, rfl, rfl, rfl, rfl, rfl, rfl, rfl, rfl, rfl, rfl⟩, fun _ => rfl⟩

/-! ## vector: sequences of push_back -/

/-- With the default growth factor `push_back` keeps the capacity when there
is a free cell, and replaces it by the larger of
`static_cast<size_t>(capacity * 1.5f)` and 4 when there is none. -/
theorem vector.push_back_capacity {α : Type} [Inhabited α] (v : vector α) (x : α) (hwf : v.wf)
    (hf : v.m_growth_factor = factor.default_growth) :
    ∃ w, v.push_back x = .ok w ∧ w.m_size = v.m_size + 1 ∧ w.wf
      ∧ w.m_growth_factor = factor.default_growth
      ∧ (v.m_size < v.m_capacity → w.m_capacity = v.m_capacity)
      ∧ (v.m_size = v.m_capacity
          → w.m_capacity = max (factor.default_growth.scale v.m_capacity) 4) := by
  have hwf0 := hwf
  obtain ⟨h1, h2⟩ := hwf
  by_cases hfull : v.m_size ≥ v.m_capacity
  · obtain ⟨w, hw1, hw2, hw3, hw4, hw5, hw6, hw7⟩ :=
      vector.reserve_grow v (v.m_growth_factor.scale v.m_capacity) hwf0
        (by rw [hf]; exact scale_default_growth_gt _)
    rw [hf] at hw4 hw6
    have hgt := scale_default_growth_gt v.m_capacity
    have hlt : w.m_size < w.m_data.length := by
      rw [hw6, hw3]; omega
    refine ⟨{ w with m_data := w.m_data.set w.m_size x, m_size := w.m_size + 1 }, ?_, ?_, ?_, ?_,
      ?_, ?_⟩
    · unfold vector.push_back
      simp only [hfull, if_true, hw1, store_of_lt _ _ x hlt]
    · simp [hw3]
    · constructor
      · simp [hw6, hw4]
      · show w.m_size + 1 ≤ w.m_capacity
        rw [hw4, ← hw6]; omega
    · show w.m_growth_factor = _
      rw [hw5, hf]
    · intro h; omega
    · intro _; exact hw4
  · have hlt : v.m_size < v.m_data.length := by omega
    refine ⟨{ v with m_data := v.m_data.set v.m_size x, m_size := v.m_size + 1 }, ?_, rfl, ?_, hf,
      fun _ => rfl, ?_⟩
    · unfold vector.push_back
      simp only [hfull, if_false, store_of_lt _ _ x hlt]
    · constructor
      · simp [h1]
      · show v.m_size + 1 ≤ v.m_capacity
        omega
    · intro h; omega

/-- With the default growth factor any number of `push_back` calls on a
well-formed vector return; the size grows by the number of calls. -/
theorem vector.push_all_ok {α : Type} [Inhabited α] (xs : List α) :
    ∀ v : vector α, v.wf → v.m_growth_factor = factor.default_growth →
      ∃ w, v.push_all xs = .ok w ∧ w.m_size = v.m_size + xs.length ∧ w.wf
        ∧ w.m_growth_factor = factor.default_growth := by
  induction xs with
  | nil => intro v hwf hf; exact ⟨v, rfl, rfl, hwf, hf⟩
  | cons x xs ih =>
    intro v hwf hf
    obtain ⟨v1, h1, h2, h3, h4, _⟩ := vector.push_back_capacity v x hwf hf
    obtain ⟨w, h5, h6, h7, h8⟩ := ih v1 h3 h4
    refine ⟨w, by simp only [vector.push_all, h1, h5], ?_, h7, h8⟩
    rw [h6, h2, List.length_cons]; omega

/-- C21, failing input.  `void f() { JMK::vector<int> v; v.push_back(1); }`:
the constructor of the automatic object `v` sets `m_growth_factor` only and
then calls `resize(0)`, which reads `m_capacity`, `m_size` and `m_data`
before anything has been stored in them.  Where the members happen to be
zero, as in an object of static storage duration, the constructor returns an
empty vector of capacity 4, any `N` `push_back` calls return, and after them
`size() == N` and `capacity() >= N`. -/
theorem vector_push_all_failing_input {α : Type} [Inhabited α] :
    (vector.ctor .indeterminate : Except Fault (vector α)) = .error .uninitialised
      ∧ (∀ (x : α) (n : Nat),
          (vector.ctor_fill .indeterminate x n : Except Fault (vector α)) = .error .uninitialised)
      ∧ ∀ xs : List α, ∃ v0 w : vector α, vector.ctor .zeroed = .ok v0 ∧ v0.push_all xs = .ok w
          ∧ w.size = xs.length ∧ xs.length ≤ w.capacity := by
  refine ⟨rfl, fun _ _ => rfl, ?_⟩
  intro xs
  obtain ⟨v0, h0, hwf, hs, _, hf⟩ := (vector.ctor_spec : ∃ v : vector α, _)
  obtain ⟨w, h1, h2, h3, _⟩ := vector.push_all_ok xs v0 hwf hf
  have hs0 : v0.m_size = 0 := hs
  have hle : w.m_size ≤ w.m_capacity := h3.2
  refine ⟨v0, w, h0, h1, ?_, ?_⟩
  · show w.m_size = _
    omega
  · show _ ≤ w.m_capacity
    omega

/-- The number of reallocating calls among `push_back` calls, against the
number of calls: from capacity `c >= 4` and size `s`, after `r >= 1`
reallocations `c * (5/4)^(r-1)` is below the final size. -/
theorem vector.push_count_ok {α : Type} [Inhabited α] (xs : List α) :
    ∀ v : vector α, v.wf → v.m_growth_factor = factor.default_growth → 4 ≤ v.m_capacity →
      ∃ w r, v.push_count xs = .ok (w, r) ∧ v.push_all xs = .ok w
        ∧ (1 ≤ r → v.m_capacity * 5 ^ (r - 1) < (v.m_size + xs.length) * 4 ^ (r - 1)) := by
  induction xs with
  | nil => intro v _ _ _; exact ⟨v, 0, rfl, rfl, fun h => absurd h (by decide)⟩
  | cons x xs ih =>
    intro v hwf hf hc
    obtain ⟨v1, h1, h2, h3, h4, h5, h6⟩ := vector.push_back_capacity v x hwf hf
    have hle : v.m_size ≤ v.m_capacity := hwf.2
    rcases Nat.lt_or_ge v.m_size v.m_capacity with hlt | hge
    · have hc1 : v1.m_capacity = v.m_capacity := h5 hlt
      obtain ⟨w, r, h7, h8, h9⟩ := ih v1 h3 h4 (by omega)
      refine ⟨w, r, ?_, by simp only [vector.push_all, h1, h8], ?_⟩
      · simp only [vector.push_count, h1, h7, vector.capacity, hc1, if_true]
      · intro hr
        have := h9 hr
        rw [hc1, h2] at this
        rw [List.length_cons]
        have e : v.m_size + (xs.length + 1) = v.m_size + 1 + xs.length := by omega
        rw [e]; exact this
    · have hfull : v.m_size = v.m_capacity := by omega
      have hc1 : v1.m_capacity = max (factor.default_growth.scale v.m_capacity) 4 := h6 hfull
      have hst := scale_default_growth_step v.m_capacity (by omega)
      have hc2 : 5 * v.m_capacity ≤ 4 * v1.m_capacity := by rw [hc1]; omega
      obtain ⟨w, r, h7, h8, h9⟩ := ih v1 h3 h4 (by omega)
      refine ⟨w, r + 1, ?_, by simp only [vector.push_all, h1, h8], ?_⟩
      · simp only [vector.push_count, h1, h7, vector.capacity]
        rw [if_neg (by omega)]
      · intro _
        rw [List.length_cons, Nat.add_sub_cancel]
        rcases Nat.eq_zero_or_pos r with h0 | hpos
        · subst h0; simp; omega
        · have h10 := h9 hpos
          rw [h2] at h10
          obtain ⟨k, rfl⟩ : ∃ k, r = k + 1 := ⟨r - 1, by omega⟩
          rw [Nat.add_sub_cancel] at h10
          have e : v.m_size + (xs.length + 1) = v.m_size + 1 + xs.length := by omega
          rw [e, pow_succ, pow_succ]
          calc v.m_capacity * (5 ^ k * 5) = 5 ^ k * (5 * v.m_capacity) := by ring
            _ ≤ 5 ^ k * (4 * v1.m_capacity) := Nat.mul_le_mul_left _ hc2
            _ = (v1.m_capacity * 5 ^ k) * 4 := by ring
            _ < ((v.m_size + 1 + xs.length) * 4 ^ k) * 4 :=
              Nat.mul_lt_mul_of_pos_right h10 (by decide)
            _ = (v.m_size + 1 + xs.length) * (4 ^ k * 4) := by ring

/-- C23, counterexample.  The capacity 11958657 is the 37th the default
growth step reaches from 4.  A `push_back` on a full vector of that capacity
leaves capacity 17937986: `11958657 * 1.5f` is `17937985.5`, which a `float`
of 24 significant bits cannot hold and which rounds to `17937986`; that is
not `floor(3c/2) = 17937985`. -/
theorem vector_push_back_reallocations_counterexample :
    Nat.iterate factor.default_growth.scale 37 4 = 11958657
      ∧ factor.default_growth.scale 11958657 = 17937986
      ∧ 11958657 * 3 / 2 = 17937985
      ∧ ¬ ∀ (v : vector Nat) (x : Nat), v.wf → v.m_growth_factor = factor.default_growth →
          4 ≤ v.capacity → v.size = v.capacity →
          ∃ w, v.push_back x = .ok w ∧ w.capacity = v.capacity * 3 / 2
            ∧ 5 * v.capacity ≤ 4 * w.capacity := by
  refine ⟨by set_option maxRecDepth 100000 in decide, by decide, by decide, ?_⟩
  intro h
  have hwf : (⟨1, List.replicate 11958657 0, 11958657, 11958657, factor.default_growth⟩
      : vector Nat).wf := ⟨List.length_replicate _ _, Nat.le_refl _⟩
  obtain ⟨w, h1, h2, _⟩ := h ⟨1, List.replicate 11958657 0, 11958657, 11958657,
    factor.default_growth⟩ 0 hwf rfl (by decide) rfl
  obtain ⟨w1, h3, _, _, _, _, h4⟩ := vector.push_back_capacity _ 0 hwf rfl
  rw [h3] at h1
  have hw : w1 = w := Except.ok.inj h1
  subst hw
  have h5 : w1.m_capacity = max (factor.default_growth.scale 11958657) 4 := h4 rfl
  have h6 : factor.default_growth.scale 11958657 = 17937986 := by decide
  have h7 : w1.m_capacity = 11958657 * 3 / 2 := h2
  rw [h6] at h5
  omega

/-- C23, amended.  For every sequence of `N` values pushed on a vector
default-constructed in zeroed storage, the calls return and the number `r` of
calls that change the capacity satisfies `4 * (5/4)^(r-1) < N` when `r >= 1`;
and a `push_back` on a full well-formed vector of capacity `c >= 4` with the
default growth factor leaves capacity `static_cast<size_t>(c * 1.5f)`, which
is at least `(5/4) c`, and is `floor(3c/2)` while `3c < 2^24`. -/
theorem vector_push_back_reallocations {α : Type} [Inhabited α] :
    (∀ xs : List α, ∃ v0 w r, vector.ctor .zeroed = .ok v0 ∧ v0.push_count xs = .ok (w, r)
        ∧ (1 ≤ r → 4 * 5 ^ (r - 1) < xs.length * 4 ^ (r - 1)))
      ∧ ∀ (v : vector α) (x : α), v.wf → v.m_growth_factor = factor.default_growth →
          4 ≤ v.capacity → v.size = v.capacity →
          ∃ w, v.push_back x = .ok w
            ∧ w.capacity = factor.default_growth.scale v.capacity
            ∧ 5 * v.capacity ≤ 4 * w.capacity
            ∧ (v.capacity * 3 < 2 ^ 24 → w.capacity = v.capacity * 3 / 2) := by
  constructor
  · intro xs
    obtain ⟨v0, h0, hwf, hs, hc, hf⟩ := (vector.ctor_spec : ∃ v : vector α, _)
    have hs0 : v0.m_size = 0 := hs
    have hc0 : v0.m_capacity = 4 := hc
    obtain ⟨w, r, h1, _, h2⟩ := vector.push_count_ok xs v0 hwf hf (by omega)
    refine ⟨v0, w, r, h0, h1, ?_⟩
    intro hr
    have := h2 hr
    rw [hs0, hc0, Nat.zero_add] at this
    exact this
  · intro v x hwf hf hc hfull
    obtain ⟨w, h1, _, _, _, _, h6⟩ := vector.push_back_capacity v x hwf hf
    have hc0 : 4 ≤ v.m_capacity := hc
    have hw : w.m_capacity = max (factor.default_growth.scale v.m_capacity) 4 := h6 hfull
    have hst := scale_default_growth_step v.m_capacity (by omega)
    have hw1 : w.m_capacity = factor.default_growth.scale v.m_capacity := by rw [hw]; omega
    refine ⟨w, h1, hw1, ?_, ?_⟩
    · show 5 * v.m_capacity ≤ 4 * w.m_capacity
      rw [hw1]; exact hst.2
    · intro hlt
      show w.m_capacity = v.m_capacity * 3 / 2
      rw [hw1]
      exact scale_default_growth_exact _ hlt

/-- C23, amended, witness: seven values pushed on a vector default-constructed
in zeroed storage reallocate twice (at the fifth and the seventh call), and
the push on the full vector of capacity 4 leaves capacity 6. -/
theorem vector_push_back_reallocations_witness :
    (∃ v0 w : vector Nat, vector.ctor .zeroed = .ok v0
        ∧ v0.push_count [1, 2, 3, 4, 5, 6, 7] = .ok (w, 2)
        ∧ 4 * 5 ^ (2 - 1) < 7 * 4 ^ (2 - 1))
      ∧ (⟨1, [1, 2, 3, 4], 4, 4, factor.default_growth⟩ : vector Nat).wf
      ∧ ∃ w, (⟨1, [1, 2, 3, 4], 4, 4, factor.default_growth⟩ : vector Nat).push_back 5 = .ok w
          ∧ w.capacity = factor.default_growth.scale 4 ∧ 5 * 4 ≤ 4 * w.capacity
          ∧ (4 * 3 < 2 ^ 24 → w.capacity = 4 * 3 / 2) := by
  have h := (vector_push_back_reallocations : _ ∧ _).2
    (⟨1, [1, 2, 3, 4], 4, 4, factor.default_growth⟩ : vector Nat) 5
    ⟨rfl, Nat.le_refl _⟩ rfl (by decide) rfl
  exact ⟨⟨_, _, rfl, rfl, by decide⟩, ⟨rfl, Nat.le_refl _⟩, h⟩

/-- C27, failing input.  `set_growth_factor(1.0f)` on a vector constructed
in zeroed storage stores `1.1f`; `resize(5)` then starts from capacity 4 and computes
`static_cast<size_t>(4 * 1.1f) = 4` in every round of its loop, which never
exits.  With the default factor the same call returns with size 5 and
capacity 6. -/
theorem vector_resize_failing_input :
    ∃ v0 w : vector Nat, vector.ctor .zeroed = .ok v0
      ∧ (v0.set_growth_factor ⟨1, 1⟩).m_growth_factor = factor.min_growth
      ∧ (v0.set_growth_factor ⟨1, 1⟩).capacity = 4
      ∧ factor.min_growth.scale 4 = 4
      ∧ (v0.set_growth_factor ⟨1, 1⟩).resize 5 = .error .diverges
      ∧ v0.resize 5 = .ok w ∧ w.size = 5 ∧ w.capacity = 6 :=
  ⟨_, _, rfl, rfl, rfl, rfl, rfl, rfl, rfl, rfl⟩

/-- C28, failing input.  With the growth factor `1.1f` and capacity 9
(`reserve(9)` on a vector constructed in zeroed storage), nine `push_back`
calls fill
the block; the tenth asks `_reserve_impl` for `static_cast<size_t>(9 * 1.1f) = 9`
cells, which allocates nothing, and then writes cell 9 of the 9-cell block. -/
theorem vector_push_back_growth_failing_input :
    ∃ v0 v1 v9 : vector Nat, vector.ctor .zeroed = .ok v0
      ∧ (v0.set_growth_factor factor.min_growth).reserve 9 = .ok v1
      ∧ v1.push_all [1, 2, 3, 4, 5, 6, 7, 8, 9] = .ok v9
      ∧ v9.size = 9 ∧ v9.capacity = 9 ∧ v9.m_growth_factor = factor.min_growth
      ∧ v9.m_growth_factor.scale v9.m_capacity = 9
      ∧ v9.reserve 9 = .ok v9
      ∧ v9.push_back 10 = .error .out_of_bounds :=
  ⟨_, _, _, rfl, rfl, rfl, rfl, rfl, rfl, rfl, rfl, rfl⟩

/-! ## The bounded queue: preconditions -/

/-- C24. On a bounded queue that holds a sequence of `count` elements,
`enqueue` fails its assertion exactly when `count == N` and otherwise returns
with one element more; `dequeue` fails its assertion exactly when
`count == 0` and otherwise returns with one element less. -/
theorem queue_bounded_preconditions {α : Type} {N : Nat} (q : queue α N) (xs : List α) (x : α)
    (h : q.holds xs) :
    (q.enqueue x = .error .assertion ↔ q.size = N)
      ∧ (q.size ≠ N → ∃ q1, q.enqueue x = .ok q1 ∧ q1.size = q.size + 1)
      ∧ (q.dequeue = .error .assertion ↔ q.size = 0)
      ∧ (q.size ≠ 0 → ∃ y q1, q.dequeue = .ok (y, q1) ∧ q1.size + 1 = q.size) := by
  have hsz : q.m_size = xs.length := h.2.2.1
  have hle : xs.length ≤ N := h.2.2.2.1
  have henq : q.size ≠ N → ∃ q1, q.enqueue x = .ok q1 ∧ q1.size = q.size + 1 := by
    intro hne
    have hne1 : q.m_size ≠ N := hne
    obtain ⟨q1, h1, h2⟩ := queue.enqueue_holds q xs x h (by omega)
    refine ⟨q1, h1, ?_⟩
    show q1.m_size = q.m_size + 1
    rw [h2.2.2.1, hsz, List.length_append]; rfl
  have hdeq : q.size ≠ 0 → ∃ y q1, q.dequeue = .ok (y, q1) ∧ q1.size + 1 = q.size := by
    intro hne
    have hne1 : q.m_size ≠ 0 := hne
    cases xs with
    | nil => exact absurd hsz hne1
    | cons y ys =>
      obtain ⟨q1, h1, h2⟩ := queue.dequeue_holds q y ys h
      refine ⟨y, q1, h1, ?_⟩
      show q1.m_size + 1 = q.m_size
      rw [h2.2.2.1, hsz]; rfl
  refine ⟨⟨?_, ?_⟩, henq, ⟨?_, ?_⟩, hdeq⟩
  · intro he
    by_contra hne
    obtain ⟨q1, h1, _⟩ := henq hne
    rw [h1] at he
    exact absurd he (by simp)
  · intro hfull
    have hfull1 : q.m_size = N := hfull
    unfold queue.enqueue
    rw [if_neg]
    show ¬ q.m_size < N
    omega
  · intro he
    by_contra hne
    obtain ⟨y, q1, h1, _⟩ := hdeq hne
    rw [h1] at he
    exact absurd he (by simp)
  · intro hzero
    have hzero1 : q.m_size = 0 := hzero
    unfold queue.dequeue
    rw [if_neg]
    simp [hzero1]

/-- C24, witness: a queue of capacity 3 that holds one element accepts both
an `enqueue` and a `dequeue`. -/
theorem queue_bounded_preconditions_witness :
    (⟨⟨[7, 0, 0]⟩, 1, 0⟩ : queue Nat 3).holds [7]
      ∧ (∃ q1, (⟨⟨[7, 0, 0]⟩, 1, 0⟩ : queue Nat 3).enqueue 8 = .ok q1 ∧ q1.size = 2)
      ∧ ∃ y q1, (⟨⟨[7, 0, 0]⟩, 1, 0⟩ : queue Nat 3).dequeue = .ok (y, q1) ∧ q1.size + 1 = 1 := by
  have hh : (⟨⟨[7, 0, 0]⟩, 1, 0⟩ : queue Nat 3).holds [7] :=
    ⟨rfl, by decide, rfl, by decide, fun i hi => by
      have hi0 : i = 0 := by simpa using hi
      subst hi0; rfl⟩
  obtain ⟨_, h2, _, h4⟩ := queue_bounded_preconditions
    (⟨⟨[7, 0, 0]⟩, 1, 0⟩ : queue Nat 3) [7] 8 hh
  exact ⟨hh, h2 (by decide), h4 (by decide)⟩

/-! ## The unbounded queue: enqueue on a ring whose head is at cell 0 -/

/-- An unbounded queue constructed in zeroed storage holds nothing, with the
head at cell 0. -/
theorem queue0.ring_ctor_holds {α : Type} [Inhabited α] :
    ∃ q : queue0 α, queue0.ctor .zeroed = .ok q ∧ q.holds [] ∧ q.m_index = 0 ∧ q.inv :=
  ⟨_, rfl, ⟨⟨rfl, Nat.zero_le _⟩, rfl, Nat.le_refl _, rfl, Nat.le_refl _,
      fun _ hi => absurd hi (Nat.not_lt_zero _)⟩, rfl,
    ⟨rfl, Nat.zero_le _⟩, rfl, Nat.le_refl _, Nat.le_refl _,
      fun h => absurd h (Nat.lt_irrefl _), fun _ => rfl⟩

/-- `enqueue(const _T&)` on a queue whose elements start at cell 0 appends the
value behind them, whether or not the store has to grow; the head stays at
cell 0. -/
theorem queue0.ring_enqueue_holds {α : Type} [Inhabited α] [object α] (q : queue0 α) (xs : List α)
    (x : α) (h : q.holds xs) (h0 : q.m_index = 0) (hmax : xs.length < size_t_max) :
    ∃ q1, q.enqueue x = .ok q1 ∧ q1.holds (xs ++ [x]) ∧ q1.m_index = 0 := by
  obtain ⟨hwf, hf, hc, hsz, hfit, hel⟩ := h
  rw [h0, Nat.zero_add] at hfit
  have hen : q.enqueue x = q._cycle_storage x := by
    unfold queue0.enqueue
    rw [if_pos]
    show q.m_size < size_t_max
    omega
  rcases Nat.lt_or_ge q.m_size q.m_data.m_size with hlt | hge
  · -- a free cell
    have hlen : q.m_size < q.m_data.m_data.length := by
      have := hwf.1; have := hwf.2; omega
    refine ⟨⟨{ q.m_data with m_data := q.m_data.m_data.set q.m_size x }, q.m_index,
      q.m_size + 1⟩, ?_, ?_, h0⟩
    · rw [hen]
      unfold queue0._cycle_storage
      rw [if_neg (show ¬ q.m_size ≥ q.m_data.size by show ¬ q.m_size ≥ q.m_data.m_size; omega)]
      simp only [size_t_mod, vector.size, h0, Nat.zero_add,
        show q.m_data.m_size ≠ 0 by omega, if_false, Nat.mod_eq_of_lt hlt, vector.set,
        store_of_lt _ _ x hlen]
    · refine ⟨⟨by simpa using hwf.1, hwf.2⟩, hf, hc, ?_, ?_, ?_⟩
      · simp [hsz]
      · show q.m_index + (xs ++ [x]).length ≤ q.m_data.m_size
        rw [h0, List.length_append]; simp; omega
      · intro i hi
        show (q.m_data.m_data.set q.m_size x)[q.m_index + i]? = _
        rw [h0, Nat.zero_add, List.getElem?_set]
        rw [List.length_append] at hi
        simp only [List.length_singleton] at hi
        by_cases hi1 : i = xs.length
        · subst hi1
          rw [if_pos hsz, if_pos hlen]
          simp
        · have hi2 : i < xs.length := by omega
          rw [if_neg (by omega), List.getElem?_append_left hi2]
          have := hel i hi2
          rw [h0, Nat.zero_add] at this
          exact this
  · -- the store grows through `m_data.resize`
    have hfull : q.m_size = q.m_data.m_size := by omega
    obtain ⟨w, hw1, hw2, hw3, _, _, hw6, hw7, hw8⟩ :=
      vector.resize_ok q.m_data (queue0.ring_growth q.m_data.capacity) hwf hf
    have hcap : q.m_data.m_size ≤ q.m_data.m_capacity := hwf.2
    have hn : q.m_data.m_capacity < queue0.ring_growth q.m_data.capacity :=
      queue0.ring_growth_gt q.m_data.m_capacity (by omega)
    have hlt : q.m_size < w.m_size := by rw [hw2]; omega
    have hlen : q.m_size < w.m_data.length := by
      have := hw6.1; have := hw6.2; omega
    refine ⟨⟨{ w with m_data := w.m_data.set q.m_size x }, q.m_index, q.m_size + 1⟩,
      ?_, ?_, h0⟩
    · rw [hen]
      unfold queue0._cycle_storage
      rw [if_pos (show q.m_size ≥ q.m_data.size by show q.m_size ≥ q.m_data.m_size; omega)]
      unfold queue0._realloc_storage
      rw [if_neg (show ¬ q.m_index > 0 by omega)]
      have hw1r : q.m_data.resize (queue0.ring_growth q.m_data.capacity) = .ok w := hw1
      simp only [hw1r, size_t_mod, vector.size, h0, Nat.zero_add,
        show w.m_size ≠ 0 by omega, if_false, Nat.mod_eq_of_lt hlt, vector.set,
        store_of_lt _ _ x hlen]
    · refine ⟨⟨by simpa using hw6.1, hw6.2⟩, hw8, hw7, ?_, ?_, ?_⟩
      · simp [hsz]
      · show q.m_index + (xs ++ [x]).length ≤ w.m_size
        rw [h0, List.length_append]; simp; omega
      · intro i hi
        show (w.m_data.set q.m_size x)[q.m_index + i]? = _
        rw [h0, Nat.zero_add, List.getElem?_set]
        rw [List.length_append] at hi
        simp only [List.length_singleton] at hi
        by_cases hi1 : i = xs.length
        · subst hi1
          rw [if_pos hsz, if_pos hlen]
          simp
        · have hi2 : i < xs.length := by omega
          rw [if_neg (by omega), List.getElem?_append_left hi2,
            hw3 i (by omega) (by omega)]
          have := hel i hi2
          rw [h0, Nat.zero_add] at this
          exact this

/-- `dequeue` on a queue that holds `x :: xs` in one run returns `x` and
leaves `xs`. -/
theorem queue0.ring_dequeue_holds {α : Type} (q : queue0 α) (x : α) (xs : List α)
    (h : q.holds (x :: xs)) :
    ∃ q1, q.dequeue = .ok (x, q1) ∧ q1.holds xs := by
  obtain ⟨hwf, hf, hc, hsz, hfit, hel⟩ := h
  rw [List.length_cons] at hsz hfit
  have hidx : q.m_index < q.m_data.m_size := by omega
  have hhead : q.m_data.m_data[q.m_index]? = some x := by
    have := hel 0 (by simp)
    simpa using this
  have hat : q.m_data.at q.m_index = .ok x := (vector.at_eq _ _ _).2 ⟨hidx, hhead⟩
  refine ⟨⟨q.m_data, (q.m_index + 1) % q.m_data.m_size, size_t_dec q.m_size⟩, ?_, ?_⟩
  · unfold queue0.dequeue
    rw [if_pos (by omega)]
    simp only [hat, queue0._shift_entry, size_t_mod, vector.size,
      show q.m_data.m_size ≠ 0 by omega, if_false]
  · refine ⟨hwf, hf, hc, ?_, ?_, ?_⟩
    · show size_t_dec q.m_size = xs.length
      unfold size_t_dec
      rw [if_neg (by omega)]; omega
    · show (q.m_index + 1) % q.m_data.m_size + xs.length ≤ q.m_data.m_size
      rcases Nat.lt_or_ge (q.m_index + 1) q.m_data.m_size with hlt | hge
      · rw [Nat.mod_eq_of_lt hlt]; omega
      · have e : q.m_index + 1 = q.m_data.m_size := by omega
        rw [e, Nat.mod_self]; omega
    · intro i hi
      show q.m_data.m_data[(q.m_index + 1) % q.m_data.m_size + i]? = xs[i]?
      have hlt : q.m_index + 1 < q.m_data.m_size := by omega
      rw [Nat.mod_eq_of_lt hlt]
      have := hel (i + 1) (by simp; omega)
      rw [List.getElem?_cons_succ] at this
      rw [← this]
      congr 1
      omega

/-- Successive `enqueue(const _T&)` calls on a queue whose elements start at
cell 0 all return and append their values in call order. -/
theorem queue0.run_enqueues {α : Type} [Inhabited α] [object α] (ys : List α) :
    ∀ (q : queue0 α) (xs : List α), q.holds xs → q.m_index = 0 →
      xs.length + ys.length ≤ size_t_max →
      ∃ q1, q.run (ys.map queue_call.enqueue) = .ok (q1, []) ∧ q1.holds (xs ++ ys)
        ∧ q1.m_index = 0 := by
  induction ys with
  | nil =>
    intro q xs h h0 _
    exact ⟨q, rfl, by simpa using h, h0⟩
  | cons y ys ih =>
    intro q xs h h0 hmax
    rw [List.length_cons] at hmax
    obtain ⟨q1, h1, h2, h3⟩ := queue0.ring_enqueue_holds q xs y h h0 (by omega)
    obtain ⟨q2, h4, h5, h6⟩ := ih q1 (xs ++ [y]) h2 h3 (by simp; omega)
    refine ⟨q2, ?_, by simpa using h5, h6⟩
    simp only [List.map_cons, queue0.run, h1, h4]

/-- As many `dequeue` calls as a queue holds elements all return, and return
the elements in their order. -/
theorem queue0.run_dequeues {α : Type} [Inhabited α] [object α] (xs : List α) :
    ∀ q : queue0 α, q.holds xs →
      ∃ q1, q.run (List.replicate xs.length queue_call.dequeue) = .ok (q1, xs) ∧ q1.holds [] := by
  induction xs with
  | nil =>
    intro q h
    exact ⟨q, rfl, h⟩
  | cons x xs ih =>
    intro q h
    obtain ⟨q1, h1, h2⟩ := queue0.ring_dequeue_holds q x xs h
    obtain ⟨q2, h3, h4⟩ := ih q1 h2
    refine ⟨q2, ?_, h4⟩
    simp only [List.length_cons, List.replicate_succ, queue0.run, h1, h3]

/-- For every sequence of `N` values (`N` a `size_t` count), the constructor
in zeroed storage returns a queue on which the `N` calls of
`enqueue(const _T&)` all return; after them `size() == N` and the backing
store has at least `N` elements; and `N` `dequeue` calls then all return and
give the values in the order they were enqueued. -/
theorem queue0.enqueue_all_dequeue_all_zeroed {α : Type} [Inhabited α] [object α] (xs : List α)
    (hN : xs.length ≤ size_t_max) :
    ∃ q0 q1 q2 : queue0 α, queue0.ctor .zeroed = .ok q0
      ∧ q0.run (xs.map queue_call.enqueue) = .ok (q1, [])
      ∧ q1.size = xs.length ∧ xs.length ≤ q1.m_data.size
      ∧ q1.run (List.replicate xs.length queue_call.dequeue) = .ok (q2, xs) := by
  obtain ⟨q0, h0, h1, h2, _⟩ := (queue0.ring_ctor_holds : ∃ q : queue0 α, _)
  obtain ⟨q1, h3, h4, h5⟩ := queue0.run_enqueues xs q0 [] h1 h2 (by simpa using hN)
  rw [List.nil_append] at h4
  obtain ⟨q2, h6, _⟩ := queue0.run_dequeues xs q1 h4
  have hfit := h4.2.2.2.2.1
  rw [h5, Nat.zero_add] at hfit
  exact ⟨q0, q1, q2, h0, h3, h4.2.2.2.1, hfit, h6⟩

/-- C22, failing input.  `void f() { JMK::queue<unsigned char, 0> q;
q.enqueue(1); }`: the member `m_data` of the automatic object `q` is a vector
whose constructor reads `m_capacity`, `m_size` and `m_data` before anything
has been stored in them.  Where the members happen to be zero, as in an
object of static storage duration, ten enqueues, which make the store grow
three times (to 6, 9 and 13 elements), and ten dequeues give the values back
in order. -/
theorem queue0_enqueue_all_failing_input :
    (queue0.ctor .indeterminate : Except Fault (queue0 uchar)) = .error .uninitialised
      ∧ ∃ q0 q1 q2 : queue0 uchar, queue0.ctor .zeroed = .ok q0
        ∧ q0.run ([1, 2, 3, 4, 5, 6, 7, 8, 9, 10].map queue_call.enqueue) = .ok (q1, [])
        ∧ q1.size = 10 ∧ q1.m_data.size = 13
        ∧ q1.run (List.replicate 10 queue_call.dequeue)
            = .ok (q2, [1, 2, 3, 4, 5, 6, 7, 8, 9, 10]) :=
  ⟨rfl, _, _, _, rfl, rfl, rfl, rfl, rfl⟩

/-! ## The unbounded queue: the ring stays in range -/

/-- With the head at cell 0 `_realloc_storage` returns on a ring in range; the
store then has `static_cast<size_t>(capacity() * 1.5)` elements, and head and
count are what they were. -/
theorem queue0.realloc_ok {α : Type} [Inhabited α] [object α] (q : queue0 α) (h : q.inv)
    (h0 : q.m_index = 0) :
    ∃ q1, q._realloc_storage = .ok q1 ∧ q1.m_index = q.m_index ∧ q1.m_size = q.m_size
      ∧ q1.m_data.m_size = queue0.ring_growth q.m_data.m_capacity ∧ q1.m_data.wf
      ∧ q1.m_data.m_growth_factor = factor.default_growth ∧ 4 ≤ q1.m_data.m_capacity := by
  obtain ⟨hwf, hf, hc, hsz, hidx, hzero⟩ := h
  obtain ⟨w, hw1, hw2, _, _, _, hw6, hw7, hw8⟩ :=
    vector.resize_ok q.m_data (queue0.ring_growth q.m_data.capacity) hwf hf
  have hw1r : q.m_data.resize (queue0.ring_growth q.m_data.capacity) = .ok w := hw1
  refine ⟨⟨w, q.m_index, q.m_size⟩, ?_, rfl, rfl, hw2, hw6, hw8, hw7⟩
  unfold queue0._realloc_storage
  rw [if_neg (by omega)]
  simp only [hw1r]

/-- With the head behind cell 0 `_realloc_storage` declares `new_storage`,
whose constructor reads indeterminate members. -/
theorem queue0.realloc_head {α : Type} [Inhabited α] [object α] (q : queue0 α)
    (hpos : 0 < q.m_index) : q._realloc_storage = .error .uninitialised := by
  unfold queue0._realloc_storage
  rw [if_pos hpos]
  rfl

/-- `_cycle_storage` on a ring in range that has a free element, or is full
with the head at cell 0, returns and leaves a ring in range with one element
more; the store keeps its size when it had a free element and has
`static_cast<size_t>(capacity() * 1.5)` elements when it had none. -/
theorem queue0.cycle_inv {α : Type} [Inhabited α] [object α] (q : queue0 α) (x : α) (h : q.inv)
    (hpath : q.m_size < q.m_data.m_size ∨ q.m_index = 0) :
    ∃ q1, q._cycle_storage x = .ok q1 ∧ q1.inv ∧ q1.m_size = q.m_size + 1
      ∧ (q.m_size < q.m_data.m_size → q1.m_data.m_size = q.m_data.m_size)
      ∧ (q.m_data.m_size ≤ q.m_size
          → q1.m_data.m_size = queue0.ring_growth q.m_data.m_capacity) := by
  have hinv := h
  obtain ⟨hwf, hf, hc, hsz, hidx, hzero⟩ := h
  have hcap : q.m_data.m_size ≤ q.m_data.m_capacity := hwf.2
  rcases Nat.lt_or_ge q.m_size q.m_data.m_size with hlt | hge
  · have hring : 0 < q.m_data.m_size := by omega
    obtain ⟨slot, hs⟩ : ∃ s, (q.m_index + q.m_size) % q.m_data.m_size = s := ⟨_, rfl⟩
    have hslot : slot < q.m_data.m_data.length := by
      have := Nat.mod_lt (q.m_index + q.m_size) hring
      have := hwf.1
      omega
    refine ⟨⟨{ q.m_data with m_data := q.m_data.m_data.set slot x }, q.m_index, q.m_size + 1⟩,
      ?_, ?_, rfl, fun _ => rfl, fun hh => by omega⟩
    · unfold queue0._cycle_storage
      rw [if_neg (show ¬ q.m_size ≥ q.m_data.size by show ¬ q.m_size ≥ q.m_data.m_size; omega)]
      simp only [size_t_mod, vector.size, show q.m_data.m_size ≠ 0 by omega, if_false, hs,
        vector.set, store_of_lt _ _ x hslot]
    · exact ⟨⟨by simpa using hwf.1, hwf.2⟩, hf, hc, by show q.m_size + 1 ≤ q.m_data.m_size; omega,
        hidx, hzero⟩
  · have h0 : q.m_index = 0 := by
      rcases hpath with hlt | h0
      · omega
      · exact h0
    obtain ⟨q1, h1, h2, h3, h4, h5, h6, h7⟩ := queue0.realloc_ok q hinv h0
    have hgt := queue0.ring_growth_gt q.m_data.m_capacity (by omega)
    have hring : 0 < q1.m_data.m_size := by omega
    obtain ⟨slot, hs⟩ : ∃ s, (q1.m_index + q1.m_size) % q1.m_data.m_size = s := ⟨_, rfl⟩
    have hslot : slot < q1.m_data.m_data.length := by
      have := Nat.mod_lt (q1.m_index + q1.m_size) hring
      have := h5.1
      have := h5.2
      omega
    refine ⟨⟨{ q1.m_data with m_data := q1.m_data.m_data.set slot x }, q1.m_index, q1.m_size + 1⟩,
      ?_, ?_, by show q1.m_size + 1 = q.m_size + 1; omega, fun hh => by omega, fun _ => h4⟩
    · unfold queue0._cycle_storage
      rw [if_pos (show q.m_size ≥ q.m_data.size by show q.m_size ≥ q.m_data.m_size; omega)]
      simp only [h1, size_t_mod, vector.size, show q1.m_data.m_size ≠ 0 by omega, if_false, hs,
        vector.set, store_of_lt _ _ x hslot]
    · refine ⟨⟨by simpa using h5.1, h5.2⟩, h6, h7, ?_, ?_, ?_⟩
      · show q1.m_size + 1 ≤ q1.m_data.m_size
        omega
      · intro _
        show q1.m_index < q1.m_data.m_size
        omega
      · intro hz
        have hz1 : q1.m_data.m_size = 0 := hz
        omega

/-- `_cycle_storage` on a full ring whose head is behind cell 0 runs into the
declaration of `new_storage`. -/
theorem queue0.cycle_head {α : Type} [Inhabited α] [object α] (q : queue0 α) (x : α)
    (hfull : q.m_data.m_size ≤ q.m_size) (hpos : 0 < q.m_index) :
    q._cycle_storage x = .error .uninitialised := by
  unfold queue0._cycle_storage
  rw [if_pos (show q.m_size ≥ q.m_data.size from hfull), queue0.realloc_head q hpos]

theorem queue0.enqueue_inv {α : Type} [Inhabited α] [object α] (q : queue0 α) (x : α)
    (h : q.inv) (hmax : q.m_size < size_t_max)
    (hpath : q.m_size < q.m_data.m_size ∨ q.m_index = 0) :
    ∃ q1, q.enqueue x = .ok q1 ∧ q1.inv ∧ q1.m_size = q.m_size + 1
      ∧ (q.m_data.m_size ≤ q.m_size
          → q1.m_data.m_size = queue0.ring_growth q.m_data.m_capacity) := by
  obtain ⟨q1, h1, h2, h3, _, h5⟩ := queue0.cycle_inv q x h hpath
  refine ⟨q1, ?_, h2, h3, h5⟩
  unfold queue0.enqueue
  rw [if_pos (show q.m_size < q.max_size from hmax)]
  exact h1

theorem queue0.enqueue_rvalue_inv {α : Type} [Inhabited α] [object α] (q : queue0 α) (x : α)
    (h : q.inv) :
    ∃ q1, q.enqueue_rvalue x = .ok q1 ∧ q1.inv ∧ q1.m_size = q.m_size + 1 := by
  obtain ⟨hwf, hf, hc, hsz, hidx, hzero⟩ := h
  obtain ⟨v, hv1, hv2, hv3, hv4, hv5, hv6⟩ := vector.push_back_capacity q.m_data x hwf hf
  have hcap : q.m_data.m_size ≤ q.m_data.m_capacity := hwf.2
  have hvc : 4 ≤ v.m_capacity := by
    rcases Nat.lt_or_ge q.m_data.m_size q.m_data.m_capacity with hlt | hge
    · rw [hv5 hlt]; exact hc
    · rw [hv6 (by omega)]; omega
  have hinv : (⟨v, q.m_index, q.m_size⟩ : queue0 α).inv := by
    refine ⟨hv3, hv4, hvc, ?_, ?_, ?_⟩
    · show q.m_size ≤ v.m_size
      omega
    · intro _
      show q.m_index < v.m_size
      rcases Nat.eq_zero_or_pos q.m_data.m_size with hz | hp
      · have := hzero hz; omega
      · have := hidx hp; omega
    · intro hz
      have hz1 : v.m_size = 0 := hz
      omega
  obtain ⟨q1, h1, h2, h3, _⟩ := queue0.cycle_inv _ x hinv
    (Or.inl (by show q.m_size < v.m_size; omega))
  refine ⟨q1, ?_, h2, h3⟩
  unfold queue0.enqueue_rvalue
  simp only [hv1]
  exact h1

theorem queue0.dequeue_inv {α : Type} (q : queue0 α) (h : q.inv) (hne : q.m_size ≠ 0) :
    ∃ y q1, q.dequeue = .ok (y, q1) ∧ q1.inv ∧ q1.m_size = q.m_size - 1 := by
  obtain ⟨hwf, hf, hc, hsz, hidx, hzero⟩ := h
  have hring : 0 < q.m_data.m_size := by omega
  have hlt := hidx hring
  have hlen : q.m_index < q.m_data.m_data.length := by
    have := hwf.1; have := hwf.2; omega
  refine ⟨q.m_data.m_data.get ⟨q.m_index, hlen⟩,
    ⟨q.m_data, (q.m_index + 1) % q.m_data.m_size, size_t_dec q.m_size⟩, ?_, ?_, ?_⟩
  · unfold queue0.dequeue
    rw [if_pos hne]
    simp only [vector.at, vector.size, if_pos hlt, load_of_lt _ _ hlen, queue0._shift_entry,
      size_t_mod, show q.m_data.m_size ≠ 0 by omega, if_false]
  · have hdec : size_t_dec q.m_size = q.m_size - 1 := by
      unfold size_t_dec; rw [if_neg hne]
    refine ⟨hwf, hf, hc, ?_, fun _ => Nat.mod_lt _ hring, fun hz => ?_⟩
    · show size_t_dec q.m_size ≤ q.m_data.m_size
      omega
    · have hz1 : q.m_data.m_size = 0 := hz
      omega
  · show size_t_dec q.m_size = q.m_size - 1
    unfold size_t_dec; rw [if_neg hne]

/-- One call on a ring in range: it returns and leaves a ring in range,
unless it is an `enqueue(const _T&)` on a full ring whose head is behind
cell 0, which runs into the declaration of `new_storage`. -/
theorem queue0.call_inv {α : Type} [Inhabited α] [object α] (q : queue0 α) (c : queue0_call α)
    (h : q.inv) (hadm : queue0_call.admissible q.m_size [c]) :
    (∃ q1, q.call c = .ok q1 ∧ q1.inv)
      ∨ (q.call c = .error .uninitialised ∧ 0 < q.m_index ∧ q.m_size = q.m_data.m_size) := by
  cases c with
  | enqueue x =>
    by_cases hpath : q.m_size < q.m_data.m_size ∨ q.m_index = 0
    · obtain ⟨q1, h1, h2, _⟩ := queue0.enqueue_inv q x h hadm.1 hpath
      exact Or.inl ⟨q1, h1, h2⟩
    · have hsz : q.m_size ≤ q.m_data.m_size := h.2.2.2.1
      refine Or.inr ⟨?_, by omega, by omega⟩
      show q.enqueue x = _
      unfold queue0.enqueue
      rw [if_pos (show q.m_size < q.max_size from hadm.1)]
      exact queue0.cycle_head q x (by omega) (by omega)
  | enqueue_rvalue x =>
    obtain ⟨q1, h1, h2, _⟩ := queue0.enqueue_rvalue_inv q x h
    exact Or.inl ⟨q1, h1, h2⟩
  | dequeue =>
    obtain ⟨y, q1, h1, h2, _⟩ := queue0.dequeue_inv q h (Nat.pos_iff_ne_zero.1 hadm.1)
    exact Or.inl ⟨q1, by simp only [queue0.call, h1], h2⟩

/-- Every state that a sequence of calls reaches from a ring in range is a
ring in range. -/
theorem queue0.calls_inv {α : Type} [Inhabited α] [object α] (cs : List (queue0_call α)) :
    ∀ q q1 : queue0 α, q.inv → q.calls cs = .ok q1 → q1.inv := by
  induction cs with
  | nil =>
    intro q q1 h hr
    have : q = q1 := Except.ok.inj hr
    rw [← this]; exact h
  | cons c cs ih =>
    intro q q1 h hr
    cases c with
    | enqueue x =>
      by_cases hmax : q.m_size < size_t_max
      · rcases queue0.call_inv q (.enqueue x) h ⟨hmax, trivial⟩ with ⟨q2, h1, h2⟩ | ⟨h1, _⟩
        · simp only [queue0.calls, h1] at hr
          exact ih q2 q1 h2 hr
        · simp only [queue0.calls, h1] at hr
          exact absurd hr (by simp)
      · have h1 : q.call (.enqueue x) = .error .assertion := by
          show q.enqueue x = _
          unfold queue0.enqueue
          rw [if_neg (show ¬ q.m_size < q.max_size from hmax)]
        simp only [queue0.calls, h1] at hr
        exact absurd hr (by simp)
    | enqueue_rvalue x =>
      obtain ⟨q2, h1, h2, _⟩ := queue0.enqueue_rvalue_inv q x h
      have h1c : q.call (.enqueue_rvalue x) = .ok q2 := h1
      simp only [queue0.calls, h1c] at hr
      exact ih q2 q1 h2 hr
    | dequeue =>
      by_cases hne : q.m_size ≠ 0
      · obtain ⟨y, q2, h1, h2, _⟩ := queue0.dequeue_inv q h hne
        have h1c : q.call .dequeue = .ok q2 := by simp only [queue0.call, h1]
        simp only [queue0.calls, h1c] at hr
        exact ih q2 q1 h2 hr
      · have h1 : q.call .dequeue = .error .assertion := by
          have hd : q.dequeue = .error .assertion := by
            unfold queue0.dequeue
            rw [if_neg hne]
          simp only [queue0.call, hd]
        simp only [queue0.calls, h1] at hr
        exact absurd hr (by simp)

/-- C29, failing input.  `void f() { JMK::queue<unsigned char, 0> q; ... }`:
the backing vector of the automatic object `q` is constructed on indeterminate
members.  On a queue in zeroed storage, six values fill the first ring of six
elements, a `dequeue` moves the head to 1 and a seventh value fills the ring
again: count 6, head 1, ring capacity 6.  The next `enqueue(const _T&)` grows
the ring with the head at 1, through the branch of `_realloc_storage` that
declares the local vector `new_storage`, whose constructor reads indeterminate
members: the call reaches no state for the invariant to hold in. -/
theorem queue0_ring_failing_input :
    (queue0.ctor .indeterminate : Except Fault (queue0 uchar)) = .error .uninitialised
      ∧ ∃ q0 q7 : queue0 uchar, queue0.ctor .zeroed = .ok q0
        ∧ q0.calls [.enqueue 1, .enqueue 2, .enqueue 3, .enqueue 4, .enqueue 5, .enqueue 6,
            .dequeue, .enqueue 7] = .ok q7
        ∧ q7.size = 6 ∧ q7.m_data.size = 6 ∧ q7.m_index = 1
        ∧ q7.size < q7.max_size
        ∧ q7._realloc_storage = .error .uninitialised
        ∧ q7.call (.enqueue 8) = .error .uninitialised
        ∧ q0.calls [.enqueue 1, .enqueue 2, .enqueue 3, .enqueue 4, .enqueue 5, .enqueue 6,
            .dequeue, .enqueue 7, .enqueue 8, .enqueue_rvalue 9, .dequeue]
          = .error .uninitialised :=
  ⟨rfl, _, _, rfl, rfl, rfl, rfl, rfl, by decide, rfl, rfl, rfl⟩

/-! ## The unbounded queue: growth -/

/-- C25, failing input.  Six `enqueue` calls, a `dequeue` and a seventh
`enqueue` on a queue in zeroed storage leave the ring of six elements full
with the head at cell 1 and 2 at the front.  `_realloc_storage` then declares
the local `new_storage`, whose constructor runs on indeterminate members.
Where that local comes out as in zeroed storage, the runs `[1, 6)` and
`[0, 1)` are copied to the front of a block of nine elements, in logical
order, and the head is left at 1, so `front()` reads 3. -/
theorem queue0_growth_failing_input :
    ∃ q0 q7 q8 : queue0 uchar, queue0.ctor .zeroed = .ok q0
      ∧ q0.run [.enqueue 1, .enqueue 2, .enqueue 3, .enqueue 4, .enqueue 5, .enqueue 6, .dequeue,
          .enqueue 7] = .ok (q7, [1])
      ∧ q7.size = 6 ∧ q7.m_data.size = 6 ∧ q7.m_index = 1
      ∧ q7.m_data.m_data = [7, 2, 3, 4, 5, 6] ∧ q7.front = .ok 2
      ∧ q7._realloc_storage = .error .uninitialised
      ∧ ∃ new_storage : vector uchar, vector.ctor .zeroed = .ok new_storage
        ∧ q7._realloc_from new_storage = .ok q8
        ∧ q8.m_data.m_data = [2, 3, 4, 5, 6, 7, 0, 0, 0] ∧ q8.m_data.size = 9
        ∧ q8.m_index = 1 ∧ q8.front = .ok 3 :=
  ⟨_, _, _, rfl, rfl, rfl, rfl, rfl, rfl, rfl, rfl, _, rfl, rfl, rfl, rfl, rfl, rfl⟩

/-- C30, counterexample.  Nine `enqueue` calls on a queue constructed in
zeroed storage leave a full ring of 9 elements; the tenth grows it to 13
elements, and `ceil(9 * 1.5)`, which is `(9 * 3 + 1) / 2`, is 14.  The first
`enqueue` finds a ring of 0 elements and grows it to 6. -/
theorem queue0_growth_capacity_counterexample :
    ∃ q0 q1 q9 q10 : queue0 uchar, queue0.ctor .zeroed = .ok q0
      ∧ q0.run [.enqueue 1, .enqueue 2, .enqueue 3, .enqueue 4, .enqueue 5, .enqueue 6,
          .enqueue 7, .enqueue 8, .enqueue 9] = .ok (q9, [])
      ∧ q9.size = 9 ∧ q9.m_data.size = 9
      ∧ q9.enqueue 10 = .ok q10 ∧ q10.m_data.size = 13 ∧ (9 * 3 + 1) / 2 = 14
      ∧ q0.size = 0 ∧ q0.m_data.size = 0 ∧ q0.enqueue 1 = .ok q1 ∧ q1.m_data.size = 6 :=
  ⟨_, _, _, _, rfl, rfl, rfl, rfl, rfl, rfl, rfl, rfl, rfl, rfl, rfl⟩

/-- C30, amended.  On a ring in range (the backing vector well formed, of
capacity at least 4, with the default growth factor) whose head is at cell 0,
an `enqueue(const _T&)` that finds `count == m_data.size()` returns with a
store of exactly `static_cast<size_t>(m_data.capacity() * 1.5)` elements,
which is `floor(m_data.capacity() * 1.5)` while the product is below `2^53`. -/
theorem queue0_growth_capacity_spec {α : Type} [Inhabited α] [object α] (q : queue0 α) (x : α)
    (hinv : q.inv) (h0 : q.m_index = 0) (hfull : q.size = q.m_data.size)
    (hmax : q.size < q.max_size) :
    ∃ q1, q.enqueue x = .ok q1
      ∧ q1.m_data.size = queue0.ring_growth q.m_data.capacity
      ∧ (q.m_data.capacity * 3 < 2 ^ 53 → q1.m_data.size = q.m_data.capacity * 3 / 2) := by
  have hfull1 : q.m_size = q.m_data.m_size := hfull
  obtain ⟨q1, h3, _, _, h6⟩ := queue0.enqueue_inv q x hinv hmax (Or.inr h0)
  have h7 : q1.m_data.m_size = queue0.ring_growth q.m_data.m_capacity := h6 (by omega)
  refine ⟨q1, h3, h7, ?_⟩
  intro hlt
  show q1.m_data.m_size = q.m_data.m_capacity * 3 / 2
  rw [h7]
  exact queue0.ring_growth_exact _ hlt

/-- C30, amended, witness: a full ring of 9 elements with the head at cell 0,
in a backing vector of capacity 9; `enqueue(10)` returns with a store of
`9 * 3 / 2 = 13` elements. -/
theorem queue0_growth_capacity_spec_witness :
    (⟨⟨3, [1, 2, 3, 4, 5, 6, 7, 8, 9], 9, 9, factor.default_growth⟩, 0, 9⟩ : queue0 uchar).inv
      ∧ ∃ q1, (⟨⟨3, [1, 2, 3, 4, 5, 6, 7, 8, 9], 9, 9, factor.default_growth⟩, 0, 9⟩
          : queue0 uchar).enqueue 10 = .ok q1
        ∧ q1.m_data.size = queue0.ring_growth 9
        ∧ (9 * 3 < 2 ^ 53 → q1.m_data.size = 9 * 3 / 2) :=
  ⟨⟨⟨rfl, Nat.le_refl _⟩, rfl, by decide, Nat.le_refl _, fun _ => by decide,
      fun h => absurd h (by decide)⟩,
    queue0_growth_capacity_spec
      (⟨⟨3, [1, 2, 3, 4, 5, 6, 7, 8, 9], 9, 9, factor.default_growth⟩, 0, 9⟩ : queue0 uchar) 10
      ⟨⟨rfl, Nat.le_refl _⟩, rfl, by decide, Nat.le_refl _, fun _ => by decide,
        fun h => absurd h (by decide)⟩ rfl rfl (by decide)⟩

/-! ## list: the links after inserts -/

/-- The first of the iterators of a chain is the pointer the chain starts from. -/
theorem list.chain_head {α : Type} (h : List (Option (_node α))) (ps : List Nat)
    (prev cur stop : node_ptr) (hc : list.chain h prev cur ps stop) :
    (ps.map node_ptr.node ++ [stop])[0]? = some cur := by
  cases ps with
  | nil =>
    have e : cur = stop := hc
    simp [e]
  | cons a as =>
    have e : cur = .node a := hc.1
    simp [e]

/-- The members of the nodes of a chain: the `m_next` of the node at index `i`
is the node at index `i + 1`, or `stop` behind the last node; its `m_prev` is
the node at index `i - 1`, or `prev` for the first node. -/
theorem list.chain_links {α : Type} (h : List (Option (_node α))) (ps : List Nat) :
    ∀ (prev cur stop : node_ptr), list.chain h prev cur ps stop →
      ∀ i a, ps[i]? = some a →
        ∃ n, h[a]? = some (some n) ∧ (ps.map node_ptr.node ++ [stop])[i + 1]? = some n.m_next
          ∧ (prev :: ps.map node_ptr.node)[i]? = some n.m_prev := by
  induction ps with
  | nil => intro _ _ _ _ i a hi; simp at hi
  | cons b bs ih =>
    intro prev cur stop hc i a hi
    obtain ⟨_, n, hn, hp, hrest⟩ := hc
    cases i with
    | zero =>
      have e : b = a := by simpa using hi
      subst e
      refine ⟨n, hn, ?_, by simp [hp]⟩
      have := list.chain_head h bs _ _ _ hrest
      simpa using this
    | succ i =>
      have hi1 : bs[i]? = some a := by simpa using hi
      obtain ⟨n1, h1, h2, h3⟩ := ih _ _ _ hrest i a hi1
      refine ⟨n1, h1, ?_, ?_⟩
      · simpa using h2
      · simpa using h3

/-- On a well-formed list `begin() + k` is the `k`-th iterator, for `k` up to
the number of nodes. -/
theorem list.advance_chain {α : Type} (l : list α) (ps : List Nat) :
    ∀ (prev cur : node_ptr) (k : Nat), list.chain l.heap prev cur ps .sentinel → k ≤ ps.length →
      ∃ pos, l.advance k cur = .ok pos ∧ (ps.map node_ptr.node ++ [node_ptr.sentinel])[k]? = some pos := by
  induction ps with
  | nil =>
    intro prev cur k hc hk
    have e : cur = .sentinel := hc
    have hk0 : k = 0 := by simpa using hk
    subst hk0
    exact ⟨cur, rfl, by simp [e]⟩
  | cons a as ih =>
    intro prev cur k hc hk
    obtain ⟨hcur, n, hn, _, hrest⟩ := hc
    cases k with
    | zero => exact ⟨cur, rfl, by simp [hcur]⟩
    | succ k =>
      obtain ⟨pos, h1, h2⟩ := ih _ _ k hrest (by simpa using hk)
      refine ⟨pos, ?_, by simpa using h2⟩
      rw [hcur]
      simp only [list.advance, list.get_next_node l a n hn, h1]

/-- `insert(pos, v)` with `pos` the `k`-th iterator of a well-formed list
returns and leaves a well-formed list with the new node at index `k`. -/
theorem list.insert_wf {α : Type} [Inhabited α] (l : list α) (ps : List Nat) (k : Nat)
    (pos : list_iterator) (v : α) (hwf : l.wf ps) (hpos : (list.positions ps)[k]? = some pos) :
    ∃ l1 it, l.insert pos v = .ok (l1, it)
      ∧ l1.wf (ps.take k ++ l.heap.length :: ps.drop k) := by
  have hlen := list.chain_lt _ _ _ _ _ hwf.2.1
  have hfresh : l.heap.length ∉ ps := fun h => Nat.lt_irrefl _ (hlen _ h)
  have hcell : (l.heap ++ [some (⟨.indeterminate, .indeterminate, default⟩ : _node α)])[l.heap.length]?
      = some (some ⟨.indeterminate, .indeterminate, default⟩) := by simp
  have hold : ∀ a, a ∈ ps →
      ((l.heap ++ [some (⟨.indeterminate, .indeterminate, default⟩ : _node α)]).set l.heap.length
        (some ⟨.indeterminate, .indeterminate, v⟩))[a]? = l.heap[a]? := by
    intro a ha
    have := hlen a ha
    rw [list.heap_set_other _ _ _ _ (by omega), List.getElem?_append_left this]
  have hnew : ((l.heap ++ [some (⟨.indeterminate, .indeterminate, default⟩ : _node α)]).set
      l.heap.length (some ⟨.indeterminate, .indeterminate, v⟩))[l.heap.length]?
      = some (some ⟨.indeterminate, .indeterminate, v⟩) :=
    list.heap_set_same _ _ _ (by simp)
  have hwf2 : (⟨(l.heap ++ [some (⟨.indeterminate, .indeterminate, default⟩ : _node α)]).set
      l.heap.length (some ⟨.indeterminate, .indeterminate, v⟩), l.m_begin, l.m_end, l.m_size⟩
      : list α).wf ps :=
    ⟨hwf.1, list.chain_congr _ _ _ _ _ _ hold hwf.2.1, hwf.2.2.1, hwf.2.2.2⟩
  obtain ⟨l1, h1, h2, _⟩ := list.insert_node_spec _ ps k pos l.heap.length _ hwf2 hnew hfresh hpos
  refine ⟨l1, .node l.heap.length, ?_, h2⟩
  simp only [list.insert, list.new_node, list.set_item, list.put_node, hcell, h1]

/-- C26, counterexample.  In the constructed empty list the sentinel's prev
(the member `m_end`) is null, not the sentinel; and after `insert(end(), 1)`
the prev of the first node is null as well, not the sentinel. -/
theorem list_links_counterexample :
    (list.ctor : list Nat).get_next .sentinel = .ok .sentinel
      ∧ (list.ctor : list Nat).get_prev .sentinel = .ok .null
      ∧ ∃ l1 it, (list.ctor : list Nat).insert (list.ctor : list Nat).end 1 = .ok (l1, it)
        ∧ l1.begin = it ∧ l1.get_next .sentinel = .ok it ∧ l1.get_prev it = .ok .null
        ∧ l1.get_next it = .ok .sentinel ∧ l1.get_prev .sentinel = .ok it :=
  ⟨rfl, rfl, _, _, rfl, rfl, rfl, rfl, rfl, rfl⟩

/-! ## list: erase of a node that is not the first -/

/-- `erase` of the last node of a list with at least two nodes. -/
theorem list.erase_last {α : Type} (l : list α) (pre : List Nat) (p a : Nat)
    (hwf : l.wf (pre ++ [p, a])) :
    ∃ l1, l.erase (.node a) = .ok (l1, .sentinel) ∧ l1.wf (pre ++ [p]) := by
  obtain ⟨hnd, hc, hend, hs⟩ := hwf
  obtain ⟨mid, hc1, hc2⟩ := (list.chain_append _ _ _ _ _ _).1 hc
  obtain ⟨hmid, np, hnp, hpprev, hc3⟩ := hc2
  obtain ⟨hpnext, na, hna, haprev, hc4⟩ := hc3
  have hanext : na.m_next = .sentinel := hc4
  have hnd1 := List.nodup_append.1 hnd
  have hnd2 := List.nodup_cons.1 hnd1.2.1
  have hpa : p ≠ a := fun h => hnd2.1 (by simp [h])
  have hp_pre : p ∉ pre := fun h => hnd1.2.2 h (by simp)
  have ha_pre : a ∉ pre := fun h => hnd1.2.2 h (by simp)
  have hlt_p := list.lt_of_live _ _ _ hnp
  have hlt_a := list.lt_of_live _ _ _ hna
  refine ⟨⟨(l.heap.set p (some { np with m_next := .sentinel })).set a none, l.m_begin, .node p,
    size_t_dec l.m_size⟩, ?_, ?_⟩
  · simp only [list.erase, list._remove_node, list._sentinel_node, list.get_prev, list.get_next,
      list.node_at, list.set_next, list.set_prev, list.put_node, list.delete, hna, hnp, haprev,
      hanext, list.heap_set_other _ _ _ _ hpa, if_false, reduceCtorEq]
  · refine ⟨?_, ?_, ?_, ?_⟩
    · have hsub : (pre ++ [p]).Sublist (pre ++ [p, a]) :=
        List.Sublist.append_left (List.Sublist.cons₂ _ (List.nil_sublist _)) _
      exact hnd.sublist hsub
    · refine (list.chain_append _ _ _ _ _ _).2 ⟨mid, ?_, ?_⟩
      · refine list.chain_congr _ _ _ _ _ _ ?_ hc1
        intro b hb
        have h2 : p ≠ b := fun h => hp_pre (h ▸ hb)
        have h3 : a ≠ b := fun h => ha_pre (h ▸ hb)
        simp [List.getElem?_set, h2, h3]
      · refine ⟨hmid, { np with m_next := .sentinel }, ?_, hpprev, rfl⟩
        simp [List.getElem?_set, hlt_p, Ne.symm hpa]
    · intro _
      show node_ptr.node p = _
      rw [list.last_ptr_append]
      rfl
    · show size_t_dec l.m_size = _
      unfold size_t_dec
      simp only [hs, List.length_append, List.length_cons, List.length_nil]
      rw [if_neg (by omega)]
      omega

/-- `erase` of a node that has a node before it and a node behind it. -/
theorem list.erase_middle {α : Type} (l : list α) (pre : List Nat) (p a c : Nat)
    (post : List Nat) (hwf : l.wf (pre ++ p :: a :: c :: post)) :
    ∃ l1, l.erase (.node a) = .ok (l1, .node c) ∧ l1.wf (pre ++ p :: c :: post) := by
  obtain ⟨hnd, hc, hend, hs⟩ := hwf
  obtain ⟨mid, hc1, hc2⟩ := (list.chain_append _ _ _ _ _ _).1 hc
  obtain ⟨hmid, np, hnp, hpprev, hc3⟩ := hc2
  obtain ⟨hpnext, na, hna, haprev, hc4⟩ := hc3
  obtain ⟨hanext, nc, hnc, hcprev, hc5⟩ := hc4
  have hnd1 := List.nodup_append.1 hnd
  have hnd2 := List.nodup_cons.1 hnd1.2.1
  have hnd3 := List.nodup_cons.1 hnd2.2
  have hnd4 := List.nodup_cons.1 hnd3.2
  have hpa : p ≠ a := fun h => hnd2.1 (by simp [h])
  have hpc : p ≠ c := fun h => hnd2.1 (by simp [h])
  have hac : a ≠ c := fun h => hnd3.1 (by simp [h])
  have hp_pre : p ∉ pre := fun h => hnd1.2.2 h (by simp)
  have ha_pre : a ∉ pre := fun h => hnd1.2.2 h (by simp)
  have hc_pre : c ∉ pre := fun h => hnd1.2.2 h (by simp)
  have hp_post : p ∉ post := fun h => hnd2.1 (by simp [h])
  have ha_post : a ∉ post := fun h => hnd3.1 (by simp [h])
  have hc_post : c ∉ post := hnd4.1
  have hlt_p := list.lt_of_live _ _ _ hnp
  have hlt_a := list.lt_of_live _ _ _ hna
  have hlt_c := list.lt_of_live _ _ _ hnc
  refine ⟨⟨((l.heap.set p (some { np with m_next := .node c })).set c
      (some { nc with m_prev := .node p })).set a none, l.m_begin, l.m_end,
    size_t_dec l.m_size⟩, ?_, ?_⟩
  · simp only [list.erase, list._remove_node, list._sentinel_node, list.get_prev, list.get_next,
      list.node_at, list.set_next, list.set_prev, list.put_node, list.delete, hna, hnp, hnc,
      haprev, hanext, list.heap_set_other _ _ _ _ hpa, list.heap_set_other _ _ _ _ hpc,
      list.heap_set_other _ _ _ _ (Ne.symm hac), if_false, reduceCtorEq]
  · refine ⟨?_, ?_, ?_, ?_⟩
    · have hsub : (pre ++ p :: c :: post).Sublist (pre ++ p :: a :: c :: post) :=
        List.Sublist.append_left (List.Sublist.cons₂ _ (List.Sublist.cons _ (List.Sublist.refl _))) _
      exact hnd.sublist hsub
    · refine (list.chain_append _ _ _ _ _ _).2 ⟨mid, ?_, ?_⟩
      · refine list.chain_congr _ _ _ _ _ _ ?_ hc1
        intro b hb
        have h1 : c ≠ b := fun h => hc_pre (h ▸ hb)
        have h2 : p ≠ b := fun h => hp_pre (h ▸ hb)
        have h3 : a ≠ b := fun h => ha_pre (h ▸ hb)
        simp [List.getElem?_set, h1, h2, h3]
      · refine ⟨hmid, { np with m_next := .node c }, ?_, hpprev, rfl,
          { nc with m_prev := .node p }, ?_, rfl, ?_⟩
        · simp [List.getElem?_set, hlt_p, hpa, hpc, Ne.symm hpa, Ne.symm hpc]
        · simp [List.getElem?_set, hlt_c, hac, Ne.symm hac]
        · refine list.chain_congr _ _ _ _ _ _ ?_ hc5
          intro b hb
          have h1 : c ≠ b := fun h => hc_post (h ▸ hb)
          have h2 : p ≠ b := fun h => hp_post (h ▸ hb)
          have h3 : a ≠ b := fun h => ha_post (h ▸ hb)
          simp [List.getElem?_set, h1, h2, h3]
    · intro _
      show l.m_end = _
      rw [hend (by simp), list.last_ptr_append, list.last_ptr_append]
      rfl
    · show size_t_dec l.m_size = _
      unfold size_t_dec
      simp only [hs, List.length_append, List.length_cons]
      rw [if_neg (by omega)]
      omega

/-- `erase(pos)` with `pos` the `k`-th iterator of a well-formed list, not the
first and not `end()`, returns and leaves a well-formed list without the node
at index `k`. -/
theorem list.erase_wf {α : Type} (l : list α) (ps : List Nat) (k : Nat) (pos : list_iterator)
    (hwf : l.wf ps) (hpos : (list.positions ps)[k]? = some pos) (hk0 : 0 < k)
    (hk : k < ps.length) :
    ∃ l1 it, l.erase pos = .ok (l1, it) ∧ l1.wf (ps.take k ++ ps.drop (k + 1)) := by
  obtain ⟨j, rfl⟩ : ∃ j, k = j + 1 := ⟨k - 1, by omega⟩
  have hsplit : ps = ps.take j ++ ps.drop j := (List.take_append_drop j ps).symm
  have hjl : (ps.take j).length = j := by simp; omega
  obtain ⟨p, r1, h1⟩ : ∃ p r1, ps.drop j = p :: r1 := by
    cases h : ps.drop j with
    | nil =>
      have := congrArg List.length h
      simp at this; omega
    | cons p r1 => exact ⟨p, r1, rfl⟩
  obtain ⟨a, post, h2⟩ : ∃ a post, r1 = a :: post := by
    cases r1 with
    | nil =>
      have := congrArg List.length h1
      simp at this; omega
    | cons a post => exact ⟨a, post, rfl⟩
  subst h2
  obtain ⟨pre, hpre⟩ : ∃ pre, pre = ps.take j := ⟨_, rfl⟩
  rw [h1, ← hpre] at hsplit
  rw [← hpre] at hjl
  subst hsplit
  subst hjl
  have hposa : pos = .node a := by
    rw [list.positions_lt _ _ hk] at hpos
    have := Option.some.inj hpos
    rw [← this]
    simp [List.getElem_append_right]
  have hres : (pre ++ p :: a :: post).take (pre.length + 1)
      ++ (pre ++ p :: a :: post).drop (pre.length + 1 + 1) = pre ++ p :: post := by
    rw [List.take_append, Nat.add_assoc, List.drop_append]
    simp
  rw [hres, hposa]
  cases post with
  | nil =>
    obtain ⟨l1, h3, h4⟩ := list.erase_last l pre p a hwf
    exact ⟨l1, _, h3, h4⟩
  | cons c post =>
    obtain ⟨l1, h3, h4⟩ := list.erase_middle l pre p a c post hwf
    exact ⟨l1, _, h3, h4⟩

/-! ## list: the links do not depend on m_size -/

theorem list.same_links_bind {α : Type} (f g : list α → Except Fault (list α))
    (hfg : ∀ a b : list α, a.heap = b.heap → a.m_begin = b.m_begin → a.m_end = b.m_end →
      list.same_links (f a) (g b)) :
    ∀ x y : Except Fault (list α), list.same_links x y →
      list.same_links
        (match x with
          | .error e => .error e
          | .ok a => f a)
        (match y with
          | .error e => .error e
          | .ok b => g b) := by
  intro x y hxy
  cases x with
  | error e =>
    cases y with
    | error e1 => exact hxy
    | ok b => exact absurd hxy id
  | ok a =>
    cases y with
    | error e1 => exact absurd hxy id
    | ok b => exact hfg a b hxy.1 hxy.2.1 hxy.2.2

theorem list.same_links_bind_it {α : Type} (f g : list α → Except Fault (list α × list_iterator))
    (hfg : ∀ a b : list α, a.heap = b.heap → a.m_begin = b.m_begin → a.m_end = b.m_end →
      list.same_links_it (f a) (g b)) :
    ∀ x y : Except Fault (list α), list.same_links x y →
      list.same_links_it
        (match x with
          | .error e => .error e
          | .ok a => f a)
        (match y with
          | .error e => .error e
          | .ok b => g b) := by
  intro x y hxy
  cases x with
  | error e =>
    cases y with
    | error e1 => exact hxy
    | ok b => exact absurd hxy id
  | ok a =>
    cases y with
    | error e1 => exact absurd hxy id
    | ok b => exact hfg a b hxy.1 hxy.2.1 hxy.2.2

theorem list.get_next_links {α : Type} (l l1 : list α) (p : node_ptr)
    (hh : l.heap = l1.heap) (hb : l.m_begin = l1.m_begin) : l.get_next p = l1.get_next p := by
  cases p <;> simp [list.get_next, list.node_at, hh, hb]

theorem list.get_prev_links {α : Type} (l l1 : list α) (p : node_ptr)
    (hh : l.heap = l1.heap) (he : l.m_end = l1.m_end) : l.get_prev p = l1.get_prev p := by
  cases p <;> simp [list.get_prev, list.node_at, hh, he]

theorem list.put_node_links {α : Type} (l l1 : list α) (p : node_ptr) (f : _node α → _node α)
    (hh : l.heap = l1.heap) (hb : l.m_begin = l1.m_begin) (he : l.m_end = l1.m_end) :
    list.same_links (l.put_node p f) (l1.put_node p f) := by
  cases p with
  | node a =>
    unfold list.put_node
    simp only [← hh]
    rcases hc : l.heap[a]? with _ | _ | n
    · rfl
    · rfl
    · exact ⟨by simp [hh], hb, he⟩
  | null => rfl
  | sentinel => rfl
  | indeterminate => rfl

theorem list.set_next_links {α : Type} (l l1 : list α) (p q : node_ptr)
    (hh : l.heap = l1.heap) (hb : l.m_begin = l1.m_begin) (he : l.m_end = l1.m_end) :
    list.same_links (l.set_next p q) (l1.set_next p q) := by
  cases p with
  | sentinel => exact ⟨hh, rfl, he⟩
  | node a => exact list.put_node_links l l1 (.node a) (fun n => { n with m_next := q }) hh hb he
  | null => rfl
  | indeterminate => rfl

theorem list.set_prev_links {α : Type} (l l1 : list α) (p q : node_ptr)
    (hh : l.heap = l1.heap) (hb : l.m_begin = l1.m_begin) (he : l.m_end = l1.m_end) :
    list.same_links (l.set_prev p q) (l1.set_prev p q) := by
  cases p with
  | sentinel => exact ⟨hh, hb, rfl⟩
  | node a => exact list.put_node_links l l1 (.node a) (fun n => { n with m_prev := q }) hh hb he
  | null => rfl
  | indeterminate => rfl

theorem list.delete_links {α : Type} (l l1 : list α) (p : node_ptr)
    (hh : l.heap = l1.heap) (hb : l.m_begin = l1.m_begin) (he : l.m_end = l1.m_end) :
    list.same_links (l.delete p) (l1.delete p) := by
  cases p with
  | node a =>
    unfold list.delete
    simp only [← hh]
    rcases hc : l.heap[a]? with _ | _ | n
    · rfl
    · rfl
    · exact ⟨by simp [hh], hb, he⟩
  | null => exact ⟨hh, hb, he⟩
  | sentinel => rfl
  | indeterminate => rfl

/-- `_append_node` does the same to the links whatever `m_size` is. -/
theorem list.append_node_links {α : Type} (l l1 : list α) (n : node_ptr)
    (hh : l.heap = l1.heap) (hb : l.m_begin = l1.m_begin) (he : l.m_end = l1.m_end) :
    list.same_links (l._append_node n) (l1._append_node n) := by
  unfold list._append_node
  simp only [list._sentinel_node]
  rw [← hb]
  by_cases hs : l.m_begin = .sentinel
  · rw [if_pos hs, if_pos hs]
    refine list.same_links_bind _ _ ?_ _ _
      (list.set_next_links (⟨l.heap, n, n, l.m_size⟩ : list α) ⟨l1.heap, n, n, l1.m_size⟩ n
        .sentinel hh rfl rfl)
    intro a b h1 h2 h3
    rw [h2]
    refine list.same_links_bind _ _ ?_ _ _ (list.set_prev_links _ _ _ _ h1 h2 h3)
    intro a1 b1 h4 h5 h6
    exact ⟨h4, h5, h6⟩
  · rw [if_neg hs, if_neg hs, ← he]
    refine list.same_links_bind _ _ ?_ _ _ (list.set_next_links _ _ _ _ hh hb he)
    intro a b h1 h2 h3
    rw [h3]
    refine list.same_links_bind _ _ ?_ _ _ (list.set_prev_links _ _ _ _ h1 h2 h3)
    intro a1 b1 h4 h5 h6
    refine list.same_links_bind _ _ ?_ _ _ (list.set_next_links _ _ _ _ h4 h5 h6)
    intro a2 b2 h7 h8 h9
    exact ⟨h7, h8, rfl⟩

/-- `_prepend_node` does the same to the links whatever `m_size` is. -/
theorem list.prepend_node_links {α : Type} (l l1 : list α) (n : node_ptr)
    (hh : l.heap = l1.heap) (hb : l.m_begin = l1.m_begin) (he : l.m_end = l1.m_end) :
    list.same_links (l._prepend_node n) (l1._prepend_node n) := by
  unfold list._prepend_node
  simp only [list._sentinel_node]
  rw [← hb]
  by_cases hs : l.m_begin = .sentinel
  · rw [if_pos hs, if_pos hs]
    refine list.same_links_bind _ _ ?_ _ _
      (list.set_next_links (⟨l.heap, n, n, l.m_size⟩ : list α) ⟨l1.heap, n, n, l1.m_size⟩ n
        .sentinel hh rfl rfl)
    intro a b h1 h2 h3
    rw [h2]
    refine list.same_links_bind _ _ ?_ _ _ (list.set_prev_links _ _ _ _ h1 h2 h3)
    intro a1 b1 h4 h5 h6
    exact ⟨h4, h5, h6⟩
  · rw [if_neg hs, if_neg hs]
    refine list.same_links_bind _ _ ?_ _ _ (list.set_prev_links _ _ _ _ hh hb he)
    intro a b h1 h2 h3
    rw [h2]
    refine list.same_links_bind _ _ ?_ _ _ (list.set_next_links _ _ _ _ h1 h2 h3)
    intro a1 b1 h4 h5 h6
    refine list.same_links_bind _ _ ?_ _ _ (list.set_prev_links _ _ _ _ h4 h5 h6)
    intro a2 b2 h7 h8 h9
    exact ⟨h7, rfl, h9⟩

/-- `_insert_node` does the same to the links whatever `m_size` is. -/
theorem list.insert_node_links {α : Type} (l l1 : list α) (n pos : node_ptr)
    (hh : l.heap = l1.heap) (hb : l.m_begin = l1.m_begin) (he : l.m_end = l1.m_end) :
    list.same_links (l._insert_node n pos) (l1._insert_node n pos) := by
  unfold list._insert_node
  simp only [list._sentinel_node]
  rw [← hb]
  by_cases hs : pos = .sentinel
  · rw [if_pos hs, if_pos hs]
    exact list.append_node_links l l1 n hh hb he
  · rw [if_neg hs, if_neg hs]
    by_cases hf : pos = l.m_begin
    · rw [if_pos hf, if_pos hf]
      exact list.prepend_node_links l l1 n hh hb he
    · rw [if_neg hf, if_neg hf, ← list.get_prev_links l l1 pos hh he]
      cases l.get_prev pos with
      | error e => exact rfl
      | ok prev =>
        refine list.same_links_bind _ _ ?_ _ _ (list.set_prev_links _ _ _ _ hh hb he)
        intro a b h1 h2 h3
        refine list.same_links_bind _ _ ?_ _ _ (list.set_next_links _ _ _ _ h1 h2 h3)
        intro a1 b1 h4 h5 h6
        refine list.same_links_bind _ _ ?_ _ _ (list.set_next_links _ _ _ _ h4 h5 h6)
        intro a2 b2 h7 h8 h9
        refine list.same_links_bind _ _ ?_ _ _ (list.set_prev_links _ _ _ _ h7 h8 h9)
        intro a3 b3 h10 h11 h12
        exact ⟨h10, h11, h12⟩

/-- `_remove_node` does the same to the links whatever `m_size` is. -/
theorem list.remove_node_links {α : Type} (l l1 : list α) (pos : node_ptr)
    (hh : l.heap = l1.heap) (hb : l.m_begin = l1.m_begin) (he : l.m_end = l1.m_end) :
    list.same_links (l._remove_node pos) (l1._remove_node pos) := by
  unfold list._remove_node
  simp only [list._sentinel_node]
  by_cases hs : pos = .sentinel
  · rw [if_pos hs, if_pos hs]
    exact ⟨hh, hb, he⟩
  · rw [if_neg hs, if_neg hs, ← list.get_prev_links l l1 pos hh he,
      ← list.get_next_links l l1 pos hh hb]
    cases l.get_prev pos with
    | error e => exact rfl
    | ok prev =>
      cases l.get_next pos with
      | error e => exact rfl
      | ok next =>
        refine list.same_links_bind _ _ ?_ _ _ (list.set_next_links _ _ _ _ hh hb he)
        intro a b h1 h2 h3
        refine list.same_links_bind _ _ ?_ _ _ (list.set_prev_links _ _ _ _ h1 h2 h3)
        intro a1 b1 h4 h5 h6
        exact ⟨h4, h5, h6⟩

/-- `insert` returns the same iterator and does the same to the links
whatever `m_size` is. -/
theorem list.insert_links {α : Type} [Inhabited α] (l l1 : list α) (pos : list_iterator) (v : α)
    (hh : l.heap = l1.heap) (hb : l.m_begin = l1.m_begin) (he : l.m_end = l1.m_end) :
    list.same_links_it (l.insert pos v) (l1.insert pos v) := by
  unfold list.insert list.new_node list.set_item
  simp only [← hh]
  refine list.same_links_bind_it _ _ ?_ _ _
    (list.put_node_links
      (⟨l.heap ++ [some ⟨.indeterminate, .indeterminate, default⟩], l.m_begin, l.m_end, l.m_size⟩
        : list α)
      ⟨l.heap ++ [some ⟨.indeterminate, .indeterminate, default⟩], l1.m_begin, l1.m_end,
        l1.m_size⟩
      (.node l.heap.length) (fun n => { n with m_item := v }) rfl hb he)
  intro a b h1 h2 h3
  refine list.same_links_bind_it _ _ ?_ _ _ (list.insert_node_links _ _ _ _ h1 h2 h3)
  intro a1 b1 h4 h5 h6
  exact ⟨h4, h5, h6, rfl⟩

/-- `erase` returns the same iterator and does the same to the links whatever
`m_size` is. -/
theorem list.erase_links {α : Type} (l l1 : list α) (pos : list_iterator)
    (hh : l.heap = l1.heap) (hb : l.m_begin = l1.m_begin) (he : l.m_end = l1.m_end) :
    list.same_links_it (l.erase pos) (l1.erase pos) := by
  unfold list.erase
  rw [← list.get_next_links l l1 pos hh hb]
  cases l.get_next pos with
  | error e => exact rfl
  | ok next =>
    refine list.same_links_bind_it _ _ ?_ _ _ (list.remove_node_links _ _ _ hh hb he)
    intro a b h1 h2 h3
    refine list.same_links_bind_it _ _ ?_ _ _ (list.delete_links _ _ _ h1 h2 h3)
    intro a1 b1 h4 h5 h6
    exact ⟨h4, h5, h6, rfl⟩

/-- A well-formed list is linked, and a linked list with the right `m_size`
is well formed. -/
theorem list.linked_resized {α : Type} (l : list α) (ps : List Nat) (h : l.linked ps) :
    (⟨l.heap, l.m_begin, l.m_end, ps.length⟩ : list α).wf ps :=
  ⟨h.1, h.2.1, h.2.2, rfl⟩

theorem list.linked_of_links {α : Type} (l l1 : list α) (ps : List Nat) (h : l.wf ps)
    (hh : l.heap = l1.heap) (hb : l.m_begin = l1.m_begin) (he : l.m_end = l1.m_end) :
    l1.linked ps := by
  obtain ⟨h1, h2, h3, _⟩ := h
  refine ⟨h1, ?_, ?_⟩
  · rw [← hh, ← hb]; exact h2
  · rw [← he]; exact h3

/-- `insert(pos, v)` with `pos` the `k`-th iterator of a linked list returns
and leaves a linked list with the new node at index `k`. -/
theorem list.insert_linked {α : Type} [Inhabited α] (l : list α) (ps : List Nat) (k : Nat)
    (pos : list_iterator) (v : α) (hl : l.linked ps)
    (hpos : (list.positions ps)[k]? = some pos) :
    ∃ l1 it, l.insert pos v = .ok (l1, it)
      ∧ l1.linked (ps.take k ++ l.heap.length :: ps.drop k) := by
  obtain ⟨l2, it, h1, h2⟩ := list.insert_wf (⟨l.heap, l.m_begin, l.m_end, ps.length⟩ : list α)
    ps k pos v (list.linked_resized l ps hl) hpos
  have hs := list.insert_links (⟨l.heap, l.m_begin, l.m_end, ps.length⟩ : list α) l pos v
    rfl rfl rfl
  rw [h1] at hs
  cases hi : l.insert pos v with
  | error e => rw [hi] at hs; exact absurd hs id
  | ok r =>
    obtain ⟨l1, it1⟩ := r
    rw [hi] at hs
    exact ⟨l1, it1, rfl, list.linked_of_links l2 l1 _ h2 hs.1 hs.2.1 hs.2.2.1⟩

/-- `erase(pos)` with `pos` the `k`-th iterator of a linked list, not the
first and not `end()`, returns and leaves a linked list without the node at
index `k`. -/
theorem list.erase_linked {α : Type} (l : list α) (ps : List Nat) (k : Nat) (pos : list_iterator)
    (hl : l.linked ps) (hpos : (list.positions ps)[k]? = some pos) (hk0 : 0 < k)
    (hk : k < ps.length) :
    ∃ l1 it, l.erase pos = .ok (l1, it) ∧ l1.linked (ps.take k ++ ps.drop (k + 1)) := by
  obtain ⟨l2, it, h1, h2⟩ := list.erase_wf (⟨l.heap, l.m_begin, l.m_end, ps.length⟩ : list α)
    ps k pos (list.linked_resized l ps hl) hpos hk0 hk
  have hs := list.erase_links (⟨l.heap, l.m_begin, l.m_end, ps.length⟩ : list α) l pos
    rfl rfl rfl
  rw [h1] at hs
  cases hi : l.erase pos with
  | error e => rw [hi] at hs; exact absurd hs id
  | ok r =>
    obtain ⟨l1, it1⟩ := r
    rw [hi] at hs
    exact ⟨l1, it1, rfl, list.linked_of_links l2 l1 _ h2 hs.1 hs.2.1 hs.2.2.1⟩

/-- `push_back(v)` on a linked list returns and leaves a linked list with the
new node behind the others. -/
theorem list.push_back_linked {α : Type} [Inhabited α] (l : list α) (ps : List Nat) (v : α)
    (hl : l.linked ps) :
    ∃ l1, l.push_back v = .ok l1 ∧ l1.linked (ps ++ [l.heap.length]) := by
  obtain ⟨l1, it, h1, h2⟩ := list.insert_linked l ps ps.length .sentinel v hl
    (list.positions_length ps)
  have e : ps.take ps.length ++ l.heap.length :: ps.drop ps.length = ps ++ [l.heap.length] := by
    simp
  rw [e] at h2
  refine ⟨{ l1 with m_size := l1.m_size + 1 }, ?_, h2⟩
  have h1e : l.insert l.end v = .ok (l1, it) := h1
  simp only [list.push_back, h1e]

/-- Every admissible sequence of insert, erase and push_back calls on a linked
list that is not empty, or is empty with a null `m_end`, returns and leaves
such a list. -/
theorem list.calls_linked {α : Type} [Inhabited α] (cs : List (list_call α)) :
    ∀ (l : list α) (ps : List Nat), l.linked ps → (ps = [] → l.m_end = .null) →
      list_call.admissible ps.length cs →
      ∃ l1 ps1, l.calls cs = .ok l1 ∧ l1.linked ps1 ∧ (ps1 = [] → l1.m_end = .null) := by
  induction cs with
  | nil => intro l ps hl he _; exact ⟨l, ps, rfl, hl, he⟩
  | cons c cs ih =>
    intro l ps hl _ hadm
    cases c with
    | insert_at k x =>
      obtain ⟨hk, hrest⟩ := hadm
      obtain ⟨pos, h1, h2⟩ := list.advance_chain l ps _ _ k hl.2.1 hk
      have h1a : l.iterator_add l.begin k = .ok pos := by
        unfold list.iterator_add
        rw [if_neg (by omega), Int.toNat_ofNat]
        exact h1
      obtain ⟨l1, it, h3, h4⟩ := list.insert_linked l ps k pos x hl h2
      have hlen : (ps.take k ++ l.heap.length :: ps.drop k).length = ps.length + 1 := by
        simp only [List.length_append, List.length_take, List.length_cons, List.length_drop]
        omega
      obtain ⟨l2, ps2, h5, h6, h7⟩ := ih l1 _ h4
        (fun h => absurd (congrArg List.length h) (by rw [hlen]; simp))
        (by rw [hlen]; exact hrest)
      exact ⟨l2, ps2, by simp only [list.calls, list.call, list.insert_at, h1a, h3, h5], h6, h7⟩
    | erase_at k =>
      obtain ⟨hk0, hk, hrest⟩ := hadm
      obtain ⟨pos, h1, h2⟩ := list.advance_chain l ps _ _ k hl.2.1 (by omega)
      have h1a : l.iterator_add l.begin k = .ok pos := by
        unfold list.iterator_add
        rw [if_neg (by omega), Int.toNat_ofNat]
        exact h1
      obtain ⟨l1, it, h3, h4⟩ := list.erase_linked l ps k pos hl h2 hk0 hk
      have hlen : (ps.take k ++ ps.drop (k + 1)).length = ps.length - 1 := by
        simp only [List.length_append, List.length_take, List.length_drop]
        omega
      obtain ⟨l2, ps2, h5, h6, h7⟩ := ih l1 _ h4
        (fun h => absurd (congrArg List.length h) (by rw [hlen]; simp; omega))
        (by rw [hlen]; exact hrest)
      exact ⟨l2, ps2, by simp only [list.calls, list.call, list.erase_at, h1a, h3, h5], h6, h7⟩
    | push_back x =>
      obtain ⟨l1, h3, h4⟩ := list.push_back_linked l ps x hl
      have hlen : (ps ++ [l.heap.length]).length = ps.length + 1 := by simp
      obtain ⟨l2, ps2, h5, h6, h7⟩ := ih l1 _ h4
        (fun h => absurd (congrArg List.length h) (by rw [hlen]; simp))
        (by rw [hlen]; exact hadm)
      exact ⟨l2, ps2, by simp only [list.calls, list.call, h3, h5], h6, h7⟩

/-- C26, amended.  Every sequence of calls `insert(begin() + k, v)` with
`begin() + k` anywhere from `begin()` to `end()`, `push_back(v)` and
`erase(begin() + k)` with `begin() + k` at a node other than the first
returns from a constructed empty list, and the list it reaches has distinct
nodes `ps` such that: `begin()` (the sentinel's next) is the first node, or
the sentinel in the empty list; the sentinel's prev is the last node, or null
in the empty list; the `m_next` of each node is the node behind it, or the
sentinel for the last node; the `m_prev` of each node is the node before it,
or null for the first node. -/
theorem list_links_spec {α : Type} [Inhabited α] (cs : List (list_call α))
    (hadm : list_call.admissible 0 cs) :
    ∃ (l : list α) (ps : List Nat), (list.ctor : list α).calls cs = .ok l
      ∧ ps.Nodup
      ∧ (list.positions ps)[0]? = some l.begin
      ∧ l.get_next l.end = .ok l.begin
      ∧ l.get_prev l.end = .ok (list.last_ptr .null ps)
      ∧ ∀ i a, ps[i]? = some a →
          ∃ nx pv, l.get_next (.node a) = .ok nx ∧ (list.positions ps)[i + 1]? = some nx
            ∧ l.get_prev (.node a) = .ok pv
            ∧ (node_ptr.null :: ps.map node_ptr.node)[i]? = some pv := by
  obtain ⟨l, ps, h1, h2, h3⟩ := list.calls_linked cs (list.ctor : list α) []
    ⟨List.nodup_nil, rfl, fun h => absurd rfl h⟩ (fun _ => rfl) hadm
  refine ⟨l, ps, h1, h2.1, ?_, rfl, ?_, ?_⟩
  · exact list.chain_head _ _ _ _ _ h2.2.1
  · show Except.ok l.m_end = Except.ok (list.last_ptr .null ps)
    cases ps with
    | nil => rw [h3 rfl]; rfl
    | cons a as => rw [h2.2.2 (by simp)]
  · intro i a hi
    obtain ⟨n, hn, hnx, hpv⟩ := list.chain_links _ _ _ _ _ h2.2.1 i a hi
    exact ⟨n.m_next, n.m_prev, list.get_next_node l a n hn, hnx, list.get_prev_node l a n hn, hpv⟩

/-- C26, amended, witness: inserts at `begin()`, at `end()` and in the middle
and a `push_back`, then erases of the last node and of a middle node. -/
theorem list_links_spec_witness :
    list_call.admissible 0 ([.insert_at 0 10, .insert_at 1 40, .insert_at 1 20, .push_back 50,
        .insert_at 2 30, .erase_at 4, .erase_at 1] : List (list_call Nat))
      ∧ ∃ (l : list Nat) (ps : List Nat),
        (list.ctor : list Nat).calls [.insert_at 0 10, .insert_at 1 40, .insert_at 1 20,
          .push_back 50, .insert_at 2 30, .erase_at 4, .erase_at 1] = .ok l
        ∧ ps.Nodup
        ∧ (list.positions ps)[0]? = some l.begin
        ∧ l.get_prev l.end = .ok (list.last_ptr .null ps) := by
  have hadm : list_call.admissible 0 ([.insert_at 0 10, .insert_at 1 40, .insert_at 1 20,
      .push_back 50, .insert_at 2 30, .erase_at 4, .erase_at 1] : List (list_call Nat)) := by
    simp [list_call.admissible]
  obtain ⟨l, ps, h1, h2, h3, _, h5, _⟩ := list_links_spec _ hadm
  exact ⟨hadm, l, ps, h1, h2, h3, h5⟩

/-! ## Helper facts on empty(), emplace and the array iteration -/

/-- `empty()` of the bounded queue is `_N == 0` in every state. -/
theorem queue.bounded_queue_empty_eq {α : Type} {N : Nat} (q : queue α N) :
    q.empty = (N == 0) := rfl

/-- `empty()` of the bounded stack is `_N == 0` in every state. -/
theorem stack.bounded_stack_empty_eq {α : Type} {N : Nat} (s : stack α N) :
    s.empty = (N == 0) := rfl

/-- `emplace(pos, v)` does what `insert(pos, v)` does and then adds one to
`m_size`; it returns `pos`. -/
theorem list.emplace_eq_insert {α : Type} [Inhabited α] (l l1 : list α) (pos it : list_iterator)
    (v : α) (h : l.insert pos v = .ok (l1, it)) :
    l.emplace pos v = .ok ({ l1 with m_size := l1.m_size + 1 }, pos) := by
  simp only [list.emplace, h]

/-- `emplace_back(v)` does what `push_back(v)` does and then adds one to
`m_size`. -/
theorem list.emplace_back_eq_push_back {α : Type} [Inhabited α] (l l1 : list α) (v : α)
    (h : l.push_back v = .ok l1) :
    l.emplace_back v = .ok { l1 with m_size := l1.m_size + 1 } := by
  unfold list.push_back at h
  cases hi : l.insert l.end v with
  | error e => rw [hi] at h; exact absurd h (by simp)
  | ok r =>
    obtain ⟨l2, it⟩ := r
    rw [hi] at h
    have e : l1 = { l2 with m_size := l2.m_size + 1 } := (Except.ok.inj h).symm
    subst e
    simp only [list.emplace_back, list.emplace, hi]

/-- The iteration from `it` up to `end()` of an array of `_N > 0` cells visits
the cells from `it` to `_N - 2`. -/
theorem array.visit_spec {α : Type} {N : Nat} (a : array α N) (hlen : a.m_data.length = N)
    (hN : 0 < N) :
    ∀ (k it fuel : Nat), it + k = N - 1 → k ≤ fuel →
      a.visit fuel it = .ok ((a.m_data.take (N - 1)).drop it) := by
  have hend : a.end = N - 1 := by
    unfold array.end size_t_sub
    rw [if_pos (by omega)]
  intro k
  induction k with
  | zero =>
    intro it fuel hit _
    have e : it = a.end := by rw [hend]; omega
    have hnil : (a.m_data.take (N - 1)).drop it = [] := by
      apply List.drop_eq_nil_of_le
      simp only [List.length_take]
      omega
    rw [hnil]
    cases fuel <;> simp [array.visit, e]
  | succ k ih =>
    intro it fuel hit hfuel
    obtain ⟨f, rfl⟩ : ∃ f, fuel = f + 1 := ⟨fuel - 1, by omega⟩
    have hne : it ≠ a.end := by rw [hend]; omega
    have hlt : it < a.m_data.length := by omega
    have hlt2 : it < (a.m_data.take (N - 1)).length := by
      simp only [List.length_take]
      omega
    have hrec := ih (it + 1) f (by omega) (by omega)
    simp only [array.visit, if_neg hne, load_of_lt _ _ hlt, hrec]
    rw [List.drop_eq_getElem_cons hlt2]
    simp [List.getElem_take]

/-- The iteration from `begin()` up to `end()` of an array of `_N > 0` cells
visits its first `_N - 1` cells. -/
theorem array.to_list_spec {α : Type} {N : Nat} (a : array α N) (hlen : a.m_data.length = N)
    (hN : 0 < N) : a.to_list = .ok (a.m_data.take (N - 1)) := by
  have h := array.visit_spec a hlen hN (N - 1) 0 N (by omega) (by omega)
  simpa [array.to_list, array.begin] using h

/-! ## The overloads of enqueue, and empty() -/

/-- C31, failing input.  On a queue constructed in zeroed storage
`enqueue(const _T&)` leaves a ring of 6 elements and `enqueue(_T&&)` a ring
of 1.  On the queue
that holds 3, 4, 5, 6, 7 in a ring of 6 with the head at cell 2,
`enqueue(const _T&)` of 8 keeps the ring and the queue then gives
3, 4, 5, 6, 7, 8; `enqueue(_T&&)` of 8 first appends 8 to the store, which
makes the ring 7 elements long, then writes 8 over the 7 in cell 0, and the
queue gives 3, 4, 5, 6, 8, 8. -/
theorem queue0_enqueue_rvalue_failing_input :
    ∃ q0 c1 r1 q5 c6 r6 c7 r7 : queue0 uchar, queue0.ctor .zeroed = .ok q0
      ∧ q0.enqueue 1 = .ok c1 ∧ q0.enqueue_rvalue 1 = .ok r1
      ∧ c1.m_data.size = 6 ∧ r1.m_data.size = 1
      ∧ q0.run [.enqueue 1, .enqueue 2, .enqueue 3, .enqueue 4, .enqueue 5, .enqueue 6, .dequeue,
          .enqueue 7, .dequeue] = .ok (q5, [1, 2])
      ∧ q5.size = 5 ∧ q5.m_index = 2 ∧ q5.m_data.m_data = [7, 2, 3, 4, 5, 6]
      ∧ q5.enqueue 8 = .ok c6 ∧ q5.enqueue_rvalue 8 = .ok r6
      ∧ c6.m_data.size = 6 ∧ c6.m_data.m_data = [7, 8, 3, 4, 5, 6]
      ∧ r6.m_data.size = 7 ∧ r6.m_data.at 0 = .ok 8 ∧ r6.m_data.at 6 = .ok 8
      ∧ c6.run (List.replicate 6 .dequeue) = .ok (c7, [3, 4, 5, 6, 7, 8])
      ∧ r6.run (List.replicate 6 .dequeue) = .ok (r7, [3, 4, 5, 6, 8, 8]) :=
  ⟨_, _, _, _, _, _, _, _, rfl, rfl, rfl, rfl, rfl, rfl, rfl, rfl, rfl, rfl, rfl, rfl, rfl, rfl,
    rfl, rfl, rfl, rfl⟩

/-- C32, failing input.  A newly constructed `queue<_T, 3>` and a newly
constructed `stack<_T, 3>` have `size() == 0` and `empty() == false`; `empty()`
is false in every state of both, so the loop `while (!copy.empty())
copy.dequeue()` of `operator<<` fails the assertion of `dequeue`, also on the
queue that holds 1, 2.  The unbounded variants, constructed in zeroed storage,
are empty. -/
theorem queue_stack_empty_failing_input :
    ∃ (q q2 : queue Nat 3) (s : stack Nat 3) (q1 : queue0 Nat) (s1 : stack0 Nat),
      queue.ctor = .ok q ∧ q.size = 0 ∧ q.empty = false
      ∧ stack.ctor = .ok s ∧ s.size = 0 ∧ s.empty = false
      ∧ (∀ q3 : queue Nat 3, q3.empty = false) ∧ (∀ s3 : stack Nat 3, s3.empty = false)
      ∧ q.ostream_items = .error .assertion
      ∧ q.run [.enqueue 1, .enqueue 2] = .ok (q2, []) ∧ q2.ostream_items = .error .assertion
      ∧ queue0.ctor .zeroed = .ok q1 ∧ q1.size = 0 ∧ q1.empty = true
      ∧ stack0.ctor .zeroed = .ok s1 ∧ s1.size = 0 ∧ s1.empty = true :=
  ⟨_, _, _, _, _, rfl, rfl, rfl, rfl, rfl, rfl, fun _ => rfl, fun _ => rfl, rfl, rfl, rfl, rfl,
    rfl, rfl, rfl, rfl, rfl⟩

/-! ## vector: clear -/

/-- C33, failing input.  On `[1, 2, 3]`, `clear()` decrements `m_size` once:
the size is 2 and the vector is not empty.  On a vector of length 0 the
destroying loop of `erase(begin(), end())` starts at `begin() + 1`, behind
`end()`, and never meets it.  On a vector of length 1 the one decrement is
the right one.  These are the runs with an element type that converts to the
iterator at its own address; with `int` elements `clear()` is ill-formed, as
`erase` is. -/
theorem vector_clear_failing_input :
    (∃ v0 v3 w3 v1 w1 : vector boxed, vector.ctor .zeroed = .ok v0
      ∧ v0.push_all [⟨1⟩, ⟨2⟩, ⟨3⟩] = .ok v3 ∧ v3.size = 3 ∧ v3.clear = .ok w3
      ∧ w3.size = 2 ∧ w3.empty = false ∧ w3.capacity = v3.capacity
      ∧ v0.size = 0 ∧ v0.clear = .error .diverges
      ∧ v0.push_all [⟨1⟩] = .ok v1 ∧ v1.clear = .ok w1 ∧ w1.size = 0 ∧ w1.empty = true)
    ∧ ∀ v : vector Nat, v.clear = .error .ill_formed :=
  ⟨⟨_, _, _, _, _, rfl, rfl, rfl, rfl, rfl, rfl, rfl, rfl, rfl, rfl, rfl, rfl, rfl⟩,
    fun _ => rfl⟩

/-! ## queue: the copy constructors -/

/-- C34, failing input.  The bounded queue of capacity 3 that holds 2, 3, 4
with the head at cell 1 is copied cell by cell with the head at cell 0: the
copy has size 3 and gives 4, 2, 3.  The copy, made in zeroed storage, of the
unbounded queue that holds 1, 2, 3 has the three values in its store and
`size() == 0`, and `dequeue` fails its assertion. -/
theorem queue_copy_failing_input :
    (∃ b0 b c b3 c3 : queue Nat 3, queue.ctor = .ok b0
        ∧ b0.run [.enqueue 1, .enqueue 2, .enqueue 3, .dequeue, .enqueue 4] = .ok (b, [1])
        ∧ b.size = 3 ∧ b.m_index = 1 ∧ b.m_data.m_data = [4, 2, 3]
        ∧ b.copy_ctor = .ok c ∧ c.size = 3 ∧ c.m_index = 0 ∧ c.m_data.m_data = [4, 2, 3]
        ∧ b.run (List.replicate 3 .dequeue) = .ok (b3, [2, 3, 4])
        ∧ c.run (List.replicate 3 .dequeue) = .ok (c3, [4, 2, 3]))
      ∧ ∃ u0 u cu u3 : queue0 uchar, queue0.ctor .zeroed = .ok u0
        ∧ u0.run [.enqueue 1, .enqueue 2, .enqueue 3] = .ok (u, [])
        ∧ u.size = 3 ∧ queue0.copy_ctor .zeroed u = .ok cu
        ∧ cu.m_data.size = 3 ∧ cu.m_data.at 0 = .ok 1 ∧ cu.m_data.at 1 = .ok 2
        ∧ cu.m_data.at 2 = .ok 3 ∧ cu.size = 0 ∧ cu.dequeue = .error .assertion
        ∧ u.run (List.replicate 3 .dequeue) = .ok (u3, [1, 2, 3]) :=
  ⟨⟨_, _, _, _, _, rfl, rfl, rfl, rfl, rfl, rfl, rfl, rfl, rfl, rfl, rfl⟩,
    _, _, _, _, rfl, rfl, rfl, rfl, rfl, rfl, rfl, rfl, rfl, rfl, rfl⟩

/-! ## list: emplace and emplace_back -/

/-- C35, failing input.  On the list `[1, 2]` (size 2), `push_back(3)` and
`emplace_back(3)` both give the walk `[1, 2, 3]`, with `size()` 4 after
`push_back` and 5 after `emplace_back`; `insert(begin(), 3)` and
`emplace(begin(), 3)` both give the walk `[3, 1, 2]`, with `size()` 3 after
`insert` and 4 after `emplace`. -/
theorem list_emplace_failing_input :
    ∃ (l2 lp le li lm : list Nat) (iti itm : list_iterator),
      (list.ctor : list Nat).insert_all [1, 2] = .ok l2 ∧ l2.size = 2
      ∧ l2.push_back 3 = .ok lp ∧ l2.emplace_back 3 = .ok le
      ∧ lp.to_list = .ok [1, 2, 3] ∧ le.to_list = .ok [1, 2, 3]
      ∧ lp.size = 4 ∧ le.size = 5
      ∧ l2.insert l2.begin 3 = .ok (li, iti) ∧ l2.emplace l2.begin 3 = .ok (lm, itm)
      ∧ li.to_list = .ok [3, 1, 2] ∧ lm.to_list = .ok [3, 1, 2]
      ∧ li.size = 3 ∧ lm.size = 4 :=
  ⟨_, _, _, _, _, _, _, rfl, rfl, rfl, rfl, rfl, rfl, rfl, rfl, rfl, rfl, rfl, rfl, rfl, rfl⟩

/-! ## array: iteration from begin() to end() -/

/-- C36, failing input.  On the `array<_T, 3>` with the elements 10, 20, 30,
`end()` is the pointer to cell 2 and the iteration from `begin()` up to
`end()` visits 10 and 20, two elements where `size()` is 3; on an
`array<_T, 1>` `begin() == end()` and it visits nothing. -/
theorem array_iteration_failing_input :
    ∃ (a0 a1 a2 a3 : array Nat 3) (b0 b1 : array Nat 1), array.ctor = .ok a0
      ∧ a0.set 0 10 = .ok a1 ∧ a1.set 1 20 = .ok a2 ∧ a2.set 2 30 = .ok a3
      ∧ a3.at 0 = .ok 10 ∧ a3.at 1 = .ok 20 ∧ a3.at 2 = .ok 30
      ∧ a3.size = 3 ∧ a3.begin = 0 ∧ a3.end = 2 ∧ a3.to_list = .ok [10, 20]
      ∧ array.ctor = .ok b0 ∧ b0.set 0 10 = .ok b1
      ∧ b1.size = 1 ∧ b1.begin = b1.end ∧ b1.to_list = .ok [] :=
  ⟨_, _, _, _, _, _, rfl, rfl, rfl, rfl, rfl, rfl, rfl, rfl, rfl, rfl, rfl, rfl, rfl, rfl, rfl,
    rfl⟩

end JMK
